import Mathlib

/-!
OShell: a shallow embedding of `src/main.c`.

The interpreter's line pipeline (variable expansion, tokenisation, argument
parsing) and its built-ins `cd` and `export` are translated function by
function from `src/main.c`.

Conventions of the embedding:

* A `char` is a natural number (its character code).  The codes the source
  tests for are: `0` NUL, `32` space, `34` double quote, `36` dollar,
  `38` ampersand, `46` dot, `47` slash, `61` equals sign, `126` tilde.
* A buffer (`char x[N]`, a `malloc` block) is the list of its `N` bytes.  A C
  string held in a buffer is the run of bytes before the first NUL; what
  follows the terminator is part of the buffer and is carried along.
* Every read and write is checked against the allocation.  An access outside
  of it is undefined behaviour in C; the embedding then yields `none`.
* A pointer that is only ever advanced (`input[i]` with `i++`) is the suffix
  of the buffer starting at the byte it points to; an exhausted suffix means
  the next read is outside of the allocation.
* Loops become recursive functions on the suffix read or on the counter.  The
  one loop of the source that may run forever (the `while` of
  `loadEnvironmentVars`) takes an explicit iteration budget.
* The operating system is a parameter: `chdir` is a predicate on paths, the
  process environment a map from names to values.
-/

namespace OShell

/-! ## Constants (`src/main.c`, lines 16-22) -/

/-- Max size of a string containing directory. -/
abbrev DIR_MAX : Nat := 2048
/-- Max size of string containing home directory. -/
abbrev HOME_MAX : Nat := 256
/-- Max size of input string. -/
abbrev INPUT_MAX : Nat := 2048
/-- Max number of arguments to parse (includes executable to run). -/
abbrev ARGNUM_MAX : Nat := 11
/-- Max size of argument string. -/
abbrev ARGSIZE_MAX : Nat := 256
/-- Max size of name of exported variable. -/
abbrev VARNAME_MAX : Nat := 64
/-- Max size of value assigned to exported variable. -/
abbrev VARVAL_MAX : Nat := 128

/-! ## Bytes, buffers and the C string library -/

/-- The character codes of a string literal. -/
def str (s : String) : List Nat := s.toList.map Char.toNat

/-- A zero-initialised buffer of `n` bytes (`char x[n] = ""`). -/
def zeros (n : Nat) : List Nat := List.replicate n 0

/-- The read `buf[i]`: `none` outside of the allocation. -/
def readAt (buf : List Nat) (i : Nat) : Option Nat := buf.get? i

/-- The write `buf[i] = c`: `none` outside of the allocation. -/
def writeAt (buf : List Nat) (i c : Nat) : Option (List Nat) :=
  if i < buf.length then some (buf.set i c) else none

/-- The C string a pointer designates: the bytes before the first NUL, `none`
when the allocation ends before a NUL is met. -/
def cstr : List Nat → Option (List Nat)
  | [] => none
  | c :: rest => if c = 0 then some [] else (cstr rest).map (fun s => c :: s)

/-- The library call `strlen(buf)`. -/
def strlen (buf : List Nat) : Option Nat := (cstr buf).map List.length

/-- The library call `strcpy(dst, src)`; the result is the new content of `dst`. The
string and its terminator must fit `dst`. -/
def strcpy (dst src : List Nat) : Option (List Nat) :=
  match cstr src with
  | none => none
  | some s =>
    if s.length + 1 ≤ dst.length then some (s ++ 0 :: dst.drop (s.length + 1)) else none

/-- The library call `strcat(dst, src)`; the result is the new content of `dst`. -/
def strcat (dst src : List Nat) : Option (List Nat) :=
  match cstr dst, cstr src with
  | some d, some s =>
    if d.length + s.length + 1 ≤ dst.length then
      some (d ++ s ++ 0 :: dst.drop (d.length + s.length + 1))
    else none
  | _, _ => none

/-- The library call `strstr(hay, "c")` for a one-character needle `c`: `some (some i)` when the
first occurrence is at `hay + i`, `some none` for `NULL`, `none` when `hay` is not terminated. -/
def strstr : List Nat → Nat → Option (Option Nat)
  | [], _ => none
  | b :: rest, c =>
    if b = c then some (some 0)
    else if b = 0 then some none
    else (strstr rest c).map (fun r => r.map (fun i => i + 1))

/-- The test `strcmp(a, lit) == 0` against a string literal `lit` (given without its terminator);
the comparison stops at the first difference. -/
def strcmpEq : List Nat → List Nat → Option Bool
  | [], _ => none
  | c :: _, [] => some (c == 0)
  | c :: rest, d :: lit => if c = d then strcmpEq rest lit else some false

/-! ## Tokenizer: `splitString` (lines 375-400) -/

mutual
/-- The outer `while (input[i] != '\0')` of `splitString`.  The first argument is the input from
`input[i]` on; `stringStore[j][k]` is the byte `j * (maxSize + 1) + k` of the store. -/
def splitLoop (delimiter maxSize : Nat) :
    List Nat → Nat → Nat → List Nat → Option (Nat × List Nat)
  | [], _, _, _ => none
  | c :: rest, j, k, stringStore =>
    if c = 0 then some (j, stringStore)
    else if c = 34 then
      -- `i++`, then the inner loop
      quoteLoop delimiter maxSize rest j k stringStore
    else if c = delimiter then
      splitLoop delimiter maxSize rest (j + 1) 0 stringStore
    else
      let j1 := if k = maxSize then j + 1 else j
      let k1 := if k = maxSize then 0 else k
      match writeAt stringStore (j1 * (maxSize + 1) + k1) c with
      | none => none
      | some store1 => splitLoop delimiter maxSize rest j1 (k1 + 1) store1
/-- The inner `while (input[i] != '\"')` of `splitString`, which copies a quoted span; on the
closing quote the outer loop goes on behind it. -/
def quoteLoop (delimiter maxSize : Nat) :
    List Nat → Nat → Nat → List Nat → Option (Nat × List Nat)
  | [], _, _, _ => none
  | c :: rest, j, k, stringStore =>
    if c ≠ 34 then
      match writeAt stringStore (j * (maxSize + 1) + k) c with
      | none => none
      | some store1 => quoteLoop delimiter maxSize rest j (k + 1) store1
    else splitLoop delimiter maxSize rest j k stringStore
end

/-- The function `splitString(input, delimiter, maxSize, stringStore)`: the returned `j` and the
store as it is left. -/
def splitString (input : List Nat) (delimiter maxSize : Nat) (stringStore : List Nat) :
    Option (Nat × List Nat) :=
  splitLoop delimiter maxSize input 0 0 stringStore

/-- The string held in slot `r` of a token store with slots of `ARGSIZE_MAX` bytes
(`strings[r]` read as a C string). -/
def tokenAt (stringStore : List Nat) (r : Nat) : Option (List Nat) :=
  cstr (stringStore.drop (r * ARGSIZE_MAX))

/-! ### The reference split, in the words of the specification -/

/-- Position `i` of the line lies inside a quoted span: an odd number of double quotes
precedes it. -/
def insideQuotes (line : List Nat) (i : Nat) : Bool :=
  (line.take i).count 34 % 2 == 1

/-- The reference split: the line is cut at every space lying outside a quoted span, and the
double quotes are dropped from each piece. -/
def refSplit (line : List Nat) : List (List Nat) :=
  (List.splitOnP (fun p => p.2 == 32 && !insideQuotes line p.1) line.enum).map
    (fun piece => (piece.map Prod.snd).filter (fun c => c != 34))

/-! ## Variable expander: `loadEnvironmentVars` (lines 246-301) -/

/-- The process environment: `getenv` as a map from a name to its value, `none` for `NULL`. -/
abbrev Env := List Nat → Option (List Nat)

/-- The loop `while(substring[i] != ' ' && substring[i] != '\0' && substring[i] != '\"')` that
copies the variable name.  The first argument is `substring` from index `i` on, the second is
`i - 1`. -/
def varNameLoop : List Nat → Nat → List Nat → Option (List Nat)
  | [], _, _ => none
  | c :: rest, n, varName =>
    if c ≠ 32 ∧ c ≠ 0 ∧ c ≠ 34 then
      match writeAt varName n c with
      | none => none
      | some varName1 => varNameLoop rest (n + 1) varName1
    else some varName

/-- The loop `while(varVal[k] != '\0') substring[i++] = varVal[k++];`.  The first argument is the
value from `varVal[k]` on (its terminator left out); the final `i` is returned with the buffer. -/
def overwriteLoop : List Nat → Nat → List Nat → Option (Nat × List Nat)
  | [], i, substring => some (i, substring)
  | c :: rest, i, substring =>
    if c ≠ 0 then
      match writeAt substring i c with
      | none => none
      | some sub1 => overwriteLoop rest (i + 1) sub1
    else some (i, substring)

/-- The loop `while(oldSubstring[j] != ' ' && oldSubstring[j] != '\0' && oldSubstring[j] != '\"') j++;`
on `oldSubstring` from index `j` on; the result is `oldSubstring` from the final `j` on. -/
def skipLoop : List Nat → Option (List Nat)
  | [] => none
  | c :: rest => if c ≠ 32 ∧ c ≠ 0 ∧ c ≠ 34 then skipLoop rest else some (c :: rest)

/-- The loop `while(oldSubstring[j] != '\0') substring[i++] = oldSubstring[j++];`. -/
def restoreLoop : List Nat → Nat → List Nat → Option (Nat × List Nat)
  | [], _, _ => none
  | c :: rest, i, substring =>
    if c ≠ 0 then
      match writeAt substring i c with
      | none => none
      | some sub1 => restoreLoop rest (i + 1) sub1
    else some (i, substring)

/-- One pass through the body of the main loop of `loadEnvironmentVars`, `substring` pointing at
a `$`; the result is the block from `substring` on as the body leaves it. -/
def expandBody (env : Env) (substring : List Nat) : Option (List Nat) :=
  match varNameLoop (substring.drop 1) 0 (zeros VARNAME_MAX) with
  | none => none
  | some varName =>
    match cstr varName with
    | none => none
    | some name =>
      -- `if(varVal == NULL) varVal = "";`
      let varVal := (env name).getD []
      match strcpy (zeros ARGSIZE_MAX) substring with
      | none => none
      | some oldSubstring =>
        match overwriteLoop varVal 0 substring with
        | none => none
        | some (i, sub1) =>
          match skipLoop oldSubstring with
          | none => none
          | some oldRest =>
            match restoreLoop oldRest i sub1 with
            | none => none
            | some (i2, sub2) => writeAt sub2 i2 0

/-- The main loop `while((substring = strstr(substring, "$")) != NULL)`.  `before` holds the bytes
of the block in front of `substring`; the result is the whole block (`temp`).  The loop has no
bound in the source, so the number of `strstr` calls allowed is the first argument. -/
def expandLoop (env : Env) : Nat → List Nat → List Nat → Option (List Nat)
  | 0, _, _ => none
  | fuel + 1, before, substring =>
    match strstr substring 36 with
    | none => none
    | some none => some (before ++ substring)
    | some (some idx) =>
      match expandBody env (substring.drop idx) with
      | none => none
      | some sub1 => expandLoop env fuel (before ++ substring.take idx) sub1

/-- The function `loadEnvironmentVars(str)`: the content of `str` when it returns.  `block` is the
`malloc(ARGSIZE_MAX)` block as the allocator hands it out (its content is not initialised). -/
def loadEnvironmentVars (env : Env) (fuel : Nat) (block str : List Nat) : Option (List Nat) :=
  match strcpy block str with
  | none => none
  | some substring =>
    match expandLoop env fuel [] substring with
    | none => none
    | some temp => strcpy str temp

/-! ## Argument parsing: `parseInput` (lines 406-421) -/

/-- What `parseInput` leaves behind: the input buffer after expansion, the returned value
(`none` when control reaches the end of the function without a `return`), `*argNumStore`
and the argument buffers. -/
structure ParseResult where
  input : List Nat
  ret : Option Nat
  argNum : Nat
  argumentStore : List (List Nat)
deriving DecidableEq, Repr

/-- The loop `for(int i = 0; i < ARGNUM_MAX; i++)` of `parseInput`; the first argument counts the
iterations left, `ARGNUM_MAX - i`. -/
def parseLoop (strings : List Nat) :
    Nat → Nat → Nat → List (List Nat) → Option (Option Nat × Nat × List (List Nat))
  | 0, _, argNum, argumentStore => some (none, argNum, argumentStore)
  | n + 1, i, argNum, argumentStore =>
    match readAt strings (i * ARGSIZE_MAX) with
    | none => none
    | some c =>
      if c = 38 then some (some 0, i, argumentStore)
      else if c = 0 then some (some 1, i, argumentStore)
      else
        match argumentStore.get? i with
        | none => none
        | some dst =>
          match strcpy dst (strings.drop (i * ARGSIZE_MAX)) with
          | none => none
          | some dst1 => parseLoop strings n (i + 1) argNum (argumentStore.set i dst1)

/-- The function `parseInput(input, argNumStore, argumentStore)`.  `argNum` is the value
`*argNumStore` holds on entry. -/
def parseInput (env : Env) (fuel : Nat) (block input : List Nat) (argNum : Nat)
    (argumentStore : List (List Nat)) : Option ParseResult :=
  match loadEnvironmentVars env fuel block input with
  | none => none
  | some input1 =>
    match splitString input1 32 (ARGSIZE_MAX - 1) (zeros (ARGNUM_MAX * ARGSIZE_MAX)) with
    | none => none
    | some (_, strings) =>
      match parseLoop strings ARGNUM_MAX 0 argNum argumentStore with
      | none => none
      | some (ret, n, args1) => some ⟨input1, ret, n, args1⟩

/-! ## Working directory: `cd` (lines 426-483) -/

/-- What a call of `cd` leaves behind: the buffer `workDir`, the path handed to `chdir` (`none`
when `chdir` is not called) and whether `handleChDirError` ran. -/
structure CdResult where
  workDir : List Nat
  chdirPath : Option (List Nat)
  failed : Bool
deriving DecidableEq, Repr

/-- The block `if(chdir(workDir) == -1) { handleChDirError(); strcpy(workDir, workDirCopy); }`
that ends each of the four cases. -/
def cdFinish (chdir : List Nat → Bool) (workDirCopy workDir : List Nat) : Option CdResult :=
  match cstr workDir with
  | none => none
  | some path =>
    if chdir path then some ⟨workDir, some path, false⟩
    else
      match strcpy workDir workDirCopy with
      | none => none
      | some restored => some ⟨restored, some path, true⟩

/-- The statement `if(workDir[strlen(workDir) - 1] != '/') workDir[strlen(workDir)] = '/';`.
With an empty string the index `strlen(workDir) - 1` wraps around and is outside of the buffer. -/
def addSlash (workDir : List Nat) : Option (List Nat) :=
  match strlen workDir with
  | none => none
  | some 0 => none
  | some (n + 1) =>
    match readAt workDir n with
    | none => none
    | some c => if c ≠ 47 then writeAt workDir (n + 1) 47 else some workDir

/-- The loop `while(workDir[i+1] != '\0') i++;` on `workDir` from index `i + 1` on. -/
def lastIndexLoop : List Nat → Nat → Option Nat
  | [], _ => none
  | c :: rest, i => if c ≠ 0 then lastIndexLoop rest (i + 1) else some i

/-- The loop `do { workDir[i] = '\0'; i--; } while (workDir[i] != '/');`.  From `i = 0` the
decrement gives `-1` and the test reads in front of the buffer. -/
def stripLoop : Nat → List Nat → Option (List Nat)
  | 0, workDir =>
    match writeAt workDir 0 0 with
    | none => none
    | some _ => none
  | i + 1, workDir =>
    match writeAt workDir (i + 1) 0 with
    | none => none
    | some wd1 =>
      match readAt wd1 i with
      | none => none
      | some c => if c ≠ 47 then stripLoop i wd1 else some wd1

/-- The function `cd(arg)` on the globals `home` and `workDir`; `arg` is `none` for `NULL`. -/
def cd (chdir : List Nat → Bool) (home workDir : List Nat) (arg : Option (List Nat)) :
    Option CdResult :=
  match strcpy (zeros DIR_MAX) workDir with
  | none => none
  | some workDirCopy =>
    match arg with
    | none => some ⟨workDir, none, false⟩
    | some arg =>
      match readAt arg 0 with
      | none => none
      | some a0 =>
        if a0 = 126 then
          match strcpy workDir home, strlen arg with
          | some wd1, some n =>
            if n > 2 then
              match strcat wd1 (arg.drop 2) with
              | none => none
              | some wd2 => cdFinish chdir workDirCopy wd2
            else cdFinish chdir workDirCopy wd1
          | _, _ => none
        else
          match strcmpEq arg [46, 46] with
          | none => none
          | some true =>
            match lastIndexLoop (workDir.drop 1) 0 with
            | none => none
            | some i =>
              match stripLoop i workDir with
              | none => none
              | some wd1 => cdFinish chdir workDirCopy wd1
          | some false =>
            if a0 = 47 then
              match strcpy workDir arg with
              | none => none
              | some wd1 =>
                match addSlash wd1 with
                | none => none
                | some wd2 => cdFinish chdir workDirCopy wd2
            else
              match strcat workDir arg with
              | none => none
              | some wd1 =>
                match addSlash wd1 with
                | none => none
                | some wd2 => cdFinish chdir workDirCopy wd2

/-- The tracked working directory: the string held in `workDir`. -/
def tracked (workDir : List Nat) : Option (List Nat) := cstr workDir

/-! ## `export` (lines 498-522) -/

/-- The library call `setenv(name, value, 1)`: `none` for the failure `EINVAL` (the name is empty
or contains `=`), otherwise the environment with the entry set.  The environment is the map
`getenv` computes on names without `=`; what `getenv` answers for a name that contains `=` is
not described by it. -/
def setenv (env : Env) (name value : List Nat) : Option Env :=
  if name = [] ∨ 61 ∈ name then none
  else some (fun n => if n = name then some value else env n)

/-- The first loop of `export`, which copies the name up to the first `=`.  The first argument is
`arg` from index `i` on; the result is `arg` from the final `i` on, and `varName`. -/
def exportNameLoop : List Nat → Nat → List Nat → Option (List Nat × List Nat)
  | [], _, _ => none
  | c :: rest, i, varName =>
    if c ≠ 0 then
      if c = 61 then some (rest, varName)
      else
        match writeAt varName i c with
        | none => none
        | some varName1 => exportNameLoop rest (i + 1) varName1
    else some (c :: rest, varName)

/-- The second loop of `export`, `while(arg[i] != '\0') varVal[j++] = arg[i++];`. -/
def exportValLoop : List Nat → Nat → List Nat → Option (List Nat)
  | [], _, _ => none
  | c :: rest, j, varVal =>
    if c ≠ 0 then
      match writeAt varVal j c with
      | none => none
      | some varVal1 => exportValLoop rest (j + 1) varVal1
    else some varVal

/-- What a call of `export` leaves behind: the environment, the name and the value handed to
`setenv`, and whether `handleSetEnvError` ran. -/
structure ExportResult where
  env : Env
  name : List Nat
  value : List Nat
  failed : Bool

/-- The function `export(arg)` (`export` is a reserved word here, hence the name). -/
def exportVar (env : Env) (arg : List Nat) : Option ExportResult :=
  match exportNameLoop arg 0 (zeros VARNAME_MAX) with
  | none => none
  | some (rest, varName) =>
    match exportValLoop rest 0 (zeros VARVAL_MAX) with
    | none => none
    | some varVal =>
      match cstr varName, cstr varVal with
      | some name, some value =>
        match setenv env name value with
        | none => some ⟨env, name, value, true⟩
        | some env1 => some ⟨env1, name, value, false⟩
      | _, _ => none

end OShell

namespace OShell

/-! ## Children: `writeReapingMsg`, `handleChildSignals` (lines 306-323) and the foreground wait
of `executeCommand` (lines 564-571) -/

/-- The children of the interpreter as the operating system keeps them: the process ids of those
still running, and of those that have terminated and are not collected yet, in the order in which
`waitpid(-1, ..)` hands them out. -/
structure Os where
  running : List Int
  zombies : List Int
deriving DecidableEq, Repr

/-- The system call `waitpid(-1, &status, WNOHANG)`: the id of a terminated child, which is
thereby collected; 0 when children exist but none has terminated; -1 when there is no child. -/
def waitpidAny (os : Os) : Int × Os :=
  match os.zombies with
  | pid :: rest => (pid, { os with zombies := rest })
  | [] => if os.running = [] then (-1, os) else (0, os)

/-- The system call `waitpid(pid, &status, 0)`: `none` while the call blocks (the child is still
running); the id when the child has terminated, which is thereby collected; -1 when the process
has no such child (any more). -/
def waitpidChild (os : Os) (pid : Int) : Option (Int × Os) :=
  if pid ∈ os.zombies then some (pid, { os with zombies := os.zombies.erase pid })
  else if pid ∈ os.running then none
  else some (-1, os)

/-- The function `writeReapingMsg(childID)`: one termination record is appended to the log (a
record is represented by the process id it names). -/
def writeReapingMsg (log : List Int) (childID : Int) : List Int := log ++ [childID]

/-- The loop `while((pid = waitpid(-1, &status, WNOHANG)) > 0) writeReapingMsg(pid);`.  The first
argument bounds the number of `waitpid` calls; the last counts the calls made. -/
def reapLoop : Nat → Os → List Int → Nat → Option (Os × List Int × Nat)
  | 0, _, _, _ => none
  | fuel + 1, os, log, calls =>
    if (waitpidAny os).1 > 0 then
      reapLoop fuel (waitpidAny os).2 (writeReapingMsg log (waitpidAny os).1) (calls + 1)
    else some ((waitpidAny os).2, log, calls + 1)

/-- The function `handleChildSignals()`: the children, the log and the number of `waitpid` calls
made when it returns. -/
def handleChildSignals (fuel : Nat) (os : Os) (log : List Int) : Option (Os × List Int × Nat) :=
  reapLoop fuel os log 0

/-- Where the parent stands in the branch `if(doWait)` of `executeCommand`, `fork` having returned
`childID`: before `waitpid(childID, &status, 0)`, before `writeReapingMsg(childID)`, or behind
both. -/
inductive ParentPc where
  | atWait (childID : Int)
  | atLog (childID : Int)
  | returned
deriving DecidableEq, Repr

/-- The interpreter in the middle of a foreground `executeCommand`: its children, the log and
the position of the parent. -/
structure Foreground where
  os : Os
  log : List Int
  pc : ParentPc
deriving DecidableEq, Repr

/-- What can happen next: a running child terminates; the handler installed for `SIGCHLD`
(`handleChildSignals`) runs, interrupting the parent between two statements; the parent
executes its next statement. -/
inductive Step where
  | childExits (pid : Int)
  | sigchld
  | parent
deriving DecidableEq, Repr

/-- One step of the interleaving; `none` when the step cannot be taken (the child named is not
running, or the parent is blocked in `waitpid`). -/
def foregroundStep (s : Foreground) : Step → Option Foreground
  | Step.childExits pid =>
    if pid ∈ s.os.running then
      some { s with os := ⟨s.os.running.erase pid, s.os.zombies ++ [pid]⟩ }
    else none
  | Step.sigchld =>
    match handleChildSignals (s.os.zombies.length + 1) s.os s.log with
    | none => none
    | some (os1, log1, _) => some { s with os := os1, log := log1 }
  | Step.parent =>
    match s.pc with
    | ParentPc.atWait childID =>
      -- the value `waitpid` returns is not looked at
      match waitpidChild s.os childID with
      | none => none
      | some (_, os1) => some { s with os := os1, pc := ParentPc.atLog childID }
    | ParentPc.atLog childID =>
      some { s with log := writeReapingMsg s.log childID, pc := ParentPc.returned }
    | ParentPc.returned => some s

/-- A run of the interleaving along a schedule. -/
def foregroundRun : List Step → Foreground → Option Foreground
  | [], s => some s
  | step :: rest, s =>
    match foregroundStep s step with
    | none => none
    | some s1 => foregroundRun rest s1

/-! ## Interactive loop: `takeInput`, `builtIn`, `shell` (lines 362-368, 527-541, 574-614) -/

/-- The function `takeInput(inputStore, size)` without the prompt.  `read` is what
`fgets(inputStore, size, stdin)` delivers: `none` for `NULL` (the buffer stays as it is), otherwise
the characters of the line, newline included, which it stores with a terminator.  The last
character of the string is then cut off; with an empty string the index is in front of the
buffer. -/
def takeInput (read : Option (List Nat)) (inputStore : List Nat) : Option (List Nat) :=
  let stored :=
    match read with
    | none => some inputStore
    | some chars =>
      if chars.length + 1 ≤ inputStore.length then
        some (chars ++ 0 :: inputStore.drop (chars.length + 1))
      else none
  match stored with
  | none => none
  | some buf =>
    match strlen buf with
    | none => none
    | some 0 => none
    | some (n + 1) => writeAt buf n 0

/-- A call the dispatcher makes: `builtIn(command, arg)` with the content of the argument buffer,
or `executeCommand(argNum, args, doWait)` (`doWait` is `none` when `parseInput` ended without a
`return`). -/
inductive Event where
  | builtIn (command : Nat) (arg : List Nat)
  | executeCommand (argNum : Nat) (args : List (List Nat)) (doWait : Option Nat)
deriving DecidableEq, Repr

/-- The state the interactive loop works on: the locals `input`, `arguments` and `argNum` of
`shell`, the environment, the globals `workDir` and `home`, and the calls made so far to
`builtIn` and `executeCommand`. -/
structure Shell where
  input : List Nat
  arguments : List (List Nat)
  argNum : Nat
  env : Env
  workDir : List Nat
  home : List Nat
  events : List Event

/-- The function `echo(arg)` for an argument that is not `NULL`: the text printed by
`printf("%s\n", arg)`, the string and a newline. -/
def echo (arg : List Nat) : Option (List Nat) := (cstr arg).map (fun s => s ++ [10])

/-- The function `builtIn(command, arg)`: `'c'` (99) is `cd`, `'e'` (101) is `echo`, `'x'` (120)
is `export`; the call is recorded. -/
def builtIn (chdir : List Nat → Bool) (command : Nat) (arg : List Nat) (st : Shell) :
    Option Shell :=
  let st1 := { st with events := st.events ++ [Event.builtIn command arg] }
  if command = 99 then
    match cd chdir st.home st.workDir (some arg) with
    | none => none
    | some r => some { st1 with workDir := r.workDir }
  else if command = 101 then
    match echo arg with
    | none => none
    | some _ => some st1
  else if command = 120 then
    match exportVar st.env arg with
    | none => none
    | some r => some { st1 with env := r.env }
  else some st1

/-- The loop `for(int i = 0; i < ARGNUM_MAX; i++) arguments[i] = memset(arguments[i], 0, ARGSIZE_MAX)`
that clears the argument buffers; the first argument counts the iterations left. -/
def clearLoop : Nat → Nat → List (List Nat) → Option (List (List Nat))
  | 0, _, arguments => some arguments
  | n + 1, i, arguments =>
    match arguments.get? i with
    | none => none
    | some buf =>
      if ARGSIZE_MAX ≤ buf.length then
        clearLoop n (i + 1) (arguments.set i (zeros ARGSIZE_MAX ++ buf.drop ARGSIZE_MAX))
      else none

/-- The call `builtIn(command, arguments[1])` made by `shell`; the loop goes on. -/
def callBuiltIn (chdir : List Nat → Bool) (command : Nat) (st : Shell) : Option (Shell × Bool) :=
  match st.arguments.get? 1 with
  | none => none
  | some a1 =>
    match builtIn chdir command a1 st with
    | none => none
    | some st1 => some (st1, true)

/-- The `if` chain of `shell` on `arguments[0]`: the state after the call made, and the value of
`running`.  The literals are `exit`, `cd`, `echo` and `export`. -/
def dispatch (chdir : List Nat → Bool) (doWait : Option Nat) (st : Shell) :
    Option (Shell × Bool) :=
  match st.arguments.get? 0 with
  | none => none
  | some a0 =>
    match strcmpEq a0 [101, 120, 105, 116] with
    | none => none
    | some true => some (st, false)
    | some false =>
      match strcmpEq a0 [99, 100] with
      | none => none
      | some true => callBuiltIn chdir 99 st
      | some false =>
        match strcmpEq a0 [101, 99, 104, 111] with
        | none => none
        | some true => callBuiltIn chdir 101 st
        | some false =>
          match strcmpEq a0 [101, 120, 112, 111, 114, 116] with
          | none => none
          | some true => callBuiltIn chdir 120 st
          | some false =>
            some ({ st with events := st.events ++
              [Event.executeCommand st.argNum st.arguments doWait] }, true)

/-- One pass through the body of the `do ... while (running)` loop of `shell`: the state it
leaves and the value of `running`.  `read` is what `fgets` delivers, `block` the block `malloc`
hands to `loadEnvironmentVars`. -/
def shellIteration (chdir : List Nat → Bool) (fuel : Nat) (read : Option (List Nat))
    (block : List Nat) (st : Shell) : Option (Shell × Bool) :=
  match takeInput read st.input with
  | none => none
  | some input1 =>
    match parseInput st.env fuel block input1 st.argNum st.arguments with
    | none => none
    | some r =>
      match dispatch chdir r.ret
        { st with input := r.input, arguments := r.argumentStore, argNum := r.argNum } with
      | none => none
      | some (st1, running) =>
        match clearLoop ARGNUM_MAX 0 st1.arguments with
        | none => none
        | some cleared => some ({ st1 with arguments := cleared }, running)

/-- The loop `do ... while (running)` of `shell` on the lines delivered one after the other
(each with the block `malloc` hands out in that pass).  The value returned with the state is
`running`: `false` when the loop has ended, `true` when it is waiting for the next line. -/
def shellLoop (chdir : List Nat → Bool) (fuel : Nat) :
    List (Option (List Nat) × List Nat) → Shell → Option (Shell × Bool)
  | [], st => some (st, true)
  | (read, block) :: rest, st =>
    match shellIteration chdir fuel read block st with
    | none => none
    | some (st1, running) =>
      if running then shellLoop chdir fuel rest st1 else some (st1, false)

end OShell

namespace OShell

/-! ## Auxiliary definitions used in the proofs -/

/-- The reference split as a recursion on the line: `q` tells whether the position reached lies
inside a quoted span.  The head of the result is the piece being read. -/
def refAux : Bool → List Nat → List (List Nat)
  | _, [] => [[]]
  | q, c :: rest =>
    if c = 34 then refAux (!q) rest
    else if c = 32 ∧ q = false then [] :: refAux q rest
    else List.modifyHead (List.cons c) (refAux q rest)

/-- A token in its slot: the token followed by NUL bytes up to `ARGSIZE_MAX` bytes. -/
def pad (t : List Nat) : List Nat := t ++ zeros (ARGSIZE_MAX - t.length)

/-- The slots of a token sequence laid out one after the other. -/
def pack : List (List Nat) → List Nat
  | [] => []
  | t :: ts => pad t ++ pack ts

end OShell

namespace OShell

/-- A token that `parseInput` takes as an argument, in the words of the specification: it is not
empty and does not begin with `&`. -/
def isArgument (t : List Nat) : Bool := t != [] && t.head? != some 38

/-! ## Sample data for the closed instances -/

/-- A buffer of `n` bytes holding the string `s`, NUL bytes behind it. -/
def bufOf (n : Nat) (s : List Nat) : List Nat := s ++ zeros (n - s.length)

/-- An environment with `HOME=/home/u`, `A=x$B` and `B=y`; every other name is unset. -/
def sampleEnv : Env := fun n =>
  if n = str "HOME" then some (str "/home/u")
  else if n = str "A" then some (str "x$B")
  else if n = str "B" then some (str "y")
  else none

/-- An environment whose only variable `A` holds 250 characters `a`. -/
def longEnv : Env := fun n =>
  if n = str "A" then some (List.replicate 250 97) else none

/-- An environment whose only variable `L` holds the text `$L`. -/
def loopEnv : Env := fun n =>
  if n = str "L" then some (str "$L") else none

/-- The line of 263 characters made of 130 characters `a`, a space, 130 characters `b`, a space
and `&`. -/
def backgroundLine : List Nat :=
  List.replicate 130 97 ++ 32 :: (List.replicate 130 98 ++ [32, 38])

/-- The line of 302 characters made of 150 characters `a`, two spaces and 150 characters `b`. -/
def gapLine : List Nat :=
  List.replicate 150 97 ++ 32 :: 32 :: List.replicate 150 98

/-- The line of 266 characters made of `exit`, a space, 130 characters `a`, a space and 130
characters `b`. -/
def exitLine : List Nat :=
  str "exit " ++ (List.replicate 130 97 ++ 32 :: List.replicate 130 98)

/-- The state of `shell` when it enters its loop for the first time in the directory
`/home/user/`: `input` and the argument buffers hold NUL bytes, `argNum` is 0 and no call has
been made. -/
def freshShell (env : Env) : Shell :=
  ⟨zeros INPUT_MAX, List.replicate ARGNUM_MAX (zeros ARGSIZE_MAX), 0, env,
    bufOf DIR_MAX (str "/home/user/"), bufOf HOME_MAX (str "/home/user/"), []⟩

end OShell

namespace OShell

/-! ## Buffers and C strings -/

theorem zeros_length (n : Nat) : (zeros n).length = n := List.length_replicate n 0

theorem zeros_succ (n : Nat) : zeros (n + 1) = 0 :: zeros n := rfl

theorem zeros_add (a b : Nat) : zeros a ++ zeros b = zeros (a + b) := by
  unfold zeros
  rw [List.append_replicate_replicate]

theorem cstr_append (s junk : List Nat) (h : 0 ∉ s) : cstr (s ++ 0 :: junk) = some s := by
  induction s with
  | nil => simp [cstr]
  | cons c s ih =>
    have hc : c ≠ 0 := fun e => h (by simp [e])
    have hs : 0 ∉ s := fun e => h (by simp [e])
    simp [cstr, hc, ih hs]

theorem cstr_eq_some {buf s : List Nat} (h : cstr buf = some s) :
    0 ∉ s ∧ ∃ junk, buf = s ++ 0 :: junk := by
  induction buf generalizing s with
  | nil => simp [cstr] at h
  | cons c buf ih =>
    unfold cstr at h
    by_cases hc : c = 0
    · simp [hc] at h
      subst h
      exact ⟨by simp, buf, by simp [hc]⟩
    · simp only [hc, if_false, Option.map_eq_some'] at h
      obtain ⟨s1, h1, rfl⟩ := h
      obtain ⟨hn, junk, hj⟩ := ih h1
      refine ⟨?_, junk, by simp [hj]⟩
      simp only [List.mem_cons, not_or]
      exact ⟨fun e => hc e.symm, hn⟩

theorem cstr_zeros (n : Nat) : cstr (zeros (n + 1)) = some [] := by
  simp [zeros_succ, cstr]

theorem writeAt_append (a r : List Nat) (b c : Nat) :
    writeAt (a ++ b :: r) a.length c = some (a ++ c :: r) := by
  simp [writeAt]

theorem strcpy_append (dst s junk : List Nat) (h : 0 ∉ s) (hfit : s.length + 1 ≤ dst.length) :
    strcpy dst (s ++ 0 :: junk) = some (s ++ 0 :: dst.drop (s.length + 1)) := by
  simp [strcpy, cstr_append s junk h, hfit]

theorem strstr_none (s junk : List Nat) (c : Nat) (h0 : 0 ∉ s) (hc : c ∉ s) (hc0 : c ≠ 0) :
    strstr (s ++ 0 :: junk) c = some none := by
  induction s with
  | nil => simp [strstr, hc0.symm]
  | cons b s ih =>
    have hb0 : b ≠ 0 := fun e => h0 (by simp [e])
    have hbc : b ≠ c := fun e => hc (by simp [e])
    have h0s : 0 ∉ s := fun e => h0 (by simp [e])
    have hcs : c ∉ s := fun e => hc (by simp [e])
    simp [strstr, hb0, hbc, ih h0s hcs]

theorem strstr_first (s rest : List Nat) (c : Nat) (h0 : 0 ∉ s) (hc : c ∉ s) :
    strstr (s ++ c :: rest) c = some (some s.length) := by
  induction s with
  | nil => simp [strstr]
  | cons b s ih =>
    have hb0 : b ≠ 0 := fun e => h0 (by simp [e])
    have hbc : b ≠ c := fun e => hc (by simp [e])
    have h0s : 0 ∉ s := fun e => h0 (by simp [e])
    have hcs : c ∉ s := fun e => hc (by simp [e])
    simp [strstr, hb0, hbc, ih h0s hcs]

end OShell

namespace OShell

/-! ## The reference split as a recursion -/

theorem refAux_ne_nil (q : Bool) (rest : List Nat) : refAux q rest ≠ [] := by
  induction rest generalizing q with
  | nil => simp [refAux]
  | cons c rest ih =>
    unfold refAux
    split
    · exact ih _
    · split
      · simp
      · have := ih q
        cases h : refAux q rest with
        | nil => exact absurd h this
        | cons a l => simp [List.modifyHead]

theorem map_clean_modifyHead (x : Nat × Nat) (L : List (List (Nat × Nat))) :
    (List.modifyHead (List.cons x) L).map
        (fun piece => (piece.map Prod.snd).filter (fun c => c != 34)) =
      if x.2 = 34 then L.map (fun piece => (piece.map Prod.snd).filter (fun c => c != 34))
      else List.modifyHead (List.cons x.2)
        (L.map (fun piece => (piece.map Prod.snd).filter (fun c => c != 34))) := by
  cases L with
  | nil => simp [List.modifyHead]
  | cons a l =>
    by_cases h : x.2 = 34
    · simp [List.modifyHead, h]
    · simp [List.modifyHead, h]

theorem splitOnP_enumFrom (done rest : List Nat) :
    (List.splitOnP (fun p => p.2 == 32 && !insideQuotes (done ++ rest) p.1)
        (List.enumFrom done.length rest)).map
        (fun piece => (piece.map Prod.snd).filter (fun c => c != 34)) =
      refAux (done.count 34 % 2 == 1) rest := by
  induction rest generalizing done with
  | nil => simp [refAux]
  | cons c rest ih =>
    have ih1 := ih (done ++ [c])
    simp only [List.append_assoc, List.singleton_append, List.length_append,
      List.length_singleton] at ih1
    have hin : insideQuotes (done ++ c :: rest) done.length = (done.count 34 % 2 == 1) := by
      simp [insideQuotes]
    rw [List.enumFrom_cons, List.splitOnP_cons]
    unfold refAux
    by_cases hq : c = 34
    · subst hq
      simp only [if_true]
      rw [if_neg (by simp), map_clean_modifyHead, if_pos rfl, ih1]
      congr 1
      rw [List.count_append]
      simp only [List.count_singleton_self]
      cases h : (done.count 34 % 2 == 1)
      · simp at h ⊢; omega
      · simp at h ⊢; omega
    · have hcount : (done ++ [c]).count 34 = done.count 34 := by
        rw [List.count_append]
        simp [List.count_singleton, hq]
      rw [hcount] at ih1
      simp only [hq, if_false]
      by_cases hs : c = 32 ∧ (done.count 34 % 2 == 1) = false
      · rw [if_pos hs, if_pos (by rw [hin, hs.2]; simp [hs.1])]
        simp only [List.map_cons, List.map_nil, List.filter_nil]
        rw [ih1]
      · rw [if_neg hs, if_neg, map_clean_modifyHead, if_neg hq, ih1]
        simp only [hin]
        intro h
        apply hs
        simp at h
        constructor
        · exact h.1
        · simp [h.2]

theorem refSplit_eq_refAux (line : List Nat) : refSplit line = refAux false line := by
  have := splitOnP_enumFrom [] line
  simpa [refSplit, List.enum] using this

theorem mem_refAux (q : Bool) (rest : List Nat) :
    ∀ t ∈ refAux q rest, ∀ x ∈ t, x ∈ rest := by
  induction rest generalizing q with
  | nil => simp [refAux]
  | cons c rest ih =>
    intro t ht x hx
    unfold refAux at ht
    split at ht
    · exact List.mem_cons_of_mem _ (ih _ t ht x hx)
    · split at ht
      · rcases List.mem_cons.1 ht with h | h
        · subst h; simp at hx
        · exact List.mem_cons_of_mem _ (ih _ t h x hx)
      · cases h : refAux q rest with
        | nil => exact absurd h (refAux_ne_nil q rest)
        | cons a l =>
          rw [h] at ht
          simp only [List.modifyHead, List.mem_cons] at ht
          rcases ht with h1 | h1
          · subst h1
            rcases List.mem_cons.1 hx with h2 | h2
            · subst h2; simp
            · exact List.mem_cons_of_mem _ (ih q a (by simp [h]) x h2)
          · exact List.mem_cons_of_mem _ (ih q t (by simp [h, h1]) x hx)

end OShell

namespace OShell

/-! ## `splitString` against the reference split -/

theorem pad_length (t : List Nat) (h : t.length ≤ 256) : (pad t).length = 256 := by
  simp only [pad, List.length_append, zeros_length, ARGSIZE_MAX]
  omega

theorem store_write (pre cur : List Nat) (n c : Nat) :
    writeAt (pre ++ cur ++ zeros (n + 1)) (pre.length + cur.length) c =
      some (pre ++ (cur ++ [c]) ++ zeros n) := by
  have := writeAt_append (pre ++ cur) (zeros n) 0 c
  simp only [List.length_append] at this
  rw [zeros_succ, this]
  simp

theorem store_next (pre cur : List Nat) (n : Nat) (hn : 256 - cur.length ≤ n) :
    pre ++ cur ++ zeros n = (pre ++ pad cur) ++ [] ++ zeros (n - (256 - cur.length)) := by
  simp only [pad, List.append_assoc, List.append_nil, List.nil_append, ARGSIZE_MAX]
  rw [zeros_add]
  congr 3
  omega

theorem splitLoop_refAux (rest : List Nat) :
    ∀ (junk pre cur : List Nat) (j n : Nat), 0 ∉ rest → pre.length = j * 256 →
      (rest.count 34 % 2 = 0 → ∀ t0 ts, refAux false rest = t0 :: ts →
        cur.length + t0.length ≤ 255 → (∀ t ∈ ts, t.length ≤ 255) →
        256 - cur.length + 256 * ts.length ≤ n →
        splitLoop 32 255 (rest ++ 0 :: junk) j cur.length (pre ++ cur ++ zeros n) =
          some (j + ts.length, pre ++ pack ((cur ++ t0) :: ts) ++
            zeros (n - (256 - cur.length) - 256 * ts.length))) ∧
      (rest.count 34 % 2 = 1 → ∀ t0 ts, refAux true rest = t0 :: ts →
        cur.length + t0.length ≤ 255 → (∀ t ∈ ts, t.length ≤ 255) →
        256 - cur.length + 256 * ts.length ≤ n →
        quoteLoop 32 255 (rest ++ 0 :: junk) j cur.length (pre ++ cur ++ zeros n) =
          some (j + ts.length, pre ++ pack ((cur ++ t0) :: ts) ++
            zeros (n - (256 - cur.length) - 256 * ts.length))) := by
  induction rest with
  | nil =>
    intro junk pre cur j n _ _
    constructor
    · intro _ t0 ts href hlen _ hn
      simp only [refAux, List.cons.injEq] at href
      obtain ⟨rfl, rfl⟩ := href
      simp only [List.nil_append, splitLoop, if_true, List.append_nil, pack, pad,
        List.length_nil, Nat.mul_zero, Nat.sub_zero, List.append_assoc, ARGSIZE_MAX]
      rw [zeros_add]
      congr 5
      simp only [List.length_nil] at hn hlen
      omega
    · intro h; simp at h
  | cons c rest ih =>
    intro junk pre cur j n h0 hpre
    have hc0 : c ≠ 0 := fun e => h0 (by simp [e])
    have h0r : 0 ∉ rest := fun e => h0 (by simp [e])
    constructor
    · intro hbal t0 ts href hlen hts hn
      by_cases hq : c = 34
      · -- opening quote
        subst hq
        rw [List.cons_append, splitLoop, if_neg (by decide), if_pos rfl]
        have hodd : rest.count 34 % 2 = 1 := by
          simp only [List.count_cons_self] at hbal; omega
        simp only [refAux, if_true, Bool.not_false] at href
        exact (ih junk pre cur j n h0r hpre).2 hodd t0 ts href hlen hts hn
      · have hev : rest.count 34 % 2 = 0 := by
          rw [List.count_cons_of_ne (fun e => hq e.symm)] at hbal; exact hbal
        by_cases hs : c = 32
        · -- delimiter
          subst hs
          rw [List.cons_append, splitLoop, if_neg (by decide), if_neg (by decide), if_pos rfl]
          rw [refAux, if_neg (by decide), if_pos ⟨rfl, rfl⟩] at href
          simp only [List.cons.injEq] at href
          obtain ⟨rfl, rfl⟩ := href
          obtain ⟨t1, ts1, h1⟩ := List.exists_cons_of_ne_nil (refAux_ne_nil false rest)
          rw [h1] at hts hn ⊢
          simp only [List.length_cons] at hn
          have hcur : cur.length ≤ 256 := by omega
          rw [store_next pre cur n (by omega)]
          have hpre1 : (pre ++ pad cur).length = (j + 1) * 256 := by
            rw [List.length_append, pad_length cur hcur, hpre]; ring
          have := (ih junk (pre ++ pad cur) [] (j + 1) (n - (256 - cur.length)) h0r
            hpre1).1 hev t1 ts1 h1
            (by simp only [List.length_nil, Nat.zero_add]; exact hts t1 (List.mem_cons_self _ _))
            (fun t ht => hts t (List.mem_cons_of_mem _ ht)) (by simp only [List.length_nil]; omega)
          simp only [List.length_nil] at this
          rw [this]
          simp only [pack, List.nil_append, List.append_nil, List.append_assoc, List.length_cons,
            ARGSIZE_MAX]
          have e1 : n - (256 - cur.length) - (256 - 0) - 256 * ts1.length =
              n - (256 - cur.length) - 256 * (ts1.length + 1) := by omega
          have e2 : j + 1 + ts1.length = j + (ts1.length + 1) := by omega
          rw [e1, e2]
        · -- ordinary character
          rw [List.cons_append, splitLoop, if_neg hc0, if_neg hq, if_neg hs]
          simp only [refAux] at href
          rw [if_neg hq, if_neg (fun h => hs h.1)] at href
          obtain ⟨t1, ts1, h1⟩ := List.exists_cons_of_ne_nil (refAux_ne_nil false rest)
          rw [h1] at href
          simp only [List.modifyHead, List.cons.injEq] at href
          obtain ⟨rfl, rfl⟩ := href
          simp only [List.length_cons] at hlen
          have hk : cur.length ≠ 255 := by omega
          simp only [hk, if_false]
          obtain ⟨m, rfl⟩ : ∃ m, n = m + 1 := ⟨n - 1, by omega⟩
          have hw := store_write pre cur m c
          rw [hpre] at hw
          rw [hw]
          simp only [List.append_eq]
          have := (ih junk pre (cur ++ [c]) j m h0r hpre).1 hev t1 ts1 h1
            (by simp only [List.length_append, List.length_singleton]; omega) hts
            (by simp only [List.length_append, List.length_singleton]; omega)
          simp only [List.length_append, List.length_singleton] at this
          rw [this]
          simp only [List.append_assoc, List.singleton_append]
          have e : m - (256 - (cur.length + 1)) - 256 * ts1.length =
              m + 1 - (256 - cur.length) - 256 * ts1.length := by omega
          rw [e]
    · intro hbal t0 ts href hlen hts hn
      by_cases hq : c = 34
      · -- closing quote
        subst hq
        rw [List.cons_append, quoteLoop, if_neg (by simp)]
        have hev : rest.count 34 % 2 = 0 := by
          simp only [List.count_cons_self] at hbal; omega
        simp only [refAux, if_true, Bool.not_true] at href
        exact (ih junk pre cur j n h0r hpre).1 hev t0 ts href hlen hts hn
      · -- character of the quoted span
        have hodd : rest.count 34 % 2 = 1 := by
          rw [List.count_cons_of_ne (fun e => hq e.symm)] at hbal; exact hbal
        rw [List.cons_append, quoteLoop, if_pos hq]
        simp only [refAux] at href
        rw [if_neg hq, if_neg (by simp)] at href
        obtain ⟨t1, ts1, h1⟩ := List.exists_cons_of_ne_nil (refAux_ne_nil true rest)
        rw [h1] at href
        simp only [List.modifyHead, List.cons.injEq] at href
        obtain ⟨rfl, rfl⟩ := href
        simp only [List.length_cons] at hlen
        obtain ⟨m, rfl⟩ : ∃ m, n = m + 1 := ⟨n - 1, by omega⟩
        have hw := store_write pre cur m c
        rw [hpre] at hw
        rw [hw]
        simp only [List.append_eq]
        have := (ih junk pre (cur ++ [c]) j m h0r hpre).2 hodd t1 ts1 h1
          (by simp only [List.length_append, List.length_singleton]; omega) hts
          (by simp only [List.length_append, List.length_singleton]; omega)
        simp only [List.length_append, List.length_singleton] at this
        rw [this]
        simp only [List.append_assoc, List.singleton_append]
        have e : m - (256 - (cur.length + 1)) - 256 * ts1.length =
            m + 1 - (256 - cur.length) - 256 * ts1.length := by omega
        rw [e]

end OShell

namespace OShell

theorem tokenAt_pack (toks : List (List Nat)) :
    ∀ (m r : Nat), (∀ t ∈ toks, 0 ∉ t ∧ t.length ≤ 255) → r * 256 < 256 * toks.length + m →
      tokenAt (pack toks ++ zeros m) r = some (toks.getD r []) := by
  induction toks with
  | nil =>
    intro m r _ hr
    simp only [List.length_nil, Nat.mul_zero, Nat.zero_add] at hr
    obtain ⟨d, hd⟩ : ∃ d, m - r * 256 = d + 1 := ⟨m - r * 256 - 1, by omega⟩
    simp only [tokenAt, pack, List.nil_append, zeros, List.drop_replicate, ARGSIZE_MAX, hd]
    exact cstr_zeros d
  | cons t ts ih =>
    intro m r h hr
    have ht := h t (List.mem_cons_self _ _)
    cases r with
    | zero =>
      obtain ⟨d, hd⟩ : ∃ d, 256 - t.length = d + 1 := ⟨256 - t.length - 1, by omega⟩
      simp only [tokenAt, pack, pad, Nat.zero_mul, List.drop_zero, ARGSIZE_MAX, hd, zeros_succ,
        List.append_assoc, List.cons_append, List.getD_cons_zero]
      exact cstr_append t _ ht.1
    | succ r =>
      have hlen : (pad t).length = 256 := pad_length t (by omega)
      have e : (r + 1) * ARGSIZE_MAX = (pad t).length + r * 256 := by
        rw [hlen]; simp only [ARGSIZE_MAX]; ring
      simp only [tokenAt, pack, List.append_assoc, e, List.drop_append, List.getD_cons_succ]
      have := ih m r (fun t1 h1 => h t1 (List.mem_cons_of_mem _ h1))
        (by simp only [List.length_cons] at hr; omega)
      simpa only [tokenAt, ARGSIZE_MAX] using this

end OShell

namespace OShell

theorem pack_length (toks : List (List Nat)) (h : ∀ t ∈ toks, t.length ≤ 255) :
    (pack toks).length = 256 * toks.length := by
  induction toks with
  | nil => simp [pack]
  | cons t ts ih =>
    have h1 := pad_length t (by have := h t (List.mem_cons_self _ _); omega)
    have h2 := ih (fun t1 ht1 => h t1 (List.mem_cons_of_mem _ ht1))
    simp only [pack, List.length_append, List.length_cons, h1, h2]
    omega

/-- The store `splitString` leaves for a line as in C1: the tokens of the reference split, each in
its slot, and untouched NUL bytes behind them. -/
theorem splitString_store (line junk : List Nat) (hnul : 0 ∉ line)
    (hbal : line.count 34 % 2 = 0) (hcount : (refSplit line).length ≤ 11)
    (hlen : ∀ t ∈ refSplit line, t.length ≤ 255) :
    splitString (line ++ 0 :: junk) 32 255 (zeros (11 * 256)) =
      some ((refSplit line).length - 1,
        pack (refSplit line) ++ zeros (11 * 256 - 256 * (refSplit line).length)) := by
  rw [refSplit_eq_refAux] at hcount hlen ⊢
  obtain ⟨t0, ts, href⟩ := List.exists_cons_of_ne_nil (refAux_ne_nil false line)
  rw [href] at hcount hlen ⊢
  simp only [List.length_cons] at hcount
  have h := (splitLoop_refAux line junk [] [] 0 (11 * 256) hnul (by simp)).1 hbal t0 ts href
    (by simpa using hlen t0 (List.mem_cons_self _ _))
    (fun t ht => hlen t (List.mem_cons_of_mem _ ht))
    (by simp only [List.length_nil]; omega)
  simp only [List.nil_append, List.length_nil, Nat.zero_add, Nat.sub_zero] at h
  have e : 11 * 256 - 256 - 256 * ts.length = 11 * 256 - 256 * (ts.length + 1) := by omega
  rw [e] at h
  simpa only [splitString, List.length_cons, Nat.add_sub_cancel] using h

/-- C1: for a line without NUL whose double quotes are balanced and whose reference split has at
most `ARGNUM_MAX` tokens of at most `ARGSIZE_MAX - 1` characters, `splitString` (delimiter space,
zero-initialised store) succeeds, returns the index of the last token and leaves in every slot
`r` of the store the `r`-th token of the reference split (the empty string behind the last). -/
theorem splitString_stores_refSplit (line junk : List Nat) (hnul : 0 ∉ line)
    (hbal : line.count 34 % 2 = 0) (hcount : (refSplit line).length ≤ ARGNUM_MAX)
    (hlen : ∀ t ∈ refSplit line, t.length ≤ ARGSIZE_MAX - 1) :
    ∃ store, splitString (line ++ 0 :: junk) 32 (ARGSIZE_MAX - 1)
        (zeros (ARGNUM_MAX * ARGSIZE_MAX)) = some ((refSplit line).length - 1, store) ∧
      store.length = ARGNUM_MAX * ARGSIZE_MAX ∧
      ∀ r < ARGNUM_MAX, tokenAt store r = some ((refSplit line).getD r []) := by
  simp only [ARGNUM_MAX, ARGSIZE_MAX] at hcount hlen ⊢
  refine ⟨_, splitString_store line junk hnul hbal hcount hlen, ?_, ?_⟩
  · rw [List.length_append, pack_length _ hlen, zeros_length]
    omega
  · intro r hr
    apply tokenAt_pack
    · intro t ht
      refine ⟨fun h0 => hnul ?_, hlen t ht⟩
      rw [refSplit_eq_refAux] at ht
      exact mem_refAux false line t ht 0 h0
    · omega

/-- C1, witness: the line `echo "a b" c` meets the hypotheses of `splitString_stores_refSplit`;
its reference split is `echo`, `a b`, `c`. -/
theorem splitString_stores_refSplit_witness :
    refSplit (str "echo " ++ [34] ++ str "a b" ++ [34] ++ str " c") =
        [str "echo", str "a b", str "c"] ∧
      ∃ store, splitString ((str "echo " ++ [34] ++ str "a b" ++ [34] ++ str " c") ++ 0 :: [])
          32 (ARGSIZE_MAX - 1) (zeros (ARGNUM_MAX * ARGSIZE_MAX)) =
          some ((refSplit (str "echo " ++ [34] ++ str "a b" ++ [34] ++ str " c")).length - 1,
            store) ∧
        store.length = ARGNUM_MAX * ARGSIZE_MAX ∧
        ∀ r < ARGNUM_MAX, tokenAt store r =
          some ((refSplit (str "echo " ++ [34] ++ str "a b" ++ [34] ++ str " c")).getD r []) :=
  ⟨by decide, splitString_stores_refSplit _ [] (by decide) (by decide) (by decide) (by decide)⟩

end OShell

namespace OShell

/-! ## The loops of `loadEnvironmentVars` -/

theorem varNameLoop_spec (name : List Nat) :
    ∀ (done : List Nat) (m stop : Nat) (rest : List Nat),
      (∀ c ∈ name, c ≠ 32 ∧ c ≠ 0 ∧ c ≠ 34) → (stop = 32 ∨ stop = 0 ∨ stop = 34) →
      name.length ≤ m →
      varNameLoop (name ++ stop :: rest) done.length (done ++ zeros m) =
        some (done ++ name ++ zeros (m - name.length)) := by
  induction name with
  | nil =>
    intro done m stop rest _ hstop _
    have : ¬(stop ≠ 32 ∧ stop ≠ 0 ∧ stop ≠ 34) := by omega
    simp [varNameLoop, this]
  | cons c name ih =>
    intro done m stop rest hn hstop hm
    simp only [List.length_cons] at hm
    obtain ⟨m1, rfl⟩ : ∃ m1, m = m1 + 1 := ⟨m - 1, by omega⟩
    have hc := hn c (List.mem_cons_self _ _)
    rw [List.cons_append, varNameLoop, if_pos hc, zeros_succ, writeAt_append]
    have := ih (done ++ [c]) m1 stop rest (fun x hx => hn x (List.mem_cons_of_mem _ hx)) hstop
      (by omega)
    simp only [List.length_append, List.length_singleton, List.append_assoc,
      List.singleton_append] at this
    simp only [List.append_eq]
    rw [this]
    simp only [List.length_cons, List.append_assoc, List.cons_append, Nat.add_sub_add_right]

theorem overwriteLoop_spec (v : List Nat) :
    ∀ (a b : List Nat), 0 ∉ v → v.length ≤ b.length →
      overwriteLoop v a.length (a ++ b) = some (a.length + v.length, a ++ v ++ b.drop v.length) := by
  induction v with
  | nil => intro a b _ _; simp [overwriteLoop]
  | cons c v ih =>
    intro a b h0 hlen
    have hc : c ≠ 0 := fun e => h0 (by simp [e])
    have h0v : 0 ∉ v := fun e => h0 (by simp [e])
    cases b with
    | nil => simp at hlen
    | cons x b =>
      simp only [List.length_cons, Nat.add_le_add_iff_right] at hlen
      rw [overwriteLoop, if_pos hc, writeAt_append]
      have := ih (a ++ [c]) b h0v hlen
      simp only [List.length_append, List.length_singleton, List.append_assoc,
        List.singleton_append] at this
      dsimp only
      rw [this]
      simp only [List.length_cons, List.drop_succ_cons, List.append_assoc, List.cons_append]
      congr 2
      omega

theorem skipLoop_spec (s : List Nat) (stop : Nat) (rest : List Nat)
    (hs : ∀ c ∈ s, c ≠ 32 ∧ c ≠ 0 ∧ c ≠ 34) (hstop : stop = 32 ∨ stop = 0 ∨ stop = 34) :
    skipLoop (s ++ stop :: rest) = some (stop :: rest) := by
  induction s with
  | nil =>
    have : ¬(stop ≠ 32 ∧ stop ≠ 0 ∧ stop ≠ 34) := by omega
    simp [skipLoop, this]
  | cons c s ih =>
    rw [List.cons_append, skipLoop, if_pos (hs c (List.mem_cons_self _ _))]
    exact ih (fun x hx => hs x (List.mem_cons_of_mem _ hx))

theorem restoreLoop_spec (post : List Nat) :
    ∀ (r a b : List Nat), 0 ∉ post → post.length ≤ b.length →
      restoreLoop (post ++ 0 :: r) a.length (a ++ b) =
        some (a.length + post.length, a ++ post ++ b.drop post.length) := by
  induction post with
  | nil => intro r a b _ _; simp [restoreLoop]
  | cons c post ih =>
    intro r a b h0 hlen
    have hc : c ≠ 0 := fun e => h0 (by simp [e])
    have h0p : 0 ∉ post := fun e => h0 (by simp [e])
    cases b with
    | nil => simp at hlen
    | cons x b =>
      simp only [List.length_cons, Nat.add_le_add_iff_right] at hlen
      rw [List.cons_append, restoreLoop, if_pos hc, writeAt_append]
      have := ih r (a ++ [c]) b h0p hlen
      simp only [List.length_append, List.length_singleton, List.append_assoc,
        List.singleton_append] at this
      simp only [List.append_eq]
      rw [this]
      simp only [List.length_cons, List.drop_succ_cons, List.append_assoc, List.cons_append]
      congr 2
      omega

end OShell

namespace OShell

theorem stop_cases (post tail : List Nat)
    (hstop : post = [] ∨ post.head? = some 32 ∨ post.head? = some 34) :
    ∃ stop rest, post ++ 0 :: tail = stop :: rest ∧ (stop = 32 ∨ stop = 0 ∨ stop = 34) := by
  cases post with
  | nil => exact ⟨0, tail, rfl, Or.inr (Or.inl rfl)⟩
  | cons c post =>
    refine ⟨c, post ++ 0 :: tail, rfl, ?_⟩
    rcases hstop with h | h | h
    · simp at h
    · simp only [List.head?_cons, Option.some.injEq] at h; exact Or.inl h
    · simp only [List.head?_cons, Option.some.injEq] at h; exact Or.inr (Or.inr h)

theorem writeAt_drop (a sub : List Nat) (n : Nat) (h : n < sub.length) :
    writeAt (a ++ sub.drop n) a.length 0 = some (a ++ 0 :: sub.drop (n + 1)) := by
  have e : sub.drop n = sub[n] :: sub.drop (n + 1) := List.drop_eq_getElem_cons h
  rw [e, writeAt_append]

/-- One pass of the body of the main loop on `$name` followed by `post`: the reference is replaced
by the value of `name`, the text behind it is moved up and terminated. -/
theorem expandBody_spec (env : Env) (name post tail : List Nat)
    (hn : ∀ c ∈ name, c ≠ 32 ∧ c ≠ 0 ∧ c ≠ 34) (hnlen : name.length < 64)
    (hpost0 : 0 ∉ post) (hstop : post = [] ∨ post.head? = some 32 ∨ post.head? = some 34)
    (hv0 : 0 ∉ (env name).getD [])
    (hold : 1 + name.length + post.length < 256)
    (hfit : ((env name).getD []).length + post.length <
      1 + name.length + post.length + 1 + tail.length) :
    expandBody env (36 :: name ++ post ++ 0 :: tail) =
      some ((env name).getD [] ++ post ++ 0 ::
        (36 :: name ++ post ++ 0 :: tail).drop (((env name).getD []).length + post.length + 1)) := by
  have hname0 : 0 ∉ name := fun h => (hn 0 h).2.1 rfl
  obtain ⟨stop, rest, hsr, hst⟩ := stop_cases post tail hstop
  -- the name
  have h1 : varNameLoop ((36 :: name ++ post ++ 0 :: tail).drop 1) 0 (zeros VARNAME_MAX) =
      some (name ++ zeros (64 - name.length)) := by
    have := varNameLoop_spec name [] 64 stop rest hn hst (by omega)
    simp only [List.length_nil, List.nil_append] at this
    simp only [List.cons_append, List.drop_succ_cons, List.drop_zero, List.append_assoc, hsr,
      VARNAME_MAX]
    exact this
  have h2 : cstr (name ++ zeros (64 - name.length)) = some name := by
    obtain ⟨d, hd⟩ : ∃ d, 64 - name.length = d + 1 := ⟨64 - name.length - 1, by omega⟩
    rw [hd, zeros_succ]
    exact cstr_append name _ hname0
  -- the copy
  have hs0 : 0 ∉ 36 :: name ++ post := by
    simp only [List.cons_append, List.mem_cons, List.mem_append, not_or]
    exact ⟨by decide, hname0, hpost0⟩
  have h3 : strcpy (zeros ARGSIZE_MAX) (36 :: name ++ post ++ 0 :: tail) =
      some ((36 :: name) ++ (post ++ 0 :: (zeros 256).drop ((36 :: name ++ post).length + 1))) := by
    have := strcpy_append (zeros 256) (36 :: name ++ post) tail hs0
      (by simp only [List.cons_append, List.length_cons, List.length_append, zeros_length]; omega)
    simp only [ARGSIZE_MAX]
    rw [this]
    simp only [List.cons_append, List.append_assoc]
  -- the value
  have h4 := overwriteLoop_spec ((env name).getD []) [] (36 :: name ++ post ++ 0 :: tail) hv0
    (by simp only [List.cons_append, List.length_cons, List.length_append]; omega)
  simp only [List.length_nil, Nat.zero_add, List.nil_append] at h4
  -- the rest of the line
  obtain ⟨stop1, rest1, hsr1, hst1⟩ := stop_cases post
    ((zeros 256).drop ((36 :: name ++ post).length + 1)) hstop
  have h5 : skipLoop ((36 :: name) ++
      (post ++ 0 :: (zeros 256).drop ((36 :: name ++ post).length + 1))) =
      some (post ++ 0 :: (zeros 256).drop ((36 :: name ++ post).length + 1)) := by
    rw [hsr1]
    apply skipLoop_spec _ _ _ _ hst1
    intro c hc
    rcases List.mem_cons.1 hc with h | h
    · subst h; decide
    · exact hn c h
  have h6 := restoreLoop_spec post ((zeros 256).drop ((36 :: name ++ post).length + 1))
    ((env name).getD []) ((36 :: name ++ post ++ 0 :: tail).drop ((env name).getD []).length)
    hpost0 (by
      simp only [List.cons_append, List.length_drop, List.length_cons, List.length_append]
      omega)
  have h7 := writeAt_drop ((env name).getD [] ++ post) (36 :: name ++ post ++ 0 :: tail)
    (((env name).getD []).length + post.length)
    (by simp only [List.cons_append, List.length_cons, List.length_append]; omega)
  simp only [List.length_append] at h7
  simp only [List.drop_drop] at h6
  unfold expandBody
  rw [h1]
  dsimp only
  rw [h2]
  dsimp only
  rw [h3]
  dsimp only
  rw [h4]
  dsimp only
  rw [h5]
  dsimp only
  rw [h6]
  dsimp only
  rw [h7]

end OShell

namespace OShell

/-- The main loop leaves a block without `$` as it is. -/
theorem expandLoop_done (env : Env) (fuel : Nat) (before s junk : List Nat) (h36 : 36 ∉ s)
    (h0 : 0 ∉ s) :
    expandLoop env (fuel + 1) before (s ++ 0 :: junk) = some (before ++ (s ++ 0 :: junk)) := by
  rw [expandLoop, strstr_none s junk 36 h0 h36 (by decide)]

/-- One iteration of the main loop at the first `$` of the block. -/
theorem expandLoop_step (env : Env) (fuel : Nat) (before pre name post tail : List Nat)
    (hpre36 : 36 ∉ pre) (hpre0 : 0 ∉ pre)
    (hn : ∀ c ∈ name, c ≠ 32 ∧ c ≠ 0 ∧ c ≠ 34) (hnlen : name.length < 64)
    (hpost0 : 0 ∉ post) (hstop : post = [] ∨ post.head? = some 32 ∨ post.head? = some 34)
    (hv0 : 0 ∉ (env name).getD [])
    (hold : 1 + name.length + post.length < 256)
    (hfit : ((env name).getD []).length + post.length <
      1 + name.length + post.length + 1 + tail.length) :
    expandLoop env (fuel + 1) before (pre ++ (36 :: name ++ post ++ 0 :: tail)) =
      expandLoop env fuel (before ++ pre) ((env name).getD [] ++ post ++ 0 ::
        (36 :: name ++ post ++ 0 :: tail).drop (((env name).getD []).length + post.length + 1)) := by
  have hb := expandBody_spec env name post tail hn hnlen hpost0 hstop hv0 hold hfit
  have hs : strstr (pre ++ (36 :: name ++ post ++ 0 :: tail)) 36 = some (some pre.length) := by
    simp only [List.cons_append]
    exact strstr_first pre _ 36 hpre0 hpre36
  rw [expandLoop, hs]
  dsimp only
  rw [List.drop_left, List.take_left, hb]

end OShell

namespace OShell

/-- The frame of `loadEnvironmentVars` around its main loop: the line is copied into the block,
and what the loop leaves there is copied back. -/
theorem loadEnvironmentVars_of_expandLoop (env : Env) (fuel : Nat)
    (block line junk res rest : List Nat) (hline0 : 0 ∉ line) (hres0 : 0 ∉ res)
    (hfit : line.length + 1 ≤ block.length)
    (hback : res.length + 1 ≤ (line ++ 0 :: junk).length)
    (hloop : expandLoop env fuel [] (line ++ 0 :: block.drop (line.length + 1)) =
      some (res ++ 0 :: rest)) :
    loadEnvironmentVars env fuel block (line ++ 0 :: junk) =
      some (res ++ 0 :: (line ++ 0 :: junk).drop (res.length + 1)) := by
  unfold loadEnvironmentVars
  rw [strcpy_append block line junk hline0 hfit]
  dsimp only
  rw [hloop]
  dsimp only
  exact strcpy_append _ res rest hres0 hback

/-- A line without `$` that fits the block comes back unchanged, buffer and all. -/
theorem loadEnvironmentVars_plain (env : Env) (fuel : Nat) (block line junk : List Nat)
    (hline : ∀ c ∈ line, c ≠ 36 ∧ c ≠ 0) (hfit : line.length + 1 ≤ block.length) :
    loadEnvironmentVars env (fuel + 1) block (line ++ 0 :: junk) = some (line ++ 0 :: junk) := by
  have h36 : 36 ∉ line := fun h => (hline 36 h).1 rfl
  have h0 : 0 ∉ line := fun h => (hline 0 h).2 rfl
  have := loadEnvironmentVars_of_expandLoop env (fuel + 1) block line junk line
    (block.drop (line.length + 1)) h0 h0 hfit (by simp)
    (by simpa using expandLoop_done env fuel [] line _ h36 h0)
  rw [this]
  simp

end OShell

namespace OShell

/-- C2: on a line `pre ++ "$" ++ name ++ post` (no `$` in `pre` and `post`; no space, double quote
or `$` in `name`; `post` empty or starting with a space or a double quote; all strings within the
buffers) `loadEnvironmentVars` returns and leaves the line `pre ++ v ++ post` in the input
buffer, `v` being the value of `name` in the environment, or the empty string when `name` is
unset. -/
theorem loadEnvironmentVars_substitutes (env : Env) (fuel : Nat)
    (block junk pre name post : List Nat) (hfuel : 2 ≤ fuel)
    (hblock : block.length = ARGSIZE_MAX)
    (hinput : (pre ++ (36 :: name ++ post) ++ 0 :: junk).length = INPUT_MAX)
    (hpre : ∀ c ∈ pre, c ≠ 36 ∧ c ≠ 0) (hpost : ∀ c ∈ post, c ≠ 36 ∧ c ≠ 0)
    (hname : ∀ c ∈ name, c ≠ 32 ∧ c ≠ 34 ∧ c ≠ 36 ∧ c ≠ 0)
    (hstop : post = [] ∨ post.head? = some 32 ∨ post.head? = some 34)
    (hval : ∀ c ∈ (env name).getD [], c ≠ 36 ∧ c ≠ 0)
    (hline : (pre ++ (36 :: name ++ post)).length < ARGSIZE_MAX)
    (hres : (pre ++ (env name).getD [] ++ post).length < ARGSIZE_MAX)
    (hnlen : name.length < VARNAME_MAX) :
    ∃ out, loadEnvironmentVars env fuel block (pre ++ (36 :: name ++ post) ++ 0 :: junk) =
        some out ∧
      cstr out = some (pre ++ (env name).getD [] ++ post) ∧ out.length = INPUT_MAX := by
  obtain ⟨f, rfl⟩ : ∃ f, fuel = f + 2 := ⟨fuel - 2, by omega⟩
  simp only [ARGSIZE_MAX, INPUT_MAX, VARNAME_MAX, List.length_append, List.length_cons] at *
  have hpre36 : 36 ∉ pre := fun h => (hpre 36 h).1 rfl
  have hpre0 : 0 ∉ pre := fun h => (hpre 0 h).2 rfl
  have hpost36 : 36 ∉ post := fun h => (hpost 36 h).1 rfl
  have hpost0 : 0 ∉ post := fun h => (hpost 0 h).2 rfl
  have hv36 : 36 ∉ (env name).getD [] := fun h => (hval 36 h).1 rfl
  have hv0 : 0 ∉ (env name).getD [] := fun h => (hval 0 h).2 rfl
  have hname0 : 0 ∉ name := fun h => (hname 0 h).2.2.2 rfl
  have hline0 : 0 ∉ pre ++ (36 :: name ++ post) := by
    simp only [List.cons_append, List.mem_cons, List.mem_append, not_or]
    exact ⟨hpre0, by decide, hname0, hpost0⟩
  -- the first pass substitutes the reference
  have h2 := expandLoop_step env (f + 1) [] pre name post
    (block.drop ((pre ++ (36 :: name ++ post)).length + 1)) hpre36 hpre0
    (fun c hc => ⟨(hname c hc).1, (hname c hc).2.2.2, (hname c hc).2.1⟩) hnlen hpost0 hstop hv0
    (by omega)
    (by simp only [List.length_drop, List.length_append, List.length_cons]; omega)
  -- the second `strstr` finds no `$` any more
  have hres36 : 36 ∉ (env name).getD [] ++ post := by
    simp only [List.mem_append, not_or]; exact ⟨hv36, hpost36⟩
  have hres0 : 0 ∉ (env name).getD [] ++ post := by
    simp only [List.mem_append, not_or]; exact ⟨hv0, hpost0⟩
  have h3 := expandLoop_done env f ([] ++ pre) ((env name).getD [] ++ post)
    ((36 :: name ++ post ++ 0 :: block.drop ((pre ++ (36 :: name ++ post)).length + 1)).drop
      (((env name).getD []).length + post.length + 1)) hres36 hres0
  have hall0 : 0 ∉ pre ++ (env name).getD [] ++ post := by
    simp only [List.mem_append, not_or]; exact ⟨⟨hpre0, hv0⟩, hpost0⟩
  have h4 := loadEnvironmentVars_of_expandLoop env (f + 2) block (pre ++ (36 :: name ++ post))
    junk (pre ++ (env name).getD [] ++ post)
    ((36 :: name ++ post ++ 0 :: block.drop ((pre ++ (36 :: name ++ post)).length + 1)).drop
      (((env name).getD []).length + post.length + 1)) hline0 hall0
    (by simp only [List.length_append, List.length_cons]; omega)
    (by simp only [List.length_append, List.length_cons]; omega)
    (by rw [List.append_assoc pre, h2, h3]; simp only [List.nil_append, List.append_assoc])
  refine ⟨_, h4, cstr_append _ _ hall0, ?_⟩
  simp only [List.length_append, List.length_cons, List.length_drop]
  omega

/-- C2, witness: with `HOME=/home/u` the line `echo $HOME x` becomes `echo /home/u x`, and with
`Q` unset the line `echo $Q x` becomes `echo  x`. -/
theorem loadEnvironmentVars_substitutes_witness :
    (∃ out, loadEnvironmentVars sampleEnv 2 (zeros 256)
        (str "echo " ++ (36 :: str "HOME" ++ str " x") ++ 0 :: zeros 2035) = some out ∧
      cstr out = some (str "echo /home/u x") ∧ out.length = INPUT_MAX) ∧
    (∃ out, loadEnvironmentVars sampleEnv 2 (zeros 256)
        (str "echo " ++ (36 :: str "Q" ++ str " x") ++ 0 :: zeros 2038) = some out ∧
      cstr out = some (str "echo  x") ∧ out.length = INPUT_MAX) :=
  ⟨loadEnvironmentVars_substitutes sampleEnv 2 (zeros 256) (zeros 2035) (str "echo ")
      (str "HOME") (str " x") (by decide) (by decide!) (by decide!) (by decide) (by decide)
      (by decide) (by decide) (by decide) (by decide) (by decide) (by decide),
    loadEnvironmentVars_substitutes sampleEnv 2 (zeros 256) (zeros 2038) (str "echo ")
      (str "Q") (str " x") (by decide) (by decide!) (by decide!) (by decide) (by decide)
      (by decide) (by decide) (by decide) (by decide) (by decide) (by decide)⟩

end OShell

namespace OShell

/-! ## `cd` -/

theorem strcpy_cstr {dst src out : List Nat} (h : strcpy dst src = some out) :
    cstr out = cstr src := by
  unfold strcpy at h
  cases hs : cstr src with
  | none => rw [hs] at h; simp at h
  | some s =>
    rw [hs] at h
    dsimp only at h
    split at h
    · simp only [Option.some.injEq] at h
      subst h
      exact cstr_append s _ (cstr_eq_some hs).1
    · simp at h

theorem strcpy_length {dst src out : List Nat} (h : strcpy dst src = some out) :
    out.length = dst.length := by
  unfold strcpy at h
  cases hs : cstr src with
  | none => rw [hs] at h; simp at h
  | some s =>
    rw [hs] at h
    dsimp only at h
    split at h
    · simp only [Option.some.injEq] at h
      subst h
      simp only [List.length_append, List.length_cons, List.length_drop]
      omega
    · simp at h

/-- Every call of `cd` with an argument ends in the common block `cdFinish`, entered with the
back-up taken at the start. -/
theorem cd_ends_in_cdFinish {chdir : List Nat → Bool} {home workDir arg : List Nat}
    {r : CdResult} (h : cd chdir home workDir (some arg) = some r) :
    ∃ workDirCopy wd1, strcpy (zeros DIR_MAX) workDir = some workDirCopy ∧
      cdFinish chdir workDirCopy wd1 = some r := by
  unfold cd at h
  cases hc : strcpy (zeros DIR_MAX) workDir with
  | none => rw [hc] at h; simp at h
  | some workDirCopy =>
    rw [hc] at h
    dsimp only at h
    refine ⟨workDirCopy, ?_⟩
    repeat' split at h
    all_goals first
      | exact absurd h (by simp)
      | exact ⟨_, rfl, h⟩

end OShell

namespace OShell

theorem cdFinish_failed {chdir : List Nat → Bool} {workDirCopy wd1 : List Nat} {r : CdResult}
    {path : List Nat} (h : cdFinish chdir workDirCopy wd1 = some r)
    (hpath : r.chdirPath = some path) (hfail : chdir path = false) :
    cstr r.workDir = cstr workDirCopy ∧ r.failed = true := by
  unfold cdFinish at h
  cases hc : cstr wd1 with
  | none => rw [hc] at h; simp at h
  | some p =>
    rw [hc] at h
    dsimp only at h
    by_cases hp : chdir p = true
    · rw [if_pos hp] at h
      simp only [Option.some.injEq] at h
      subst h
      simp only [Option.some.injEq] at hpath
      subst hpath
      rw [hfail] at hp
      exact absurd hp (by simp)
    · rw [if_neg hp] at h
      cases hr : strcpy wd1 workDirCopy with
      | none => rw [hr] at h; simp at h
      | some restored =>
        rw [hr] at h
        simp only [Option.some.injEq] at h
        subst h
        exact ⟨strcpy_cstr hr, rfl⟩

theorem cstr_of_mem (l : List Nat) (h : 0 ∈ l) : ∃ s, cstr l = some s := by
  induction l with
  | nil => simp at h
  | cons c l ih =>
    by_cases hc : c = 0
    · exact ⟨[], by simp [cstr, hc]⟩
    · have : 0 ∈ l := by
        rcases List.mem_cons.1 h with h1 | h1
        · exact absurd h1.symm hc
        · exact h1
      obtain ⟨s, hs⟩ := ih this
      exact ⟨c :: s, by simp [cstr, hc, hs]⟩

theorem mem_drop_of_readAt {l : List Nat} {i n : Nat} (h : readAt l i = some 0) (hn : n ≤ i) :
    0 ∈ l.drop n := by
  have h1 : (l.drop n)[i - n]? = some 0 := by
    rw [List.getElem?_drop]
    simp only [readAt, List.get?_eq_getElem?] at h
    rw [← h]
    congr 1
    omega
  exact List.getElem?_mem h1

theorem strcpy_of_cstr (dst : List Nat) {src s : List Nat} (hs : cstr src = some s)
    (hfit : s.length + 1 ≤ dst.length) :
    strcpy dst src = some (s ++ 0 :: dst.drop (s.length + 1)) := by
  simp [strcpy, hs, hfit]

theorem cdFinish_defined (chdir : List Nat → Bool) (workDirCopy wd1 w : List Nat)
    (hterm : 0 ∈ wd1) (hcopy : cstr workDirCopy = some w) (hfit : w.length + 1 ≤ wd1.length) :
    ∃ r, cdFinish chdir workDirCopy wd1 = some r := by
  obtain ⟨p, hp⟩ := cstr_of_mem wd1 hterm
  unfold cdFinish
  rw [hp]
  dsimp only
  by_cases hc : chdir p = true
  · rw [if_pos hc]; exact ⟨_, rfl⟩
  · rw [if_neg hc, strcpy_of_cstr wd1 hcopy hfit]; exact ⟨_, rfl⟩

theorem addSlash_defined (s rest : List Nat) (hs0 : 0 ∉ s) (hs : s ≠ []) (hrest : 0 ∈ rest) :
    ∃ wd2, addSlash (s ++ 0 :: rest) = some wd2 ∧ 0 ∈ wd2 ∧
      wd2.length = (s ++ 0 :: rest).length := by
  obtain ⟨n, hn⟩ : ∃ n, s.length = n + 1 :=
    ⟨s.length - 1, by have := List.length_pos.2 hs; omega⟩
  have hread : readAt (s ++ 0 :: rest) n = some s[n] := by
    simp only [readAt, List.get?_eq_getElem?]
    rw [List.getElem?_append_left (by omega)]
    exact List.getElem?_eq_getElem (by omega)
  unfold addSlash
  simp only [strlen, cstr_append s rest hs0, Option.map_some', hn]
  rw [hread]
  dsimp only
  by_cases hc : s[n] ≠ 47
  · rw [if_pos hc, ← hn, writeAt_append]
    exact ⟨_, rfl, by simp [hrest], by simp⟩
  · rw [if_neg hc]
    exact ⟨_, rfl, by simp, rfl⟩

theorem lastIndexLoop_spec (t junk : List Nat) (i : Nat) (h0 : 0 ∉ t) :
    lastIndexLoop (t ++ 0 :: junk) i = some (i + t.length) := by
  induction t generalizing i with
  | nil => simp [lastIndexLoop]
  | cons c t ih =>
    have hc : c ≠ 0 := fun e => h0 (by simp [e])
    have h0t : 0 ∉ t := fun e => h0 (by simp [e])
    rw [List.cons_append, lastIndexLoop, if_pos hc, ih (i + 1) h0t]
    simp only [List.length_cons, Option.some.injEq]
    omega

/-- The stripping loop of `cd ..`: starting at the last byte, it clears bytes down to (not
including) the nearest `/` in front. -/
theorem stripLoop_spec (q : List Nat) (s : List Nat) :
    ∀ (c : Nat) (rest : List Nat), 47 ∉ s →
      stripLoop ((q ++ [47] ++ s).length) (q ++ [47] ++ s ++ c :: rest) =
        some (q ++ [47] ++ zeros (s.length + 1) ++ rest) := by
  induction s using List.reverseRecOn with
  | nil =>
    intro c rest _
    have hread : readAt (q ++ [47] ++ 0 :: rest) q.length = some 47 := by
      have : q ++ [47] ++ 0 :: rest = q ++ 47 :: 0 :: rest := by simp
      rw [this]
      simp only [readAt, List.get?_eq_getElem?]
      rw [List.getElem?_append_right (Nat.le_refl _)]
      simp
    simp only [List.append_nil, List.length_append, List.length_singleton, stripLoop,
      List.length_nil]
    have := writeAt_append (q ++ [47]) rest c 0
    simp only [List.length_append, List.length_singleton] at this
    rw [this]
    dsimp only
    rw [hread]
    simp [zeros]
  | append_singleton s d ih =>
    intro c rest h47
    have hd : d ≠ 47 := fun e => h47 (by simp [e])
    have hs : 47 ∉ s := fun e => h47 (by simp [e])
    have e1 : (q ++ [47] ++ (s ++ [d])).length = (q ++ [47] ++ s).length + 1 := by
      simp only [List.length_append, List.length_singleton]; omega
    have hw := writeAt_append (q ++ [47] ++ (s ++ [d])) rest c 0
    rw [e1] at hw
    have hread : readAt (q ++ [47] ++ (s ++ [d]) ++ 0 :: rest) (q ++ [47] ++ s).length =
        some d := by
      have : q ++ [47] ++ (s ++ [d]) ++ 0 :: rest = (q ++ [47] ++ s) ++ d :: 0 :: rest := by
        simp
      rw [this]
      simp only [readAt, List.get?_eq_getElem?]
      rw [List.getElem?_append_right (Nat.le_refl _)]
      simp
    rw [e1, stripLoop, hw]
    dsimp only
    rw [hread]
    dsimp only
    rw [if_pos hd]
    have := ih d (0 :: rest) hs
    have e2 : q ++ [47] ++ (s ++ [d]) ++ 0 :: rest = q ++ [47] ++ s ++ d :: 0 :: rest := by
      simp
    rw [e2, this]
    simp only [List.length_append, List.length_singleton, zeros, List.append_assoc,
      Option.some.injEq, List.append_cancel_left_eq]
    rw [show s.length + 1 + 1 = (s.length + 1) + 1 from rfl, List.replicate_succ' (s.length + 1)]
    simp

theorem exists_last_slash (l : List Nat) (h : 47 ∈ l) :
    ∃ q s, l = q ++ [47] ++ s ∧ 47 ∉ s := by
  induction l with
  | nil => simp at h
  | cons x l ih =>
    by_cases hl : 47 ∈ l
    · obtain ⟨q, s, rfl, hs⟩ := ih hl
      exact ⟨x :: q, s, by simp, hs⟩
    · have hx : x = 47 := by
        rcases List.mem_cons.1 h with h1 | h1
        · exact h1.symm
        · exact absurd h1 hl
      exact ⟨[], l, by simp [hx], hl⟩

end OShell

namespace OShell

theorem strcmpEq_defined (arg : List Nat) :
    ∀ (lit : List Nat), 0 ∈ arg → 0 ∉ lit → ∃ b, strcmpEq arg lit = some b := by
  induction arg with
  | nil => intro lit h; simp at h
  | cons c rest ih =>
    intro lit h hl
    cases lit with
    | nil => exact ⟨_, rfl⟩
    | cons d lit =>
      by_cases hcd : c = d
      · have hd : d ≠ 0 := fun e => hl (by simp [e])
        have hr : 0 ∈ rest := by
          rcases List.mem_cons.1 h with h1 | h1
          · exact absurd (hcd ▸ h1.symm) hd
          · exact h1
        obtain ⟨b, hb⟩ := ih lit hr (fun e => hl (by simp [e]))
        exact ⟨b, by rw [strcmpEq, if_pos hcd, hb]⟩
      · exact ⟨false, by rw [strcmpEq, if_neg hcd]⟩

theorem strcmpEq_true (arg : List Nat) :
    ∀ (lit : List Nat), strcmpEq arg lit = some true → 0 ∉ lit → cstr arg = some lit := by
  induction arg with
  | nil => intro lit h; simp [strcmpEq] at h
  | cons c rest ih =>
    intro lit h hl
    cases lit with
    | nil =>
      simp only [strcmpEq, Option.some.injEq, beq_iff_eq] at h
      simp [cstr, h]
    | cons d lit =>
      by_cases hcd : c = d
      · rw [strcmpEq, if_pos hcd] at h
        have hd : d ≠ 0 := fun e => hl (by simp [e])
        have := ih lit h (fun e => hl (by simp [e]))
        simp [cstr, hcd, hd, this]
      · rw [strcmpEq, if_neg hcd] at h
        simp at h

/-- On well-formed buffers `cd` runs without leaving them: `home`, `workDir` and `arg` hold
terminated strings in buffers of their declared sizes, the last byte of `workDir` is NUL, the
working directory is not empty, the new path fits, and `..` finds a `/` in front of the last
character. -/
theorem cd_defined (chdir : List Nat → Bool) (home workDir arg H W A : List Nat)
    (hhome : cstr home = some H) (hhlen : home.length = HOME_MAX)
    (hwd : cstr workDir = some W) (hwlen : workDir.length = DIR_MAX)
    (hlast : readAt workDir (DIR_MAX - 1) = some 0)
    (harg : cstr arg = some A) (halen : arg.length = ARGSIZE_MAX)
    (hW : W ≠ []) (hroom : W.length + A.length + 2 < DIR_MAX)
    (hup : A = [46, 46] → 47 ∈ W.dropLast) :
    ∃ r, cd chdir home workDir (some arg) = some r := by
  obtain ⟨hH0, hj, rfl⟩ := cstr_eq_some hhome
  obtain ⟨hW0, wj, rfl⟩ := cstr_eq_some hwd
  obtain ⟨hA0, aj, rfl⟩ := cstr_eq_some harg
  simp only [HOME_MAX, DIR_MAX, ARGSIZE_MAX, List.length_append, List.length_cons] at *
  have hcopy := strcpy_of_cstr (zeros 2048) hwd (by rw [zeros_length]; omega)
  have hcw : cstr (W ++ 0 :: (zeros 2048).drop (W.length + 1)) = some W := cstr_append W _ hW0
  unfold cd
  simp only [DIR_MAX]
  rw [hcopy]
  dsimp only
  obtain ⟨a0, arg1, harg1⟩ : ∃ a0 arg1, A ++ 0 :: aj = a0 :: arg1 := by
    cases A with
    | nil => exact ⟨0, aj, rfl⟩
    | cons a A => exact ⟨a, A ++ 0 :: aj, rfl⟩
  have hread : readAt (A ++ 0 :: aj) 0 = some a0 := by rw [harg1]; rfl
  rw [hread]
  dsimp only
  by_cases h126 : a0 = 126
  · -- `cd ~`
    rw [if_pos h126]
    have hsc := strcpy_of_cstr (W ++ 0 :: wj) hhome
      (by simp only [List.length_append, List.length_cons]; omega)
    rw [hsc]
    simp only [strlen, harg, Option.map_some']
    by_cases hn : A.length > 2
    · rw [if_pos hn]
      have hd : (A ++ 0 :: aj).drop 2 = A.drop 2 ++ 0 :: aj :=
        List.drop_append_of_le_length (by omega)
      have hca : cstr ((A ++ 0 :: aj).drop 2) = some (A.drop 2) := by
        rw [hd]
        exact cstr_append _ _ (fun h => hA0 (List.mem_of_mem_drop h))
      have hcat : strcat (H ++ 0 :: (W ++ 0 :: wj).drop (H.length + 1))
          ((A ++ 0 :: aj).drop 2) = some (H ++ A.drop 2 ++ 0 ::
            (H ++ 0 :: (W ++ 0 :: wj).drop (H.length + 1)).drop
              (H.length + (A.drop 2).length + 1)) := by
        unfold strcat
        rw [cstr_append H _ hH0, hca]
        dsimp only
        rw [if_pos]
        simp only [List.length_append, List.length_cons, List.length_drop]
        omega
      rw [hcat]
      dsimp only
      exact cdFinish_defined chdir _ _ W (by simp) hcw
        (by simp only [List.length_append, List.length_cons, List.length_drop]; omega)
    · rw [if_neg hn]
      exact cdFinish_defined chdir _ _ W (by simp) hcw
        (by simp only [List.length_append, List.length_cons, List.length_drop]; omega)
  · rw [if_neg h126]
    obtain ⟨b, hb⟩ := strcmpEq_defined (A ++ 0 :: aj) [46, 46] (by simp) (by decide)
    rw [hb]
    cases b with
    | true =>
      -- `cd ..`
      dsimp only
      have hA : A = [46, 46] := by
        have := strcmpEq_true _ _ hb (by decide)
        rw [harg] at this
        exact Option.some.inj this
      obtain ⟨q, s, hqs, hs47⟩ := exists_last_slash _ (hup hA)
      have hWd : W = q ++ [47] ++ s ++ [W.getLast hW] := by
        rw [← hqs]; exact (List.dropLast_append_getLast hW).symm
      obtain ⟨w0, t, hw0⟩ := List.exists_cons_of_ne_nil hW
      have ht0 : 0 ∉ t := fun h => hW0 (by rw [hw0]; exact List.mem_cons_of_mem _ h)
      have hli : lastIndexLoop ((W ++ 0 :: wj).drop 1) 0 = some (q ++ [47] ++ s).length := by
        have : (W ++ 0 :: wj).drop 1 = t ++ 0 :: wj := by rw [hw0]; rfl
        rw [this, lastIndexLoop_spec t wj 0 ht0]
        have : W.length = (q ++ [47] ++ s).length + 1 := by
          conv_lhs => rw [hWd]
          simp only [List.length_append, List.length_singleton]
        rw [hw0] at this
        simp only [List.length_cons] at this
        simp only [Option.some.injEq]
        omega
      rw [hli]
      dsimp only
      have hst := stripLoop_spec q s (W.getLast hW) (0 :: wj) hs47
      have hbuf : W ++ 0 :: wj = q ++ [47] ++ s ++ W.getLast hW :: 0 :: wj := by
        conv_lhs => rw [hWd]
        simp
      rw [hbuf, hst]
      dsimp only
      have hlen : W.length = (q ++ [47] ++ s).length + 1 := by
        conv_lhs => rw [hWd]
        simp only [List.length_append, List.length_singleton]
      exact cdFinish_defined chdir _ _ W (by simp) hcw
        (by
          simp only [List.length_append, List.length_cons, List.length_singleton, zeros_length,
            List.length_drop] at hlen ⊢
          omega)
    | false =>
      dsimp only
      by_cases h47 : a0 = 47
      · -- absolute path
        rw [if_pos h47]
        have hsc := strcpy_of_cstr (W ++ 0 :: wj) harg
          (by simp only [List.length_append, List.length_cons]; omega)
        rw [hsc]
        dsimp only
        have hAne : A ≠ [] := by
          intro hA
          rw [hA] at harg1
          simp only [List.nil_append, List.cons.injEq] at harg1
          omega
        obtain ⟨wd2, h2, h20, h2l⟩ := addSlash_defined A
          ((W ++ 0 :: wj).drop (A.length + 1)) hA0 hAne
          (mem_drop_of_readAt hlast (by omega))
        rw [h2]
        dsimp only
        exact cdFinish_defined chdir _ _ W h20 hcw
          (by
            rw [h2l]
            simp only [List.length_append, List.length_cons, List.length_drop]
            omega)
      · -- relative path
        rw [if_neg h47]
        have hcat : strcat (W ++ 0 :: wj) (A ++ 0 :: aj) = some (W ++ A ++ 0 ::
            (W ++ 0 :: wj).drop (W.length + A.length + 1)) := by
          unfold strcat
          rw [hwd, harg]
          dsimp only
          rw [if_pos]
          simp only [List.length_append, List.length_cons]
          omega
        rw [hcat]
        dsimp only
        obtain ⟨wd2, h2, h20, h2l⟩ := addSlash_defined (W ++ A)
          ((W ++ 0 :: wj).drop (W.length + A.length + 1))
          (by simp only [List.mem_append, not_or]; exact ⟨hW0, hA0⟩)
          (by simp [hW])
          (mem_drop_of_readAt hlast (by omega))
        rw [h2]
        dsimp only
        exact cdFinish_defined chdir _ _ W h20 hcw
          (by
            rw [h2l]
            simp only [List.length_append, List.length_cons, List.length_drop]
            omega)

end OShell

namespace OShell

theorem cdFinish_path {chdir : List Nat → Bool} {workDirCopy wd1 : List Nat} {r : CdResult}
    (h : cdFinish chdir workDirCopy wd1 = some r) :
    ∃ path, cstr wd1 = some path ∧ r.chdirPath = some path ∧ r.failed = !chdir path := by
  unfold cdFinish at h
  cases hc : cstr wd1 with
  | none => rw [hc] at h; simp at h
  | some p =>
    rw [hc] at h
    dsimp only at h
    refine ⟨p, rfl, ?_⟩
    by_cases hp : chdir p = true
    · rw [if_pos hp] at h
      simp only [Option.some.injEq] at h
      subst h
      simp [hp]
    · rw [if_neg hp] at h
      cases hr : strcpy wd1 workDirCopy with
      | none => rw [hr] at h; simp at h
      | some restored =>
        rw [hr] at h
        simp only [Option.some.injEq] at h
        subst h
        simp [hp]

/-- C3 (rollback): whatever the argument and the buffers, when a call of `cd` hands a path to
`chdir` and `chdir` fails, the error handler runs and the string tracked in `workDir` is what it
was before the call.  The second part states that the call does return on well-formed buffers
(see `cd_defined`), and that it then has handed a path to `chdir`. -/
theorem cd_rollback (chdir : List Nat → Bool) (home workDir arg : List Nat) :
    (∀ r path, cd chdir home workDir (some arg) = some r → r.chdirPath = some path →
        chdir path = false → tracked r.workDir = tracked workDir ∧ r.failed = true) ∧
      (∀ H W A, cstr home = some H → home.length = HOME_MAX → cstr workDir = some W →
        workDir.length = DIR_MAX → readAt workDir (DIR_MAX - 1) = some 0 →
        cstr arg = some A → arg.length = ARGSIZE_MAX → W ≠ [] →
        W.length + A.length + 2 < DIR_MAX → (A = [46, 46] → 47 ∈ W.dropLast) →
        ∃ r path, cd chdir home workDir (some arg) = some r ∧ r.chdirPath = some path) := by
  constructor
  · intro r path h hpath hfail
    obtain ⟨workDirCopy, wd1, hcopy, hfin⟩ := cd_ends_in_cdFinish h
    obtain ⟨h1, h2⟩ := cdFinish_failed hfin hpath hfail
    refine ⟨?_, h2⟩
    unfold tracked
    rw [h1]
    exact strcpy_cstr hcopy
  · intro H W A hhome hhlen hwd hwlen hlast harg halen hW hroom hup
    obtain ⟨r, hr⟩ := cd_defined chdir home workDir arg H W A hhome hhlen hwd hwlen hlast harg
      halen hW hroom hup
    obtain ⟨_, wd1, _, hfin⟩ := cd_ends_in_cdFinish hr
    obtain ⟨path, _, hp, _⟩ := cdFinish_path hfin
    exact ⟨r, path, hr, hp⟩

/-- C3, witness: `cd /nonexistent` from `/home/user/` with a failing `chdir` returns, reports the
failure and leaves `/home/user/` as the tracked working directory. -/
theorem cd_rollback_witness :
    ∃ r, cd (fun _ => false) (bufOf HOME_MAX (str "/home/user/"))
        (bufOf DIR_MAX (str "/home/user/")) (some (bufOf ARGSIZE_MAX (str "/nonexistent"))) =
        some r ∧
      tracked r.workDir = some (str "/home/user/") ∧ r.failed = true := by
  have h := cd_rollback (fun _ => false) (bufOf HOME_MAX (str "/home/user/"))
    (bufOf DIR_MAX (str "/home/user/")) (bufOf ARGSIZE_MAX (str "/nonexistent"))
  obtain ⟨r, path, hr, hp⟩ := h.2 (str "/home/user/") (str "/home/user/") (str "/nonexistent")
    (by decide!) (by decide!) (by decide!) (by decide!) (by decide!) (by decide!) (by decide!)
    (by decide) (by decide) (by decide)
  obtain ⟨h1, h2⟩ := h.1 r path hr hp rfl
  refine ⟨r, hr, ?_, h2⟩
  rw [h1]
  decide!

end OShell

namespace OShell

set_option maxRecDepth 100000 in
/-- C4 (code at the failing input): with `/home/user/projects/` in `workDir`, `cd /tmp` copies
`/tmp` and its terminator, then writes the `/` over the terminator without writing a new one.
The string then runs on into the bytes the old path left behind: the path handed to `chdir`
is `/tmp//user/projects/`, not `/tmp/`.  Where only `/tmp/` and `/home/user/projects/` exist, the
call fails and the working directory stays what it was; where every `chdir` succeeds, the
tracked working directory becomes `/tmp//user/projects/`. -/
theorem cd_absolute_keeps_stale_bytes :
    (cd (fun p => p == str "/tmp/" || p == str "/home/user/projects/")
        (bufOf HOME_MAX (str "/home/user/")) (bufOf DIR_MAX (str "/home/user/projects/"))
        (some (bufOf ARGSIZE_MAX (str "/tmp")))).map
        (fun r => (r.chdirPath, r.failed, tracked r.workDir)) =
      some (some (str "/tmp//user/projects/"), true, some (str "/home/user/projects/")) ∧
    (cd (fun _ => true) (bufOf HOME_MAX (str "/home/user/"))
        (bufOf DIR_MAX (str "/home/user/projects/"))
        (some (bufOf ARGSIZE_MAX (str "/tmp")))).map
        (fun r => (r.chdirPath, r.failed, tracked r.workDir)) =
      some (some (str "/tmp//user/projects/"), false, some (str "/tmp//user/projects/")) := by
  constructor <;> decide!

end OShell

namespace OShell

set_option maxRecDepth 100000 in
/-- C5 (code at the failing input): `cd ~/sub` with home directory `/home/user/` and a succeeding
`chdir` leaves `/home/user/sub` as the tracked working directory, which does not end in `/`:
the `~` case appends the rest of the argument and, unlike the absolute and the relative case,
does not add the slash. -/
theorem cd_tilde_drops_trailing_slash :
    (cd (fun _ => true) (bufOf HOME_MAX (str "/home/user/")) (bufOf DIR_MAX (str "/home/user/"))
        (some (bufOf ARGSIZE_MAX (str "~/sub")))).map
        (fun r => (r.chdirPath, r.failed, tracked r.workDir)) =
      some (some (str "/home/user/sub"), false, some (str "/home/user/sub")) ∧
    (str "/home/user/sub").getLast? ≠ some 47 := by
  constructor <;> decide!

end OShell

namespace OShell

/-- C6: from a working directory `p ++ seg ++ "/"`, with `p` ending in `/` and no `/` in `seg`,
`cd ..` (the `chdir` to `p` succeeding) hands `p` to `chdir` and leaves `p` as the tracked working
directory: the bytes of `seg` and the final `/` are cleared, the rest of the buffer is as it
was. -/
theorem cd_dotdot_strips_last_segment (chdir : List Nat → Bool)
    (home junk argjunk p seg : List Nat) (hp : p.getLast? = some 47) (hp0 : 0 ∉ p)
    (hseg : ∀ c ∈ seg, c ≠ 47 ∧ c ≠ 0)
    (hlen : (p ++ seg ++ [47] ++ 0 :: junk).length = DIR_MAX) (hok : chdir p = true) :
    cd chdir home (p ++ seg ++ [47] ++ 0 :: junk) (some (46 :: 46 :: 0 :: argjunk)) =
        some ⟨p ++ zeros (seg.length + 1) ++ 0 :: junk, some p, false⟩ ∧
      tracked (p ++ zeros (seg.length + 1) ++ 0 :: junk) = some p ∧ p.getLast? = some 47 := by
  obtain ⟨q, rfl⟩ : ∃ q, p = q ++ [47] := by
    obtain ⟨q, hq⟩ := List.getLast?_eq_some_iff.1 hp
    exact ⟨q, hq⟩
  have hs47 : 47 ∉ seg := fun h => (hseg 47 h).1 rfl
  have hs0 : 0 ∉ seg := fun h => (hseg 0 h).2 rfl
  have hW0 : 0 ∉ q ++ [47] ++ seg ++ [47] := by
    intro h
    rcases List.mem_append.1 h with h1 | h1
    · rcases List.mem_append.1 h1 with h2 | h2
      · exact hp0 h2
      · exact hs0 h2
    · simp at h1
  simp only [DIR_MAX, List.length_append, List.length_cons, List.length_singleton,
    List.length_nil] at hlen
  have htr : tracked (q ++ [47] ++ zeros (seg.length + 1) ++ 0 :: junk) = some (q ++ [47]) := by
    unfold tracked
    rw [List.append_assoc, zeros_succ, List.cons_append]
    exact cstr_append _ _ hp0
  refine ⟨?_, htr, hp⟩
  have hcopy := strcpy_append (zeros 2048) (q ++ [47] ++ seg ++ [47]) junk hW0
    (by
      simp only [List.length_append, List.length_singleton, zeros_length]
      omega)
  have hli : lastIndexLoop ((q ++ [47] ++ seg ++ [47] ++ 0 :: junk).drop 1) 0 =
      some (q ++ [47] ++ seg).length := by
    obtain ⟨w0, t, hw0⟩ : ∃ w0 t, q ++ [47] ++ seg ++ [47] = w0 :: t :=
      List.exists_cons_of_ne_nil (by simp)
    have ht0 : 0 ∉ t := fun h => hW0 (by rw [hw0]; exact List.mem_cons_of_mem _ h)
    have hl : (q ++ [47] ++ seg).length + 1 = t.length + 1 := by
      have := congrArg List.length hw0
      simpa only [List.length_append, List.length_singleton, List.length_cons] using this
    rw [hw0, List.cons_append, List.drop_succ_cons, List.drop_zero, lastIndexLoop_spec t junk 0 ht0]
    simp only [Option.some.injEq]
    omega
  have hst := stripLoop_spec q seg 47 (0 :: junk) hs47
  have hbuf : q ++ [47] ++ seg ++ [47] ++ 0 :: junk = q ++ [47] ++ seg ++ 47 :: 0 :: junk := by
    simp
  unfold cd
  simp only [DIR_MAX]
  rw [hcopy]
  dsimp only
  rw [show readAt (46 :: 46 :: 0 :: argjunk) 0 = some 46 from rfl]
  dsimp only
  rw [if_neg (by decide), show strcmpEq (46 :: 46 :: 0 :: argjunk) [46, 46] = some true from rfl]
  dsimp only
  rw [hli]
  dsimp only
  rw [hbuf, hst]
  dsimp only
  unfold cdFinish
  unfold tracked at htr
  rw [htr]
  dsimp only
  rw [if_pos hok]

/-- C6, witness: from `/home/user/a/b/` a first `cd ..` gives `/home/user/a/`, a second one
`/home/user/`. -/
theorem cd_dotdot_strips_last_segment_witness :
    cd (fun _ => true) (bufOf HOME_MAX (str "/home/user/")) (bufOf DIR_MAX (str "/home/user/a/b/"))
        (some (bufOf ARGSIZE_MAX (str ".."))) =
        some ⟨bufOf DIR_MAX (str "/home/user/a/"), some (str "/home/user/a/"), false⟩ ∧
      cd (fun _ => true) (bufOf HOME_MAX (str "/home/user/")) (bufOf DIR_MAX (str "/home/user/a/"))
        (some (bufOf ARGSIZE_MAX (str ".."))) =
        some ⟨bufOf DIR_MAX (str "/home/user/"), some (str "/home/user/"), false⟩ := by
  have h1 := (cd_dotdot_strips_last_segment (fun _ => true) (bufOf HOME_MAX (str "/home/user/"))
    (zeros 2032) (zeros 253) (str "/home/user/a/") (str "b") (by decide) (by decide) (by decide)
    (by decide!) rfl).1
  have h2 := (cd_dotdot_strips_last_segment (fun _ => true) (bufOf HOME_MAX (str "/home/user/"))
    (zeros 2034) (zeros 253) (str "/home/user/") (str "a") (by decide) (by decide) (by decide)
    (by decide!) rfl).1
  have e1 : str "/home/user/a/" ++ str "b" ++ [47] ++ 0 :: zeros 2032 =
      bufOf DIR_MAX (str "/home/user/a/b/") := by decide!
  have e2 : str "/home/user/a/" ++ zeros ((str "b").length + 1) ++ 0 :: zeros 2032 =
      bufOf DIR_MAX (str "/home/user/a/") := by decide!
  have e3 : str "/home/user/" ++ str "a" ++ [47] ++ 0 :: zeros 2034 =
      bufOf DIR_MAX (str "/home/user/a/") := by decide!
  have e4 : str "/home/user/" ++ zeros ((str "a").length + 1) ++ 0 :: zeros 2034 =
      bufOf DIR_MAX (str "/home/user/") := by decide!
  have e5 : 46 :: 46 :: 0 :: zeros 253 = bufOf ARGSIZE_MAX (str "..") := by decide!
  rw [e1, e2, e5] at h1
  rw [e3, e4, e5] at h2
  exact ⟨h1, h2⟩

end OShell

namespace OShell

/-! ## `export` -/

theorem exportNameLoop_spec (name : List Nat) :
    ∀ (done rest : List Nat) (m : Nat), (∀ c ∈ name, c ≠ 0 ∧ c ≠ 61) → name.length ≤ m →
      exportNameLoop (name ++ 61 :: rest) done.length (done ++ zeros m) =
        some (rest, done ++ name ++ zeros (m - name.length)) := by
  induction name with
  | nil => intro done rest m _ _; simp [exportNameLoop]
  | cons c name ih =>
    intro done rest m hn hm
    simp only [List.length_cons] at hm
    obtain ⟨m1, rfl⟩ : ∃ m1, m = m1 + 1 := ⟨m - 1, by omega⟩
    have hc := hn c (List.mem_cons_self _ _)
    rw [List.cons_append, exportNameLoop, if_pos hc.1, if_neg hc.2, zeros_succ, writeAt_append]
    have := ih (done ++ [c]) rest m1 (fun x hx => hn x (List.mem_cons_of_mem _ hx)) (by omega)
    simp only [List.length_append, List.length_singleton, List.append_assoc,
      List.singleton_append] at this
    simp only [List.append_eq]
    rw [this]
    simp only [List.length_cons, List.append_assoc, List.cons_append, Nat.add_sub_add_right]

theorem exportNameLoop_no_equals (name : List Nat) :
    ∀ (done junk : List Nat) (m : Nat), (∀ c ∈ name, c ≠ 0 ∧ c ≠ 61) → name.length ≤ m →
      exportNameLoop (name ++ 0 :: junk) done.length (done ++ zeros m) =
        some (0 :: junk, done ++ name ++ zeros (m - name.length)) := by
  induction name with
  | nil => intro done junk m _ _; simp [exportNameLoop]
  | cons c name ih =>
    intro done junk m hn hm
    simp only [List.length_cons] at hm
    obtain ⟨m1, rfl⟩ : ∃ m1, m = m1 + 1 := ⟨m - 1, by omega⟩
    have hc := hn c (List.mem_cons_self _ _)
    rw [List.cons_append, exportNameLoop, if_pos hc.1, if_neg hc.2, zeros_succ, writeAt_append]
    have := ih (done ++ [c]) junk m1 (fun x hx => hn x (List.mem_cons_of_mem _ hx)) (by omega)
    simp only [List.length_append, List.length_singleton, List.append_assoc,
      List.singleton_append] at this
    simp only [List.append_eq]
    rw [this]
    simp only [List.length_cons, List.append_assoc, List.cons_append, Nat.add_sub_add_right]

theorem exportValLoop_spec (value : List Nat) :
    ∀ (done junk : List Nat) (m : Nat), 0 ∉ value → value.length ≤ m →
      exportValLoop (value ++ 0 :: junk) done.length (done ++ zeros m) =
        some (done ++ value ++ zeros (m - value.length)) := by
  induction value with
  | nil => intro done junk m _ _; simp [exportValLoop]
  | cons c value ih =>
    intro done junk m h0 hm
    simp only [List.length_cons] at hm
    obtain ⟨m1, rfl⟩ : ∃ m1, m = m1 + 1 := ⟨m - 1, by omega⟩
    have hc : c ≠ 0 := fun e => h0 (by simp [e])
    have h0v : 0 ∉ value := fun e => h0 (by simp [e])
    rw [List.cons_append, exportValLoop, if_pos hc, zeros_succ, writeAt_append]
    have := ih (done ++ [c]) junk m1 h0v (by omega)
    simp only [List.length_append, List.length_singleton, List.append_assoc,
      List.singleton_append] at this
    simp only [List.append_eq]
    rw [this]
    simp only [List.length_cons, List.append_assoc, List.cons_append, Nat.add_sub_add_right]

theorem cstr_padded (s : List Nat) (n : Nat) (h0 : 0 ∉ s) (hlen : s.length < n) :
    cstr (s ++ zeros (n - s.length)) = some s := by
  obtain ⟨d, hd⟩ : ∃ d, n - s.length = d + 1 := ⟨n - s.length - 1, by omega⟩
  rw [hd, zeros_succ]
  exact cstr_append s _ h0

/-- What `export` does with an argument `name=value` within the bounds: it hands exactly `name`
and `value` to `setenv`. -/
theorem exportVar_spec (env : Env) (name value argjunk : List Nat)
    (hn : ∀ c ∈ name, c ≠ 0 ∧ c ≠ 61) (hnlen : name.length < 64)
    (hv0 : 0 ∉ value) (hvlen : value.length < 128) :
    exportVar env (name ++ 61 :: (value ++ 0 :: argjunk)) =
      match setenv env name value with
      | none => some ⟨env, name, value, true⟩
      | some env1 => some ⟨env1, name, value, false⟩ := by
  have hn0 : 0 ∉ name := fun h => (hn 0 h).1 rfl
  have h1 := exportNameLoop_spec name [] (value ++ 0 :: argjunk) 64 hn (by omega)
  have h2 := exportValLoop_spec value [] argjunk 128 hv0 (by omega)
  simp only [List.length_nil, List.nil_append] at h1 h2
  unfold exportVar
  simp only [VARNAME_MAX, VARVAL_MAX]
  rw [h1]
  dsimp only
  rw [h2]
  dsimp only
  rw [cstr_padded name 64 hn0 hnlen, cstr_padded value 128 hv0 hvlen]

/-- C7 (round trip): after `export` has run on `name=value` (a non-empty name under
`VARNAME_MAX` characters without `=`, space, double quote or `$`; a value under `VARVAL_MAX`
characters without `$`), the call succeeds and `loadEnvironmentVars` in the new environment
turns the line `$name` into `value`. -/
theorem export_then_expand (env : Env) (fuel : Nat) (block argjunk junk name value : List Nat)
    (hfuel : 2 ≤ fuel) (hblock : block.length = ARGSIZE_MAX)
    (hinput : (36 :: name ++ 0 :: junk).length = INPUT_MAX)
    (hne : name ≠ []) (hnlen : name.length < VARNAME_MAX)
    (hname : ∀ c ∈ name, c ≠ 61 ∧ c ≠ 32 ∧ c ≠ 34 ∧ c ≠ 36 ∧ c ≠ 0)
    (hvlen : value.length < VARVAL_MAX) (hvalue : ∀ c ∈ value, c ≠ 36 ∧ c ≠ 0) :
    ∃ r out, exportVar env (name ++ 61 :: (value ++ 0 :: argjunk)) = some r ∧
      r.failed = false ∧ r.name = name ∧ r.value = value ∧
      loadEnvironmentVars r.env fuel block (36 :: name ++ 0 :: junk) = some out ∧
      cstr out = some value := by
  obtain ⟨f, rfl⟩ : ∃ f, fuel = f + 2 := ⟨fuel - 2, by omega⟩
  simp only [ARGSIZE_MAX, INPUT_MAX, VARNAME_MAX, VARVAL_MAX, List.length_append,
    List.length_cons] at *
  have hv36 : 36 ∉ value := fun h => (hvalue 36 h).1 rfl
  have hv0 : 0 ∉ value := fun h => (hvalue 0 h).2 rfl
  have hn0 : 0 ∉ name := fun h => (hname 0 h).2.2.2.2 rfl
  have hn61 : 61 ∉ name := fun h => (hname 61 h).1 rfl
  -- the call of `export`
  have hset : setenv env name value =
      some (fun n => if n = name then some value else env n) := by
    unfold setenv
    rw [if_neg]
    simp only [not_or]
    exact ⟨hne, hn61⟩
  have hexp := exportVar_spec env name value argjunk
    (fun c hc => ⟨(hname c hc).2.2.2.2, (hname c hc).1⟩) hnlen hv0 hvlen
  rw [hset] at hexp
  dsimp only at hexp
  -- the expansion in the new environment
  have hget : ((fun n => if n = name then some value else env n) name).getD [] = value := by
    simp
  have h2 := expandLoop_step (fun n => if n = name then some value else env n) (f + 1) [] []
    name [] (block.drop ((36 :: name).length + 1)) (by simp) (by simp)
    (fun c hc => ⟨(hname c hc).2.1, (hname c hc).2.2.2.2, (hname c hc).2.2.1⟩) hnlen (by simp)
    (Or.inl rfl) (by rw [hget]; exact hv0) (by simp only [List.length_nil]; omega)
    (by rw [hget]; simp only [List.length_drop, List.length_cons, List.length_nil]; omega)
  rw [hget] at h2
  have h3 := expandLoop_done (fun n => if n = name then some value else env n) f ([] ++ [])
    (value ++ [])
    ((36 :: name ++ [] ++ 0 :: block.drop ((36 :: name).length + 1)).drop
      (value.length + ([] : List Nat).length + 1))
    (by simpa using hv36) (by simpa using hv0)
  have h4 := loadEnvironmentVars_of_expandLoop
    (fun n => if n = name then some value else env n) (f + 2) block (36 :: name) junk value
    ((36 :: name ++ [] ++ 0 :: block.drop ((36 :: name).length + 1)).drop
      (value.length + ([] : List Nat).length + 1))
    (by simp only [List.mem_cons, not_or]; exact ⟨by decide, hn0⟩) hv0
    (by simp only [List.length_cons]; omega)
    (by simp only [List.length_append, List.length_cons]; omega)
    (by
      have e : (36 :: name) ++ 0 :: block.drop ((36 :: name).length + 1) =
          [] ++ (36 :: name ++ [] ++ 0 :: block.drop ((36 :: name).length + 1)) := by simp
      rw [e, h2, h3]
      simp only [List.nil_append, List.append_nil])
  exact ⟨_, _, hexp, rfl, rfl, rfl, h4, cstr_append _ _ hv0⟩

/-- C7, witness: `export FOO=bar`, then the line `$FOO` expands to `bar`. -/
theorem export_then_expand_witness :
    ∃ r out, exportVar sampleEnv (str "FOO" ++ 61 :: (str "bar" ++ 0 :: zeros 248)) = some r ∧
      r.failed = false ∧ r.name = str "FOO" ∧ r.value = str "bar" ∧
      loadEnvironmentVars r.env 2 (zeros 256) (36 :: str "FOO" ++ 0 :: zeros 2043) = some out ∧
      cstr out = some (str "bar") :=
  export_then_expand sampleEnv 2 (zeros 256) (zeros 248) (zeros 2043) (str "FOO") (str "bar")
    (by decide) (by decide!) (by decide!) (by decide) (by decide) (by decide) (by decide)
    (by decide)

end OShell

namespace OShell

/-! ## The expander never changes the size of its block -/

theorem writeAt_length {buf out : List Nat} {i c : Nat} (h : writeAt buf i c = some out) :
    out.length = buf.length := by
  unfold writeAt at h
  split at h
  · simp only [Option.some.injEq] at h
    subst h
    simp
  · simp at h

theorem overwriteLoop_length (v : List Nat) :
    ∀ (i : Nat) (sub out : List Nat) (i1 : Nat), overwriteLoop v i sub = some (i1, out) →
      out.length = sub.length := by
  induction v with
  | nil =>
    intro i sub out i1 h
    simp only [overwriteLoop, Option.some.injEq, Prod.mk.injEq] at h
    rw [← h.2]
  | cons c v ih =>
    intro i sub out i1 h
    rw [overwriteLoop] at h
    split at h
    · cases hw : writeAt sub i c with
      | none => rw [hw] at h; simp at h
      | some s1 =>
        rw [hw] at h
        rw [ih _ _ _ _ h, writeAt_length hw]
    · simp only [Option.some.injEq, Prod.mk.injEq] at h
      rw [← h.2]

theorem restoreLoop_length (old : List Nat) :
    ∀ (i : Nat) (sub out : List Nat) (i1 : Nat), restoreLoop old i sub = some (i1, out) →
      out.length = sub.length := by
  induction old with
  | nil => intro i sub out i1 h; simp [restoreLoop] at h
  | cons c old ih =>
    intro i sub out i1 h
    rw [restoreLoop] at h
    split at h
    · cases hw : writeAt sub i c with
      | none => rw [hw] at h; simp at h
      | some s1 =>
        rw [hw] at h
        rw [ih _ _ _ _ h, writeAt_length hw]
    · simp only [Option.some.injEq, Prod.mk.injEq] at h
      rw [← h.2]

theorem expandBody_length {env : Env} {sub out : List Nat} (h : expandBody env sub = some out) :
    out.length = sub.length := by
  unfold expandBody at h
  cases h1 : varNameLoop (sub.drop 1) 0 (zeros VARNAME_MAX) with
  | none => rw [h1] at h; simp at h
  | some varName =>
    rw [h1] at h
    dsimp only at h
    cases h2 : cstr varName with
    | none => rw [h2] at h; simp at h
    | some name =>
      rw [h2] at h
      dsimp only at h
      cases h3 : strcpy (zeros ARGSIZE_MAX) sub with
      | none => rw [h3] at h; simp at h
      | some old =>
        rw [h3] at h
        dsimp only at h
        cases h4 : overwriteLoop ((env name).getD []) 0 sub with
        | none => rw [h4] at h; simp at h
        | some p1 =>
          obtain ⟨i, s1⟩ := p1
          rw [h4] at h
          dsimp only at h
          cases h5 : skipLoop old with
          | none => rw [h5] at h; simp at h
          | some oldRest =>
            rw [h5] at h
            dsimp only at h
            cases h6 : restoreLoop oldRest i s1 with
            | none => rw [h6] at h; simp at h
            | some p2 =>
              obtain ⟨i2, s2⟩ := p2
              rw [h6] at h
              dsimp only at h
              rw [writeAt_length h, restoreLoop_length _ _ _ _ _ h6,
                overwriteLoop_length _ _ _ _ _ h4]

theorem expandLoop_length (env : Env) (fuel : Nat) :
    ∀ (before sub temp : List Nat), expandLoop env fuel before sub = some temp →
      temp.length = before.length + sub.length := by
  induction fuel with
  | zero => intro before sub temp h; simp [expandLoop] at h
  | succ fuel ih =>
    intro before sub temp h
    rw [expandLoop] at h
    split at h
    · simp at h
    · simp only [Option.some.injEq] at h
      rw [← h, List.length_append]
    · rename_i idx _
      cases hb : expandBody env (sub.drop idx) with
      | none => rw [hb] at h; simp at h
      | some sub1 =>
        rw [hb] at h
        have := ih _ _ _ h
        rw [this, expandBody_length hb]
        simp only [List.length_append, List.length_take, List.length_drop]
        omega

/-- The string `loadEnvironmentVars` leaves in the input buffer is shorter than the block it
worked in. -/
theorem loadEnvironmentVars_length {env : Env} {fuel : Nat} {block input out s : List Nat}
    (h : loadEnvironmentVars env fuel block input = some out) (hs : cstr out = some s) :
    s.length < block.length := by
  unfold loadEnvironmentVars at h
  cases h1 : strcpy block input with
  | none => rw [h1] at h; simp at h
  | some sub0 =>
    rw [h1] at h
    dsimp only at h
    cases h2 : expandLoop env fuel [] sub0 with
    | none => rw [h2] at h; simp at h
    | some temp =>
      rw [h2] at h
      dsimp only at h
      have hl := expandLoop_length env fuel [] sub0 temp h2
      rw [strcpy_length h1] at hl
      have hc := strcpy_cstr h
      rw [hs] at hc
      obtain ⟨_, junk, hj⟩ := cstr_eq_some hc.symm
      rw [hj] at hl
      simp only [List.length_append, List.length_cons, List.length_nil, Nat.zero_add] at hl
      omega

end OShell

namespace OShell

/-! ## `parseInput` -/

theorem length_refAux (q : Bool) (rest : List Nat) :
    ∀ t ∈ refAux q rest, t.length ≤ rest.length := by
  induction rest generalizing q with
  | nil => simp [refAux]
  | cons c rest ih =>
    intro t ht
    unfold refAux at ht
    split at ht
    · exact Nat.le_succ_of_le (ih _ t ht)
    · split at ht
      · rcases List.mem_cons.1 ht with h | h
        · subst h; simp
        · exact Nat.le_succ_of_le (ih _ t h)
      · cases h : refAux q rest with
        | nil => exact absurd h (refAux_ne_nil q rest)
        | cons a l =>
          rw [h] at ht
          simp only [List.modifyHead, List.mem_cons] at ht
          rcases ht with h1 | h1
          · subst h1
            have := ih q a (by simp [h])
            simp only [List.length_cons]
            omega
          · exact Nat.le_succ_of_le (ih q t (by simp [h, h1]))

theorem readAt_of_cstr {l g : List Nat} (n : Nat) (h : cstr (l.drop n) = some g) :
    readAt l n = some (g.headD 0) := by
  obtain ⟨_, junk, hj⟩ := cstr_eq_some h
  have : readAt l n = (l.drop n)[0]? := by
    simp only [readAt, List.get?_eq_getElem?, List.getElem?_drop, Nat.add_zero]
  rw [this, hj]
  cases g <;> simp

/-- The loop of `parseInput` on a store whose slots `0..k` hold the strings `T 0 .. T k`, the
first `k` of them not empty and not starting with `&`, and `T k` empty or starting with `&`: the
loop stops at `i = k`, having copied `T i .. T (k-1)` into their argument buffers. -/
theorem parseLoop_prefix (S : List Nat) (T : Nat → List Nat) (k : Nat) (hk : k < 11)
    (hS : ∀ r, r ≤ k → tokenAt S r = some (T r))
    (hgood : ∀ r, r < k → T r ≠ [] ∧ (T r).head? ≠ some 38 ∧ (T r).length < 256)
    (hstop : T k = [] ∨ (T k).head? = some 38) :
    ∀ (d i argNum : Nat) (args : List (List Nat)), i + d = k → args.length = 11 →
      (∀ b ∈ args, b.length = 256) →
      ∃ args1, parseLoop S (11 - i) i argNum args =
          some (if (T k).head? = some 38 then some 0 else some 1, k, args1) ∧
        args1.length = 11 ∧ (∀ b ∈ args1, b.length = 256) ∧
        (∀ r, i ≤ r → r < k → (args1.get? r).bind cstr = some (T r)) ∧
        (∀ r, r < i ∨ k ≤ r → args1.get? r = args.get? r) := by
  intro d
  induction d with
  | zero =>
    intro i argNum args hi hlen hbuf
    simp only [Nat.add_zero] at hi
    subst hi
    obtain ⟨n, hn⟩ : ∃ n, 11 - i = n + 1 := ⟨11 - i - 1, by omega⟩
    have hread := readAt_of_cstr (i * ARGSIZE_MAX) (hS i (Nat.le_refl _))
    refine ⟨args, ?_, hlen, hbuf, fun r h1 h2 => absurd h1 (by omega), fun _ _ => rfl⟩
    rw [hn, parseLoop, hread]
    dsimp only
    rcases hstop with h | h
    · rw [h]
      simp
    · obtain ⟨g, hg⟩ : ∃ g, T i = 38 :: g := by
        cases hT : T i with
        | nil => rw [hT] at h; simp at h
        | cons a g =>
          rw [hT] at h
          simp only [List.head?_cons, Option.some.injEq] at h
          exact ⟨g, by rw [h]⟩
      rw [hg]
      simp
  | succ d ih =>
    intro i argNum args hi hlen hbuf
    have hik : i < k := by omega
    obtain ⟨n, hn⟩ : ∃ n, 11 - i = n + 1 := ⟨11 - i - 1, by omega⟩
    have hn1 : 11 - (i + 1) = n := by omega
    obtain ⟨hne, h38, hlt⟩ := hgood i hik
    have hc := hS i (Nat.le_of_lt hik)
    have hread := readAt_of_cstr (i * ARGSIZE_MAX) hc
    obtain ⟨a, g, hag⟩ := List.exists_cons_of_ne_nil hne
    have ha38 : a ≠ 38 := by
      intro e
      apply h38
      rw [hag, e]
      rfl
    have ha0 : a ≠ 0 := by
      intro e
      have := (cstr_eq_some hc).1
      rw [hag, e] at this
      simp at this
    obtain ⟨dst, hdst⟩ : ∃ dst, args.get? i = some dst := by
      have : i < args.length := by omega
      exact ⟨args[i], by simp [List.getElem?_eq_getElem this]⟩
    have hdlen : dst.length = 256 := hbuf dst (List.get?_mem hdst)
    have hcpy := strcpy_of_cstr (dst) hc (by omega)
    unfold tokenAt at hc
    obtain ⟨args1, h1, h2, h3, h4, h5⟩ := ih (i + 1) argNum
      (args.set i (T i ++ 0 :: dst.drop ((T i).length + 1))) (by omega)
      (by simp only [List.length_set]; exact hlen)
      (by
        intro b hb
        rcases List.mem_or_eq_of_mem_set hb with h | h
        · exact hbuf b h
        · rw [h]
          simp only [List.length_append, List.length_cons, List.length_drop]
          omega)
    refine ⟨args1, ?_, h2, h3, ?_, ?_⟩
    · rw [hn, parseLoop, hread, hag]
      simp only [List.headD_cons, if_neg ha38, if_neg ha0]
      rw [hdst]
      dsimp only
      rw [hcpy]
      dsimp only
      rw [← hn1]
      exact h1
    · intro r hr1 hr2
      by_cases hri : r = i
      · subst hri
        rw [h5 r (Or.inl (Nat.lt_succ_self _))]
        simp only [List.get?_eq_getElem?]
        rw [List.getElem?_set_self (by omega)]
        simp only [Option.some_bind]
        exact cstr_append _ _ (cstr_eq_some hc).1
      · exact h4 r (by omega) hr2
    · intro r hr
      have hri : r ≠ i := by omega
      rw [h5 r (by omega)]
      simp only [List.get?_eq_getElem?]
      rw [List.getElem?_set_ne (fun e => hri e.symm)]

end OShell

namespace OShell

theorem getD_length_le (toks : List (List Nat)) (n r : Nat) (h : ∀ t ∈ toks, t.length ≤ n) :
    (toks.getD r []).length ≤ n := by
  rw [List.getD_eq_getElem?_getD]
  cases hr : toks[r]? with
  | none => simp
  | some t => exact h t (List.getElem?_mem hr)

/-- The whole of `parseInput`, given what the expander leaves in the input buffer: when the
expanded line has balanced quotes and at most `ARGNUM_MAX` tokens, the argument list is the run of
tokens in front of token `k`, the first token of the reference split that is empty or starts
with `&`. -/
theorem parseInput_prefix (env : Env) (fuel : Nat) (block input out expanded : List Nat)
    (argNum k : Nat) (args : List (List Nat)) (hblock : block.length = 256)
    (hexp : loadEnvironmentVars env fuel block input = some out)
    (hstr : cstr out = some expanded) (hbal : expanded.count 34 % 2 = 0)
    (hcount : (refSplit expanded).length ≤ 11) (hk : k < 11)
    (hgood : ∀ r, r < k →
      (refSplit expanded).getD r [] ≠ [] ∧ ((refSplit expanded).getD r []).head? ≠ some 38)
    (hstop : (refSplit expanded).getD k [] = [] ∨
      ((refSplit expanded).getD k []).head? = some 38)
    (hargs : args.length = 11) (hbuf : ∀ b ∈ args, b.length = 256) :
    ∃ args1, parseInput env fuel block input argNum args =
        some ⟨out,
          if ((refSplit expanded).getD k []).head? = some 38 then some 0 else some 1, k, args1⟩ ∧
      args1.length = 11 ∧
      (∀ r, r < k → (args1.get? r).bind cstr = some ((refSplit expanded).getD r [])) ∧
      (∀ r, k ≤ r → args1.get? r = args.get? r) := by
  have hshort := loadEnvironmentVars_length hexp hstr
  obtain ⟨h0, junk, hout⟩ := cstr_eq_some hstr
  have hlen : ∀ t ∈ refSplit expanded, t.length ≤ 255 := by
    intro t ht
    rw [refSplit_eq_refAux] at ht
    have := length_refAux false expanded t ht
    omega
  have h2 := splitString_store expanded junk h0 hbal hcount hlen
  have h3 : ∀ r, r ≤ k → tokenAt (pack (refSplit expanded) ++
      zeros (11 * 256 - 256 * (refSplit expanded).length)) r =
      some ((refSplit expanded).getD r []) := by
    intro r hr
    apply tokenAt_pack
    · intro t ht
      refine ⟨fun h => h0 ?_, hlen t ht⟩
      rw [refSplit_eq_refAux] at ht
      exact mem_refAux false expanded t ht 0 h
    · omega
  obtain ⟨args1, h4, h5, _, h7, h8⟩ := parseLoop_prefix _
    (fun r => (refSplit expanded).getD r []) k hk h3
    (fun r hr => ⟨(hgood r hr).1, (hgood r hr).2,
      Nat.lt_succ_of_le (getD_length_le (refSplit expanded) 255 r hlen)⟩)
    hstop k 0 argNum args (by omega) hargs hbuf
  refine ⟨args1, ?_, h5, fun r hr => h7 r (Nat.zero_le _) hr, fun r hr => h8 r (Or.inr hr)⟩
  unfold parseInput
  rw [hexp]
  dsimp only
  rw [show ARGSIZE_MAX - 1 = 255 from rfl, show ARGNUM_MAX * ARGSIZE_MAX = 11 * 256 from rfl,
    hout, h2]
  dsimp only
  rw [show ARGNUM_MAX = 11 - 0 from rfl, h4]

/-- The background marker on the lines on which the expander returns: let `expanded` be the
line as the expander leaves it in the input buffer (the line itself when it holds no `$`),
with balanced quotes.  When its tokens are the
`k ≤ 10` tokens `toks` (none empty, none starting with `&`) followed by the token `&`,
`parseInput` returns 0, sets the argument count to `k` and stores the `k` tokens in order; when
its tokens are `toks` alone, `parseInput` returns 1, with the same count and arguments. -/
theorem parseInput_background_marker (env : Env) (fuel : Nat)
    (block input out expanded : List Nat) (argNum : Nat) (args : List (List Nat))
    (toks : List (List Nat)) (hblock : block.length = ARGSIZE_MAX)
    (hexp : loadEnvironmentVars env fuel block input = some out)
    (hstr : cstr out = some expanded) (hbal : expanded.count 34 % 2 = 0)
    (hargs : args.length = ARGNUM_MAX) (hbuf : ∀ b ∈ args, b.length = ARGSIZE_MAX)
    (hk : toks.length ≤ 10) (hgood : ∀ t ∈ toks, t ≠ [] ∧ t.head? ≠ some 38) :
    (refSplit expanded = toks ++ [[38]] →
      ∃ r, parseInput env fuel block input argNum args = some r ∧
        r.ret = some 0 ∧ r.argNum = toks.length ∧
        ∀ i, i < toks.length → (r.argumentStore.get? i).bind cstr = some (toks.getD i [])) ∧
    (refSplit expanded = toks →
      ∃ r, parseInput env fuel block input argNum args = some r ∧
        r.ret = some 1 ∧ r.argNum = toks.length ∧
        ∀ i, i < toks.length → (r.argumentStore.get? i).bind cstr = some (toks.getD i [])) := by
  simp only [ARGSIZE_MAX, ARGNUM_MAX] at hblock hargs hbuf
  have hget : ∀ (tail : List (List Nat)) (r : Nat), r < toks.length →
      (toks ++ tail).getD r [] = toks.getD r [] := by
    intro tail r hr
    simp only [List.getD_eq_getElem?_getD]
    rw [List.getElem?_append_left hr]
  have hmem : ∀ r, r < toks.length → toks.getD r [] ∈ toks := by
    intro r hr
    rw [List.getD_eq_getElem?_getD, List.getElem?_eq_getElem hr]
    exact List.getElem_mem hr
  constructor
  · intro href
    have hstopTok : (toks ++ [[38]]).getD toks.length [] = [38] := by
      simp only [List.getD_eq_getElem?_getD]
      rw [List.getElem?_append_right (Nat.le_refl _)]
      simp
    obtain ⟨args1, h1, _, h3, _⟩ := parseInput_prefix env fuel block input out expanded argNum
      toks.length args hblock hexp hstr hbal (by rw [href]; simp; omega) (by omega)
      (fun r hr => by rw [href, hget _ r hr]; exact hgood _ (hmem r hr))
      (by rw [href, hstopTok]; exact Or.inr rfl) hargs hbuf
    rw [href, hstopTok] at h1
    refine ⟨_, h1, rfl, rfl, fun i hi => ?_⟩
    have := h3 i hi
    rw [href, hget _ i hi] at this
    exact this
  · intro href
    have hstopTok : toks.getD toks.length [] = [] := by
      simp only [List.getD_eq_getElem?_getD]
      rw [List.getElem?_eq_none (Nat.le_refl _)]
      rfl
    obtain ⟨args1, h1, _, h3, _⟩ := parseInput_prefix env fuel block input out expanded argNum
      toks.length args hblock hexp hstr hbal (by rw [href]; omega) (by omega)
      (fun r hr => by rw [href]; exact hgood _ (hmem r hr))
      (by rw [href, hstopTok]; exact Or.inl rfl) hargs hbuf
    rw [href, hstopTok] at h1
    refine ⟨_, h1, rfl, rfl, fun i hi => ?_⟩
    have := h3 i hi
    rw [href] at this
    exact this

/-- Instances of `parseInput_background_marker`: `ls -l &` is parsed as the two arguments `ls`, `-l` with return value 0, and
`ls -l` as the same two arguments with return value 1; with `HOME=/home/u`, `echo $HOME &` is
parsed as `echo`, `/home/u` with return value 0. -/
theorem parseInput_background_marker_witness :
    (∃ r, parseInput sampleEnv 1 (zeros 256) (bufOf INPUT_MAX (str "ls -l &")) 0
        (List.replicate 11 (zeros 256)) = some r ∧
      r.ret = some 0 ∧ r.argNum = 2 ∧
      ∀ i, i < 2 → (r.argumentStore.get? i).bind cstr = some ([str "ls", str "-l"].getD i [])) ∧
    (∃ r, parseInput sampleEnv 1 (zeros 256) (bufOf INPUT_MAX (str "ls -l")) 0
        (List.replicate 11 (zeros 256)) = some r ∧
      r.ret = some 1 ∧ r.argNum = 2 ∧
      ∀ i, i < 2 → (r.argumentStore.get? i).bind cstr = some ([str "ls", str "-l"].getD i [])) ∧
    (∃ r, parseInput sampleEnv 2 (zeros 256) (bufOf INPUT_MAX (str "echo $HOME &")) 0
        (List.replicate 11 (zeros 256)) = some r ∧
      r.ret = some 0 ∧ r.argNum = 2 ∧
      ∀ i, i < 2 →
        (r.argumentStore.get? i).bind cstr = some ([str "echo", str "/home/u"].getD i [])) :=
  ⟨(parseInput_background_marker sampleEnv 1 (zeros 256) (bufOf INPUT_MAX (str "ls -l &"))
      (bufOf INPUT_MAX (str "ls -l &")) (str "ls -l &") 0
      (List.replicate 11 (zeros 256)) [str "ls", str "-l"] (by decide!) (by decide!) (by decide!)
      (by decide) (by decide!) (by decide!) (by decide) (by decide)).1 (by decide),
    (parseInput_background_marker sampleEnv 1 (zeros 256) (bufOf INPUT_MAX (str "ls -l"))
      (bufOf INPUT_MAX (str "ls -l")) (str "ls -l") 0
      (List.replicate 11 (zeros 256)) [str "ls", str "-l"] (by decide!) (by decide!) (by decide!)
      (by decide) (by decide!) (by decide!) (by decide) (by decide)).2 (by decide),
    (parseInput_background_marker sampleEnv 2 (zeros 256) (bufOf INPUT_MAX (str "echo $HOME &"))
      (bufOf INPUT_MAX (str "echo /home/u &")) (str "echo /home/u &") 0
      (List.replicate 11 (zeros 256)) [str "echo", str "/home/u"] (by decide!) (by decide!)
      (by decide!) (by decide) (by decide!) (by decide!) (by decide) (by decide)).1 (by decide)⟩

end OShell

namespace OShell

set_option maxRecDepth 100000 in
/-- C8 (code at the failing input): the line `aaa...a bbb...b &` (two tokens of 130 characters
and the trailing `&`, 263 characters in all) is handed to `parseInput`.  The copy of the line
into the block of `ARGSIZE_MAX` bytes that `loadEnvironmentVars` allocates writes past the
block, so `parseInput` has no defined result, whatever number of passes the expander is
allowed; it does not return 0 with count 2.  In a block of 300 bytes the expander returns the
line unchanged. -/
theorem parseInput_background_line_overflows :
    backgroundLine.length = 263 ∧
    strcpy (zeros ARGSIZE_MAX) (bufOf INPUT_MAX backgroundLine) = none ∧
    (∀ fuel, parseInput sampleEnv fuel (zeros ARGSIZE_MAX) (bufOf INPUT_MAX backgroundLine) 0
        (List.replicate ARGNUM_MAX (zeros ARGSIZE_MAX)) = none) ∧
    loadEnvironmentVars sampleEnv 1 (zeros 300) (bufOf INPUT_MAX backgroundLine) =
      some (bufOf INPUT_MAX backgroundLine) := by
  have h1 : strcpy (zeros ARGSIZE_MAX) (bufOf INPUT_MAX backgroundLine) = none := by decide!
  refine ⟨by decide!, h1, ?_, by decide!⟩
  intro fuel
  unfold parseInput loadEnvironmentVars
  rw [h1]

end OShell

namespace OShell

set_option maxRecDepth 100000 in
/-- C9 (code at the failing input): the line `a b c d e f g h i j k l` has twelve tokens.  On
the store of `ARGNUM_MAX` slots that `parseInput` passes, `splitString` leaves the store (the
write of `l` goes to `strings[11][0]`), so neither it nor `parseInput` has a defined result; on
a store with one more slot the same call returns 11 and has written `l` at the first byte of
slot 11. -/
theorem splitString_writes_past_store :
    splitString (bufOf INPUT_MAX (str "a b c d e f g h i j k l")) 32 (ARGSIZE_MAX - 1)
        (zeros (ARGNUM_MAX * ARGSIZE_MAX)) = none ∧
    parseInput sampleEnv 1 (zeros ARGSIZE_MAX) (bufOf INPUT_MAX (str "a b c d e f g h i j k l")) 0
        (List.replicate ARGNUM_MAX (zeros ARGSIZE_MAX)) = none ∧
    (splitString (bufOf INPUT_MAX (str "a b c d e f g h i j k l")) 32 (ARGSIZE_MAX - 1)
        (zeros ((ARGNUM_MAX + 1) * ARGSIZE_MAX))).map
        (fun r => (r.1, readAt r.2 (11 * ARGSIZE_MAX), tokenAt r.2 11)) =
      some (11, some 108, some (str "l")) := by
  refine ⟨?_, ?_, ?_⟩ <;> decide!

end OShell

namespace OShell

set_option maxRecDepth 100000 in
/-- C10, counterexample: with `A=x$B` and `B=y` the line `$A` does not expand to the value of `A`
(`x$B`) but to `xy`: the `$B` inside the substituted value is expanded as well. -/
theorem expansion_not_verbatim :
    sampleEnv (str "A") = some (str "x$B") ∧
    (loadEnvironmentVars sampleEnv 3 (zeros ARGSIZE_MAX) (bufOf INPUT_MAX (str "$A"))).bind cstr =
      some (str "xy") ∧
    (loadEnvironmentVars sampleEnv 3 (zeros ARGSIZE_MAX) (bufOf INPUT_MAX (str "$A"))).bind cstr ≠
      sampleEnv (str "A") := by
  refine ⟨?_, ?_, ?_⟩ <;> decide!

/-- C10, amended: expansion rescans the substituted text.  When the value of `A` is
`x ++ "$" ++ B ++ y` (no `$` in `x` and `y`, `y` empty or starting with a space or a double
quote) and the value of `B` holds no `$`, the line `$A` expands to `x ++ w ++ y`, `w` being the
value of `B` (empty when `B` is unset): after a substitution the search for the next `$` starts
again at the first character written. -/
theorem expansion_rescans_value (env : Env) (fuel : Nat)
    (block junk nameA x nameB y : List Nat) (hfuel : 3 ≤ fuel)
    (hblock : block.length = ARGSIZE_MAX)
    (hinput : (36 :: nameA ++ 0 :: junk).length = INPUT_MAX)
    (hA : ∀ c ∈ nameA, c ≠ 32 ∧ c ≠ 34 ∧ c ≠ 36 ∧ c ≠ 0) (hAlen : nameA.length < VARNAME_MAX)
    (hvalA : env nameA = some (x ++ 36 :: (nameB ++ y)))
    (hx : ∀ c ∈ x, c ≠ 36 ∧ c ≠ 0)
    (hB : ∀ c ∈ nameB, c ≠ 32 ∧ c ≠ 34 ∧ c ≠ 36 ∧ c ≠ 0) (hBlen : nameB.length < VARNAME_MAX)
    (hy : ∀ c ∈ y, c ≠ 36 ∧ c ≠ 0)
    (hystop : y = [] ∨ y.head? = some 32 ∨ y.head? = some 34)
    (hvalB : ∀ c ∈ (env nameB).getD [], c ≠ 36 ∧ c ≠ 0)
    (hfitA : (x ++ 36 :: (nameB ++ y)).length < ARGSIZE_MAX)
    (hfitB : (x ++ (env nameB).getD [] ++ y).length < ARGSIZE_MAX) :
    ∃ out, loadEnvironmentVars env fuel block (36 :: nameA ++ 0 :: junk) = some out ∧
      cstr out = some (x ++ (env nameB).getD [] ++ y) := by
  obtain ⟨f, rfl⟩ : ∃ f, fuel = f + 3 := ⟨fuel - 3, by omega⟩
  simp only [ARGSIZE_MAX, INPUT_MAX, VARNAME_MAX, List.length_append, List.length_cons] at *
  have hx36 : 36 ∉ x := fun h => (hx 36 h).1 rfl
  have hx0 : 0 ∉ x := fun h => (hx 0 h).2 rfl
  have hy36 : 36 ∉ y := fun h => (hy 36 h).1 rfl
  have hy0 : 0 ∉ y := fun h => (hy 0 h).2 rfl
  have hw36 : 36 ∉ (env nameB).getD [] := fun h => (hvalB 36 h).1 rfl
  have hw0 : 0 ∉ (env nameB).getD [] := fun h => (hvalB 0 h).2 rfl
  have hA0 : 0 ∉ nameA := fun h => (hA 0 h).2.2.2 rfl
  have hB0 : 0 ∉ nameB := fun h => (hB 0 h).2.2.2 rfl
  have hgetA : (env nameA).getD [] = x ++ 36 :: (nameB ++ y) := by rw [hvalA]; rfl
  have hvA0 : 0 ∉ x ++ 36 :: (nameB ++ y) := by
    simp only [List.mem_append, List.mem_cons, not_or]
    exact ⟨hx0, by decide, hB0, hy0⟩
  -- first pass: `$A` is replaced by the value of `A`
  have h1 := expandLoop_step env (f + 2) [] [] nameA [] (block.drop ((36 :: nameA).length + 1))
    (by simp) (by simp)
    (fun c hc => ⟨(hA c hc).1, (hA c hc).2.2.2, (hA c hc).2.1⟩) hAlen (by simp) (Or.inl rfl)
    (by rw [hgetA]; exact hvA0) (by simp only [List.length_nil]; omega)
    (by
      rw [hgetA]
      simp only [List.length_drop, List.length_cons, List.length_nil, List.length_append]
      omega)
  rw [hgetA] at h1
  -- second pass: the search starts at the first character written and finds `$B`
  have e2 : x ++ 36 :: (nameB ++ y) ++ [] ++ 0 ::
      (36 :: nameA ++ [] ++ 0 :: block.drop ((36 :: nameA).length + 1)).drop
        ((x ++ 36 :: (nameB ++ y)).length + ([] : List Nat).length + 1) =
      x ++ (36 :: nameB ++ y ++ 0 ::
        (36 :: nameA ++ [] ++ 0 :: block.drop ((36 :: nameA).length + 1)).drop
          ((x ++ 36 :: (nameB ++ y)).length + ([] : List Nat).length + 1)) := by
    simp
  have h2 := expandLoop_step env (f + 1) ([] ++ []) x nameB y
    ((36 :: nameA ++ [] ++ 0 :: block.drop ((36 :: nameA).length + 1)).drop
      ((x ++ 36 :: (nameB ++ y)).length + ([] : List Nat).length + 1)) hx36 hx0
    (fun c hc => ⟨(hB c hc).1, (hB c hc).2.2.2, (hB c hc).2.1⟩) hBlen hy0 hystop hw0
    (by omega)
    (by
      simp only [List.length_drop, List.length_cons, List.length_nil, List.length_append]
      omega)
  -- third search: no `$` is left
  have h3 := expandLoop_done env f ([] ++ [] ++ x) ((env nameB).getD [] ++ y)
    ((36 :: nameB ++ y ++ 0 ::
      (36 :: nameA ++ [] ++ 0 :: block.drop ((36 :: nameA).length + 1)).drop
        ((x ++ 36 :: (nameB ++ y)).length + ([] : List Nat).length + 1)).drop
      (((env nameB).getD []).length + y.length + 1))
    (by simp only [List.mem_append, not_or]; exact ⟨hw36, hy36⟩)
    (by simp only [List.mem_append, not_or]; exact ⟨hw0, hy0⟩)
  have hres0 : 0 ∉ x ++ (env nameB).getD [] ++ y := by
    simp only [List.mem_append, not_or]; exact ⟨⟨hx0, hw0⟩, hy0⟩
  have h4 := loadEnvironmentVars_of_expandLoop env (f + 3) block (36 :: nameA) junk
    (x ++ (env nameB).getD [] ++ y)
    ((36 :: nameB ++ y ++ 0 ::
      (36 :: nameA ++ [] ++ 0 :: block.drop ((36 :: nameA).length + 1)).drop
        ((x ++ 36 :: (nameB ++ y)).length + ([] : List Nat).length + 1)).drop
      (((env nameB).getD []).length + y.length + 1))
    (by simp only [List.mem_cons, not_or]; exact ⟨by decide, hA0⟩) hres0
    (by simp only [List.length_cons]; omega)
    (by simp only [List.length_append, List.length_cons]; omega)
    (by
      have e1 : (36 :: nameA) ++ 0 :: block.drop ((36 :: nameA).length + 1) =
          [] ++ (36 :: nameA ++ [] ++ 0 :: block.drop ((36 :: nameA).length + 1)) := by simp
      rw [e1, h1, e2, h2, h3]
      simp only [List.nil_append, List.append_assoc])
  exact ⟨_, h4, cstr_append _ _ hres0⟩

/-- C10, witness of the amended claim: with `A=x$B` and `B=y` the line `$A` expands to `xy`. -/
theorem expansion_rescans_value_witness :
    ∃ out, loadEnvironmentVars sampleEnv 3 (zeros 256) (36 :: str "A" ++ 0 :: zeros 2045) =
        some out ∧ cstr out = some (str "xy") :=
  expansion_rescans_value sampleEnv 3 (zeros 256) (zeros 2045) (str "A") (str "x") (str "B") []
    (by decide) (by decide!) (by decide!) (by decide) (by decide) (by decide) (by decide)
    (by decide) (by decide) (by decide) (by decide) (by decide) (by decide) (by decide)

end OShell

namespace OShell

set_option maxRecDepth 100000 in
/-- C11 (code at the failing input): a line of 256 characters `a`, well within the input bound,
does not fit the block of `ARGSIZE_MAX` bytes that `loadEnvironmentVars` allocates: the first
`strcpy` already writes past its end, so the call has no defined result.  In a block one byte
larger the same call returns the line unchanged. -/
theorem loadEnvironmentVars_overflows_block :
    strcpy (zeros ARGSIZE_MAX) (bufOf INPUT_MAX (List.replicate 256 97)) = none ∧
    loadEnvironmentVars sampleEnv 1 (zeros ARGSIZE_MAX)
        (bufOf INPUT_MAX (List.replicate 256 97)) = none ∧
    loadEnvironmentVars sampleEnv 1 (zeros (ARGSIZE_MAX + 1))
        (bufOf INPUT_MAX (List.replicate 256 97)) =
      some (bufOf INPUT_MAX (List.replicate 256 97)) := by
  refine ⟨?_, ?_, ?_⟩ <;> decide!

end OShell

namespace OShell

theorem setenv_cases (env : Env) (name value : List Nat) (h61 : 61 ∉ name) :
    (name = [] ∧ setenv env name value = none) ∨
      (name ≠ [] ∧
        setenv env name value = some (fun n => if n = name then some value else env n)) := by
  unfold setenv
  by_cases hn : name = []
  · exact Or.inl ⟨hn, by rw [if_pos (Or.inl hn)]⟩
  · refine Or.inr ⟨hn, ?_⟩
    rw [if_neg]
    simp only [not_or]
    exact ⟨hn, h61⟩

/-- C12: for an argument `name=value` (no `=` in `name`, `name` under `VARNAME_MAX` and `value`
under `VARVAL_MAX` characters; `value` may be empty and may contain `=`) `export` hands exactly
`name` and `value` to `setenv`, which fails only for an empty name and otherwise sets the entry;
for an argument `name` without `=` it hands over `name` and the empty value. -/
theorem exportVar_splits_at_first_equals (env : Env) (name value junk : List Nat)
    (hn : ∀ c ∈ name, c ≠ 0 ∧ c ≠ 61) (hnlen : name.length < VARNAME_MAX)
    (hv0 : 0 ∉ value) (hvlen : value.length < VARVAL_MAX) :
    (∃ r, exportVar env (name ++ 61 :: (value ++ 0 :: junk)) = some r ∧
      r.name = name ∧ r.value = value ∧ (r.failed = true ↔ name = []) ∧
      (name ≠ [] → r.env name = some value)) ∧
    (∃ r, exportVar env (name ++ 0 :: junk) = some r ∧ r.name = name ∧ r.value = [] ∧
      (r.failed = true ↔ name = []) ∧ (name ≠ [] → r.env name = some [])) := by
  simp only [VARNAME_MAX, VARVAL_MAX] at hnlen hvlen
  have hn0 : 0 ∉ name := fun h => (hn 0 h).1 rfl
  have h61 : 61 ∉ name := fun h => (hn 61 h).2 rfl
  constructor
  · have hexp := exportVar_spec env name value junk hn hnlen hv0 hvlen
    rcases setenv_cases env name value h61 with ⟨hne, hs⟩ | ⟨hne, hs⟩
    · rw [hs] at hexp
      exact ⟨_, hexp, rfl, rfl, ⟨fun _ => hne, fun _ => rfl⟩, fun h => absurd hne h⟩
    · rw [hs] at hexp
      refine ⟨_, hexp, rfl, rfl, ⟨fun h => ?_, fun h => absurd h hne⟩, fun _ => ?_⟩
      · simp at h
      · simp
  · have h1 := exportNameLoop_no_equals name [] junk 64 hn (by omega)
    simp only [List.length_nil, List.nil_append] at h1
    have h2 : exportValLoop (0 :: junk) 0 (zeros 128) = some (zeros 128) := by
      simp [exportValLoop]
    have h3 : cstr (zeros 128) = some [] := cstr_zeros 127
    have hrun : exportVar env (name ++ 0 :: junk) =
        match setenv env name [] with
        | none => some ⟨env, name, [], true⟩
        | some env1 => some ⟨env1, name, [], false⟩ := by
      unfold exportVar
      simp only [VARNAME_MAX, VARVAL_MAX]
      rw [h1]
      dsimp only
      rw [h2]
      dsimp only
      rw [cstr_padded name 64 hn0 hnlen, h3]
    rcases setenv_cases env name [] h61 with ⟨hne, hs⟩ | ⟨hne, hs⟩
    · rw [hs] at hrun
      exact ⟨_, hrun, rfl, rfl, ⟨fun _ => hne, fun _ => rfl⟩, fun h => absurd hne h⟩
    · rw [hs] at hrun
      refine ⟨_, hrun, rfl, rfl, ⟨fun h => ?_, fun h => absurd h hne⟩, fun _ => ?_⟩
      · simp at h
      · simp

/-- C12, witness: `export FOO=a=b` requests `FOO` with the value `a=b`, `export FOO=` and
`export FOO` request `FOO` with the empty value. -/
theorem exportVar_splits_at_first_equals_witness :
    (∃ r, exportVar sampleEnv (str "FOO" ++ 61 :: (str "a=b" ++ 0 :: zeros 248)) = some r ∧
      r.name = str "FOO" ∧ r.value = str "a=b" ∧ (r.failed = true ↔ str "FOO" = []) ∧
      (str "FOO" ≠ [] → r.env (str "FOO") = some (str "a=b"))) ∧
    (∃ r, exportVar sampleEnv (str "FOO" ++ 61 :: ([] ++ 0 :: zeros 251)) = some r ∧
      r.name = str "FOO" ∧ r.value = [] ∧ (r.failed = true ↔ str "FOO" = []) ∧
      (str "FOO" ≠ [] → r.env (str "FOO") = some [])) ∧
    (∃ r, exportVar sampleEnv (str "FOO" ++ 0 :: zeros 252) = some r ∧
      r.name = str "FOO" ∧ r.value = [] ∧ (r.failed = true ↔ str "FOO" = []) ∧
      (str "FOO" ≠ [] → r.env (str "FOO") = some [])) :=
  ⟨(exportVar_splits_at_first_equals sampleEnv (str "FOO") (str "a=b") (zeros 248)
      (by decide) (by decide) (by decide) (by decide)).1,
    (exportVar_splits_at_first_equals sampleEnv (str "FOO") [] (zeros 251)
      (by decide) (by decide) (by decide) (by decide)).1,
    (exportVar_splits_at_first_equals sampleEnv (str "FOO") (str "a=b") (zeros 252)
      (by decide) (by decide) (by decide) (by decide)).2⟩

end OShell

namespace OShell

set_option maxRecDepth 100000 in
/-- C13 (code at the failing input): on the eleven tokens `a b c d e f g h i j k` the loop of
`parseInput` copies all eleven tokens and runs to its end: no `return` is reached and
`*argNumStore` keeps the value it had before the call (here 7), not 11.  With the ten tokens
`a b c d e f g h i j` the call returns 1 and sets the count to 10. -/
theorem parseInput_eleven_tokens_no_return :
    (parseInput sampleEnv 1 (zeros ARGSIZE_MAX)
        (bufOf INPUT_MAX (str "a b c d e f g h i j k")) 7
        (List.replicate ARGNUM_MAX (zeros ARGSIZE_MAX))).map
        (fun r => (r.ret, r.argNum, r.argumentStore.map cstr)) =
      some (none, 7, [some (str "a"), some (str "b"), some (str "c"), some (str "d"),
        some (str "e"), some (str "f"), some (str "g"), some (str "h"), some (str "i"),
        some (str "j"), some (str "k")]) ∧
    (parseInput sampleEnv 1 (zeros ARGSIZE_MAX)
        (bufOf INPUT_MAX (str "a b c d e f g h i j")) 7
        (List.replicate ARGNUM_MAX (zeros ARGSIZE_MAX))).map
        (fun r => (r.ret, r.argNum)) = some (some 1, 10) := by
  constructor <;> decide!

end OShell

namespace OShell

/-! ## The interactive loop on `exit` -/

/-- A buffer that holds the literal followed by a terminator compares equal to it. -/
theorem strcmpEq_literal (lit junk : List Nat) :
    strcmpEq (lit ++ 0 :: junk) lit = some true := by
  induction lit with
  | nil => rfl
  | cons d lit ih => rw [List.cons_append, strcmpEq, if_pos rfl, ih]

/-- The loop of `parseInput` from index `i` on keeps the number and the sizes of the argument
buffers and leaves the buffers in front of index `i` as they are. -/
theorem parseLoop_frame (strings : List Nat) :
    ∀ (n i argNum : Nat) (store : List (List Nat)) (res : Option Nat × Nat × List (List Nat)),
      parseLoop strings n i argNum store = some res → (∀ b ∈ store, b.length = 256) →
      res.2.2.length = store.length ∧ (∀ b ∈ res.2.2, b.length = 256) ∧
        ∀ m, m < i → res.2.2.get? m = store.get? m := by
  intro n
  induction n with
  | zero =>
    intro i argNum store res h hs
    simp only [parseLoop, Option.some.injEq] at h
    subst h
    exact ⟨rfl, hs, fun _ _ => rfl⟩
  | succ n ih =>
    intro i argNum store res h hs
    rw [parseLoop] at h
    cases hr : readAt strings (i * ARGSIZE_MAX) with
    | none => rw [hr] at h; simp at h
    | some c =>
      rw [hr] at h
      dsimp only at h
      by_cases h38 : c = 38
      · rw [if_pos h38] at h
        simp only [Option.some.injEq] at h
        subst h
        exact ⟨rfl, hs, fun _ _ => rfl⟩
      · rw [if_neg h38] at h
        by_cases h0 : c = 0
        · rw [if_pos h0] at h
          simp only [Option.some.injEq] at h
          subst h
          exact ⟨rfl, hs, fun _ _ => rfl⟩
        · rw [if_neg h0] at h
          cases hg : store.get? i with
          | none => rw [hg] at h; simp at h
          | some dst =>
            rw [hg] at h
            dsimp only at h
            cases hc : strcpy dst (strings.drop (i * ARGSIZE_MAX)) with
            | none => rw [hc] at h; simp at h
            | some dst1 =>
              rw [hc] at h
              dsimp only at h
              have hdst : dst.length = 256 := hs dst (List.get?_mem hg)
              have hs1 : ∀ b ∈ store.set i dst1, b.length = 256 := by
                intro b hb
                rcases List.mem_or_eq_of_mem_set hb with hb1 | hb1
                · exact hs b hb1
                · rw [hb1, strcpy_length hc, hdst]
              obtain ⟨hl, hm, hf⟩ := ih (i + 1) argNum (store.set i dst1) res h hs1
              refine ⟨by rw [hl, List.length_set], hm, ?_⟩
              intro m hmi
              rw [hf m (by omega)]
              simp only [List.get?_eq_getElem?]
              exact List.getElem?_set_ne (by omega)

/-- The loop of `shell` that clears the argument buffers runs through when every buffer it
reaches has its `ARGSIZE_MAX` bytes. -/
theorem clearLoop_defined :
    ∀ (n i : Nat) (arguments : List (List Nat)), i + n ≤ arguments.length →
      (∀ b ∈ arguments, b.length = 256) →
      ∃ cleared, clearLoop n i arguments = some cleared ∧ cleared.length = arguments.length ∧
        ∀ b ∈ cleared, b.length = 256 := by
  intro n
  induction n with
  | zero => intro i arguments _ hs; exact ⟨arguments, rfl, rfl, hs⟩
  | succ n ih =>
    intro i arguments hi hs
    have hlt : i < arguments.length := by omega
    have hg : arguments.get? i = some (arguments.get ⟨i, hlt⟩) := List.get?_eq_get hlt
    have hb : (arguments.get ⟨i, hlt⟩).length = 256 := hs _ (List.get_mem _ _ _)
    rw [clearLoop, hg]
    dsimp only
    rw [if_pos (by rw [hb])]
    have hs1 : ∀ b ∈ arguments.set i
        (zeros ARGSIZE_MAX ++ (arguments.get ⟨i, hlt⟩).drop ARGSIZE_MAX), b.length = 256 := by
      intro b hb1
      rcases List.mem_or_eq_of_mem_set hb1 with hb2 | hb2
      · exact hs b hb2
      · rw [hb2, List.length_append, zeros_length, List.length_drop, hb]
        decide
    obtain ⟨cl, hcl, hlen, hall⟩ := ih (i + 1) _ (by rw [List.length_set]; omega) hs1
    exact ⟨cl, hcl, by rw [hlen, List.length_set], hall⟩

/-- One pass of the loop of `shell` on a line whose token 0 is `exit`, where expander, tokenizer
and copy loop return.  `read` is the line `fgets` delivers, `out` the line after expansion, `strings` the token store the tokenizer
fills, and the copy of the tokens into the eleven argument buffers of 256 bytes is defined.
Then the pass ends with `running` cleared, the list of calls to `builtIn` and `executeCommand`
is the one before the pass, environment and working directory are unchanged, and the loop ends
after this pass whatever lines would follow. -/
theorem shell_exit_ends_loop (chdir : List Nat → Bool) (fuel : Nat) (read : Option (List Nat))
    (block input1 out strings : List Nat) (j : Nat) (st : Shell)
    (res : Option Nat × Nat × List (List Nat))
    (hin : takeInput read st.input = some input1)
    (hexp : loadEnvironmentVars st.env fuel block input1 = some out)
    (hsplit : splitString out 32 (ARGSIZE_MAX - 1) (zeros (ARGNUM_MAX * ARGSIZE_MAX)) =
      some (j, strings))
    (htok : tokenAt strings 0 = some [101, 120, 105, 116])
    (hloop : parseLoop strings ARGNUM_MAX 0 st.argNum st.arguments = some res)
    (hnum : st.arguments.length = ARGNUM_MAX)
    (hsize : ∀ b ∈ st.arguments, b.length = ARGSIZE_MAX) :
    ∃ st1, shellIteration chdir fuel read block st = some (st1, false) ∧
      st1.events = st.events ∧ st1.env = st.env ∧ st1.workDir = st.workDir ∧
      ∀ rest, shellLoop chdir fuel ((read, block) :: rest) st = some (st1, false) := by
  simp only [ARGNUM_MAX, ARGSIZE_MAX] at hnum hsize hloop
  -- the first pass of the copy loop puts `exit` into `arguments[0]`
  have hlt : 0 < st.arguments.length := by omega
  have hg : st.arguments.get? 0 = some (st.arguments.get ⟨0, hlt⟩) := List.get?_eq_get hlt
  have hd : (st.arguments.get ⟨0, hlt⟩).length = 256 := hsize _ (List.get_mem _ _ _)
  have htok0 : cstr (strings.drop 0) = some [101, 120, 105, 116] := htok
  have hr : readAt strings 0 = some 101 := readAt_of_cstr 0 htok0
  have hcp : strcpy (st.arguments.get ⟨0, hlt⟩) (strings.drop 0) =
      some ([101, 120, 105, 116] ++ 0 :: (st.arguments.get ⟨0, hlt⟩).drop 5) :=
    strcpy_of_cstr (st.arguments.get ⟨0, hlt⟩) htok0 (by rw [hd]; decide)
  have hz : 0 * ARGSIZE_MAX = 0 := rfl
  rw [parseLoop, hz, hr] at hloop
  dsimp only at hloop
  rw [if_neg (by decide), if_neg (by decide), hg] at hloop
  dsimp only at hloop
  rw [hcp] at hloop
  dsimp only at hloop
  have hs1 : ∀ b ∈ st.arguments.set 0
      ([101, 120, 105, 116] ++ 0 :: (st.arguments.get ⟨0, hlt⟩).drop 5), b.length = 256 := by
    intro b hb
    rcases List.mem_or_eq_of_mem_set hb with hb1 | hb1
    · exact hsize b hb1
    · rw [hb1]
      simp only [List.length_append, List.length_cons, List.length_nil, List.length_drop, hd]
  obtain ⟨hl, hm, hf⟩ := parseLoop_frame strings _ _ _ _ res hloop hs1
  have h0 : res.2.2.get? 0 =
      some ([101, 120, 105, 116] ++ 0 :: (st.arguments.get ⟨0, hlt⟩).drop 5) := by
    rw [hf 0 (by decide)]
    simp only [List.get?_eq_getElem?, List.getElem?_set_self hlt]
  rw [List.length_set, hnum] at hl
  obtain ⟨cl, hcl, _, _⟩ := clearLoop_defined 11 0 res.2.2 (by omega) hm
  have hparse : parseInput st.env fuel block input1 st.argNum st.arguments =
      some ⟨out, res.1, res.2.1, res.2.2⟩ := by
    unfold parseInput
    rw [hexp]
    dsimp only
    rw [hsplit]
    dsimp only
    simp only [ARGNUM_MAX]
    rw [parseLoop, hz, hr]
    dsimp only
    rw [if_neg (by decide), if_neg (by decide), hg]
    dsimp only
    rw [hcp]
    dsimp only
    rw [hloop]
  have hit : shellIteration chdir fuel read block st =
      some ({ st with input := out, arguments := cl, argNum := res.2.1 }, false) := by
    unfold shellIteration
    rw [hin]
    dsimp only
    rw [hparse]
    dsimp only
    unfold dispatch
    dsimp only
    rw [h0]
    dsimp only
    rw [strcmpEq_literal]
    dsimp only
    simp only [ARGNUM_MAX]
    rw [hcl]
  refine ⟨_, hit, rfl, rfl, rfl, ?_⟩
  intro rest
  rw [shellLoop, hit]
  rfl

set_option maxRecDepth 100000 in
/-- An instance of `shell_exit_ends_loop`: the line `exit` typed at the prompt of a freshly
started shell. -/
theorem shell_exit_ends_loop_witness :
    ∃ st1, shellIteration (fun _ => true) 1 (some (str "exit\n")) (zeros ARGSIZE_MAX)
        ⟨zeros INPUT_MAX, List.replicate ARGNUM_MAX (zeros ARGSIZE_MAX), 0, sampleEnv,
          bufOf DIR_MAX (str "/home/user/"), bufOf DIR_MAX (str "/home/user/"), []⟩ =
        some (st1, false) ∧
      st1.events = [] ∧ st1.env = sampleEnv ∧
      st1.workDir = bufOf DIR_MAX (str "/home/user/") ∧
      ∀ rest, shellLoop (fun _ => true) 1 ((some (str "exit\n"), zeros ARGSIZE_MAX) :: rest)
        ⟨zeros INPUT_MAX, List.replicate ARGNUM_MAX (zeros ARGSIZE_MAX), 0, sampleEnv,
          bufOf DIR_MAX (str "/home/user/"), bufOf DIR_MAX (str "/home/user/"), []⟩ =
        some (st1, false) :=
  shell_exit_ends_loop (fun _ => true) 1 (some (str "exit\n")) (zeros ARGSIZE_MAX)
    (bufOf INPUT_MAX (str "exit")) (bufOf INPUT_MAX (str "exit"))
    (pack [str "exit"] ++ zeros (ARGNUM_MAX * ARGSIZE_MAX - ARGSIZE_MAX)) 0
    ⟨zeros INPUT_MAX, List.replicate ARGNUM_MAX (zeros ARGSIZE_MAX), 0, sampleEnv,
      bufOf DIR_MAX (str "/home/user/"), bufOf DIR_MAX (str "/home/user/"), []⟩
    (some 1, 1, (bufOf ARGSIZE_MAX (str "exit")) ::
      List.replicate (ARGNUM_MAX - 1) (zeros ARGSIZE_MAX))
    (by decide!) (by decide!) (by decide!) (by decide!) (by decide!) (by decide!) (by decide!)

end OShell

namespace OShell

/-- With `L` set to `$L`, a pass of the expander's loop over the block `$L` gives back the same
block, so no number of passes ends the loop. -/
theorem expandLoop_self_reference :
    ∀ (fuel : Nat) (before : List Nat),
      expandLoop loopEnv fuel before (bufOf 251 (str "$L")) = none := by
  have hs : strstr (bufOf 251 (str "$L")) 36 = some (some 0) := by decide!
  have hb : expandBody loopEnv (bufOf 251 (str "$L")) = some (bufOf 251 (str "$L")) := by
    decide!
  intro fuel
  induction fuel with
  | zero => intro before; rfl
  | succ n ih =>
    intro before
    rw [expandLoop, hs]
    dsimp only
    rw [List.drop_zero, hb]
    dsimp only
    exact ih _

set_option maxRecDepth 100000 in
/-- C14 (code at the failing inputs): two lines whose token 0 is `exit`, typed at the prompt
of a shell that has just started.

The line `exit aaa...a bbb...b` (two further tokens of 130 characters, 266 characters in all)
is read into `input`, and the copy of it into the block of `ARGSIZE_MAX` bytes that
`loadEnvironmentVars` allocates writes past the block: the pass through the loop of `shell` has
no defined result, whatever number of passes the expander is allowed.  In a block of 300
bytes the expander returns the line unchanged.

With `L` set to `$L`, the line `exit $L` is read into `input` and copied into the block; each
pass of the expander's loop over `$L` is defined and gives back the same text, so the loop
never ends and the pass through the loop of `shell` does not return for any number of passes
allowed: `running` is never cleared. -/
theorem shell_exit_line_without_result :
    exitLine.length = 266 ∧
    takeInput (some (exitLine ++ [10])) (freshShell sampleEnv).input =
      some (bufOf INPUT_MAX exitLine) ∧
    strcpy (zeros ARGSIZE_MAX) (bufOf INPUT_MAX exitLine) = none ∧
    (∀ chdir fuel, shellIteration chdir fuel (some (exitLine ++ [10])) (zeros ARGSIZE_MAX)
      (freshShell sampleEnv) = none) ∧
    loadEnvironmentVars sampleEnv 1 (zeros 300) (bufOf INPUT_MAX exitLine) =
      some (bufOf INPUT_MAX exitLine) ∧
    strcpy (zeros ARGSIZE_MAX) (bufOf INPUT_MAX (str "exit $L")) =
      some (bufOf ARGSIZE_MAX (str "exit $L")) ∧
    expandBody loopEnv ((bufOf ARGSIZE_MAX (str "exit $L")).drop 5) =
      some ((bufOf ARGSIZE_MAX (str "exit $L")).drop 5) ∧
    (∀ chdir fuel, shellIteration chdir fuel (some (str "exit $L\n")) (zeros ARGSIZE_MAX)
      (freshShell loopEnv) = none) := by
  have hin1 : takeInput (some (exitLine ++ [10])) (zeros INPUT_MAX) =
      some (bufOf INPUT_MAX exitLine) := by decide!
  have hcp1 : strcpy (zeros ARGSIZE_MAX) (bufOf INPUT_MAX exitLine) = none := by decide!
  have hin2 : takeInput (some (str "exit $L\n")) (zeros INPUT_MAX) =
      some (bufOf INPUT_MAX (str "exit $L")) := by decide!
  have hcp2 : strcpy (zeros ARGSIZE_MAX) (bufOf INPUT_MAX (str "exit $L")) =
      some (bufOf ARGSIZE_MAX (str "exit $L")) := by decide!
  have hs : strstr (bufOf ARGSIZE_MAX (str "exit $L")) 36 = some (some 5) := by decide!
  have hdrop : (bufOf ARGSIZE_MAX (str "exit $L")).drop 5 = bufOf 251 (str "$L") := by decide!
  have hb : expandBody loopEnv (bufOf 251 (str "$L")) = some (bufOf 251 (str "$L")) := by
    decide!
  refine ⟨by decide!, hin1, hcp1, ?_, by decide!, hcp2, by rw [hdrop]; exact hb, ?_⟩
  · intro chdir fuel
    unfold shellIteration
    dsimp only [freshShell]
    rw [hin1]
    dsimp only
    unfold parseInput loadEnvironmentVars
    rw [hcp1]
  · intro chdir fuel
    unfold shellIteration
    dsimp only [freshShell]
    rw [hin2]
    dsimp only
    unfold parseInput loadEnvironmentVars
    rw [hcp2]
    cases fuel with
    | zero => rfl
    | succ n =>
      dsimp only
      rw [expandLoop, hs]
      dsimp only
      rw [hdrop, hb]
      dsimp only
      rw [expandLoop_self_reference]

end OShell

namespace OShell

/-! ## The Reaper -/

theorem reapLoop_spec (zombies : List Int) :
    ∀ (running : List Int) (log : List Int) (calls fuel : Nat),
      (∀ pid ∈ zombies, 0 < pid) → zombies.length < fuel →
      reapLoop fuel ⟨running, zombies⟩ log calls =
        some (⟨running, []⟩, log ++ zombies, calls + zombies.length + 1) := by
  induction zombies with
  | nil =>
    intro running log calls fuel _ hfuel
    obtain ⟨f, rfl⟩ : ∃ f, fuel = f + 1 := ⟨fuel - 1, by simp at hfuel; omega⟩
    have hw : ¬ (waitpidAny ⟨running, []⟩).1 > 0 := by
      unfold waitpidAny
      dsimp only
      split <;> simp
    have hos : (waitpidAny ⟨running, []⟩).2 = ⟨running, []⟩ := by
      unfold waitpidAny
      dsimp only
      split <;> rfl
    rw [reapLoop, if_neg hw, hos]
    simp
  | cons pid rest ih =>
    intro running log calls fuel hpos hfuel
    simp only [List.length_cons] at hfuel
    obtain ⟨f, rfl⟩ : ∃ f, fuel = f + 1 := ⟨fuel - 1, by omega⟩
    have hp : (0 : Int) < pid := hpos pid (List.mem_cons_self _ _)
    have hw : waitpidAny ⟨running, pid :: rest⟩ = (pid, ⟨running, rest⟩) := rfl
    rw [reapLoop, hw]
    dsimp only
    rw [if_pos hp, ih running _ (calls + 1) f (fun q hq => hpos q (List.mem_cons_of_mem _ hq))
      (by omega)]
    simp only [writeReapingMsg, List.append_assoc, List.singleton_append, List.length_cons,
      Option.some.injEq, Prod.mk.injEq, true_and]
    omega

/-- C15: with the terminated, not yet collected children given as the list `os.zombies` (process
ids are positive), one run of `handleChildSignals` returns after `os.zombies.length + 1` calls of
`waitpid`, has appended one record per pending child to the log, in the order in which `waitpid`
hands the children out, and leaves no terminated child uncollected. -/
theorem handleChildSignals_collects_all (fuel : Nat) (os : Os) (log : List Int)
    (hpos : ∀ pid ∈ os.zombies, 0 < pid) (hfuel : os.zombies.length < fuel) :
    handleChildSignals fuel os log =
      some (⟨os.running, []⟩, log ++ os.zombies, os.zombies.length + 1) := by
  have h := reapLoop_spec os.zombies os.running log 0 fuel hpos hfuel
  simp only [Nat.zero_add] at h
  exact h

/-- C15, witness: with the children 3, 5 and 8 pending and child 9 still running, the handler
appends the records 3, 5, 8 and returns after four calls of `waitpid`. -/
theorem handleChildSignals_collects_all_witness :
    handleChildSignals 4 ⟨[9], [3, 5, 8]⟩ [1] = some (⟨[9], []⟩, [1, 3, 5, 8], 4) :=
  handleChildSignals_collects_all 4 ⟨[9], [3, 5, 8]⟩ [1] (by decide) (by decide)

end OShell

namespace OShell

set_option maxRecDepth 100000 in
/-- C16 (code at the failing input): on `echo "a b" c` the store holds the three tokens `echo`,
`a b` and `c`, and `splitString` returns 2, the index of the last one; on the single token `ls`
it returns 0. -/
theorem splitString_returns_last_index :
    (splitString (bufOf INPUT_MAX (str "echo " ++ [34] ++ str "a b" ++ [34] ++ str " c")) 32
        (ARGSIZE_MAX - 1) (zeros (ARGNUM_MAX * ARGSIZE_MAX))).map
        (fun r => (r.1, (List.range 4).map (tokenAt r.2))) =
      some (2, [some (str "echo"), some (str "a b"), some (str "c"), some []]) ∧
    (splitString (bufOf INPUT_MAX (str "ls")) 32 (ARGSIZE_MAX - 1)
        (zeros (ARGNUM_MAX * ARGSIZE_MAX))).map
        (fun r => (r.1, (List.range 2).map (tokenAt r.2))) =
      some (0, [some (str "ls"), some []]) := by
  constructor <;> decide!

end OShell

namespace OShell

/-- C17 (code at the failing interleaving): a foreground child (process id 7) terminates before
the parent reaches `waitpid(childID, &status, 0)`.  The handler runs first, collects the child
and writes its record; the parent's `waitpid` then finds no child and returns -1, which the
parent does not look at, and `writeReapingMsg(childID)` writes a second record for the same
child.  When the parent's `waitpid` collects the child first, there is one record. -/
theorem foreground_child_recorded_twice :
    (foregroundRun [Step.childExits 7, Step.sigchld, Step.parent, Step.parent]
        ⟨⟨[7], []⟩, [], ParentPc.atWait 7⟩).map (fun s => (s.log, s.pc)) =
      some ([7, 7], ParentPc.returned) ∧
    (foregroundRun [Step.childExits 7, Step.parent, Step.sigchld, Step.parent]
        ⟨⟨[7], []⟩, [], ParentPc.atWait 7⟩).map (fun s => (s.log, s.pc)) =
      some ([7], ParentPc.returned) := by
  constructor <;> decide

end OShell

namespace OShell

set_option maxRecDepth 100000 in
/-- C18 (code at the failing input): from `/home/user/projects/sub/` the call `cd /tmp/` succeeds
and leaves `/tmp/`, with the bytes `user/projects/sub/` of the old path behind the terminator.
The call `cd ab` then appends `ab` with its terminator and writes the `/` over the terminator
without writing a new one: the path handed to `chdir`, and tracked when `chdir` succeeds, is
`/tmp/ab/er/projects/sub/`, not `/tmp/ab/`. -/
theorem cd_relative_keeps_stale_bytes :
    (cd (fun _ => true) (bufOf HOME_MAX (str "/home/user/"))
        (bufOf DIR_MAX (str "/home/user/projects/sub/"))
        (some (bufOf ARGSIZE_MAX (str "/tmp/")))).map
        (fun r => (r.chdirPath, tracked r.workDir, r.workDir.take 26)) =
      some (some (str "/tmp/"), some (str "/tmp/"),
        str "/tmp/" ++ 0 :: str "user/projects/sub/" ++ [0, 0]) ∧
    ((cd (fun _ => true) (bufOf HOME_MAX (str "/home/user/"))
        (bufOf DIR_MAX (str "/home/user/projects/sub/"))
        (some (bufOf ARGSIZE_MAX (str "/tmp/")))).bind
        (fun r => cd (fun _ => true) (bufOf HOME_MAX (str "/home/user/")) r.workDir
          (some (bufOf ARGSIZE_MAX (str "ab"))))).map
        (fun r => (r.chdirPath, r.failed, tracked r.workDir)) =
      some (some (str "/tmp/ab/er/projects/sub/"), false,
        some (str "/tmp/ab/er/projects/sub/")) := by
  constructor <;> decide!

end OShell

namespace OShell

set_option maxRecDepth 100000 in
/-- C19 (code at the failing input): with `A` set to 250 characters `a` and `B` unset, the line
`$A $BBBBBBBB` (12 characters) has the expected result `aaa...a ` of 251 characters, so line and
result both fit a buffer of `ARGSIZE_MAX` bytes.  The copy of the line into the block fits, but
the first pass through the loop body has to hold the 250 characters of the value followed by
the 10 characters ` $BBBBBBBB`, and writes past the block of `ARGSIZE_MAX` bytes: the pass,
and with it the call for any number of passes allowed, has no defined result.  In a block of
300 bytes the call returns the expected line. -/
theorem loadEnvironmentVars_intermediate_overflow :
    strcpy (zeros ARGSIZE_MAX) (bufOf INPUT_MAX (str "$A $BBBBBBBB")) =
      some (bufOf ARGSIZE_MAX (str "$A $BBBBBBBB")) ∧
    strstr (bufOf ARGSIZE_MAX (str "$A $BBBBBBBB")) 36 = some (some 0) ∧
    expandBody longEnv (bufOf ARGSIZE_MAX (str "$A $BBBBBBBB")) = none ∧
    (∀ fuel, loadEnvironmentVars longEnv fuel (zeros ARGSIZE_MAX)
        (bufOf INPUT_MAX (str "$A $BBBBBBBB")) = none) ∧
    loadEnvironmentVars longEnv 3 (zeros 300) (bufOf INPUT_MAX (str "$A $BBBBBBBB")) =
      some (bufOf INPUT_MAX (List.replicate 250 97 ++ [32])) := by
  have h1 : strcpy (zeros ARGSIZE_MAX) (bufOf INPUT_MAX (str "$A $BBBBBBBB")) =
      some (bufOf ARGSIZE_MAX (str "$A $BBBBBBBB")) := by decide!
  have h2 : strstr (bufOf ARGSIZE_MAX (str "$A $BBBBBBBB")) 36 = some (some 0) := by decide!
  have h3 : expandBody longEnv (bufOf ARGSIZE_MAX (str "$A $BBBBBBBB")) = none := by decide!
  refine ⟨h1, h2, h3, ?_, by decide!⟩
  intro fuel
  unfold loadEnvironmentVars
  rw [h1]
  cases fuel with
  | zero => rfl
  | succ n =>
    dsimp only
    rw [expandLoop, h2]
    dsimp only
    rw [List.drop_zero, h3]

end OShell

namespace OShell

/-! ## Forced split at the token-length bound -/

/-- A run of characters other than NUL, space and double quote that fits the current slot is
appended to the current token. -/
theorem splitLoop_run (run : List Nat) :
    ∀ (rest pre cur : List Nat) (j n : Nat), (∀ c ∈ run, c ≠ 0 ∧ c ≠ 32 ∧ c ≠ 34) →
      pre.length = j * 256 → cur.length + run.length ≤ 255 → run.length ≤ n →
      splitLoop 32 255 (run ++ rest) j cur.length (pre ++ cur ++ zeros n) =
        splitLoop 32 255 rest j (cur.length + run.length)
          (pre ++ (cur ++ run) ++ zeros (n - run.length)) := by
  induction run with
  | nil => intro rest pre cur j n _ _ _ _; simp
  | cons c run ih =>
    intro rest pre cur j n hplain hpre hlen hn
    simp only [List.length_cons] at hlen hn
    obtain ⟨hc0, hc32, hc34⟩ := hplain c (List.mem_cons_self _ _)
    obtain ⟨m, rfl⟩ : ∃ m, n = m + 1 := ⟨n - 1, by omega⟩
    have hk : cur.length ≠ 255 := by omega
    have hw := store_write pre cur m c
    rw [hpre] at hw
    rw [List.cons_append, splitLoop, if_neg hc0, if_neg hc34, if_neg hc32]
    simp only [hk, if_false]
    rw [hw]
    simp only [List.append_eq]
    have := ih rest pre (cur ++ [c]) j m (fun x hx => hplain x (List.mem_cons_of_mem _ hx)) hpre
      (by simp only [List.length_append, List.length_singleton]; omega) (by omega)
    simp only [List.length_append, List.length_singleton] at this
    rw [this]
    simp only [List.length_cons, List.append_assoc, List.singleton_append,
      Nat.add_sub_add_right]
    congr 1
    omega

/-- C20: a line that is one run of `n` characters other than NUL, space and double quote, with
`255 < n ≤ 510`, is stored by `splitString` (maximum token length 255, zero-initialised store)
as two tokens: slot 0 holds the first 255 characters, slot 1 the remaining `n - 255`, every
other slot the empty string, and the index returned is 1.  Each token is read back up to a NUL
inside its own slot, so each is terminated there. -/
theorem splitString_forced_split (run junk : List Nat)
    (hplain : ∀ c ∈ run, c ≠ 0 ∧ c ≠ 32 ∧ c ≠ 34) (hlo : ARGSIZE_MAX - 1 < run.length)
    (hhi : run.length ≤ 2 * (ARGSIZE_MAX - 1)) :
    ∃ store, splitString (run ++ 0 :: junk) 32 (ARGSIZE_MAX - 1)
        (zeros (ARGNUM_MAX * ARGSIZE_MAX)) = some (1, store) ∧
      tokenAt store 0 = some (run.take (ARGSIZE_MAX - 1)) ∧
      tokenAt store 1 = some (run.drop (ARGSIZE_MAX - 1)) ∧
      (∀ r, 2 ≤ r → r < ARGNUM_MAX → tokenAt store r = some []) ∧
      (run.take (ARGSIZE_MAX - 1)).length = ARGSIZE_MAX - 1 ∧
      (run.drop (ARGSIZE_MAX - 1)).length = run.length - (ARGSIZE_MAX - 1) := by
  simp only [ARGSIZE_MAX, ARGNUM_MAX] at hlo hhi ⊢
  have hsplit : run = run.take 255 ++ run.drop 255 := (List.take_append_drop 255 run).symm
  have hla : (run.take 255).length = 255 := by
    rw [List.length_take]; omega
  have hlb : (run.drop 255).length = run.length - 255 := List.length_drop 255 run
  obtain ⟨c, b, hcb⟩ : ∃ c b, run.drop 255 = c :: b :=
    List.exists_cons_of_ne_nil (by
      intro h
      rw [h] at hlb
      simp only [List.length_nil] at hlb
      omega)
  have hpa : ∀ x ∈ run.take 255, x ≠ 0 ∧ x ≠ 32 ∧ x ≠ 34 :=
    fun x hx => hplain x (List.mem_of_mem_take hx)
  have hpb : ∀ x ∈ c :: b, x ≠ 0 ∧ x ≠ 32 ∧ x ≠ 34 :=
    fun x hx => hplain x (List.mem_of_mem_drop (hcb ▸ hx))
  have hlb' : b.length + 1 = run.length - 255 := by
    rw [← hlb, hcb]; rfl
  obtain ⟨hc0, hc32, hc34⟩ := hpb c (List.mem_cons_self _ _)
  -- the first 255 characters fill slot 0
  have h1 := splitLoop_run (run.take 255) (c :: b ++ 0 :: junk) [] [] 0 (11 * 256) hpa
    (by simp) (by simp only [List.length_nil]; omega) (by omega)
  simp only [List.nil_append, List.length_nil, Nat.zero_add, hla] at h1
  -- the next character opens slot 1
  have h2 : writeAt (run.take 255 ++ zeros (11 * 256 - 255)) ((0 + 1) * (255 + 1) + 0) c =
      some ((run.take 255 ++ [0]) ++ [c] ++ zeros (11 * 256 - 257)) := by
    have := store_write (run.take 255 ++ [0]) [] (11 * 256 - 257) c
    simp only [List.length_append, List.length_singleton, List.length_nil, hla,
      List.append_nil] at this
    have e : zeros (11 * 256 - 255) = [0] ++ zeros (11 * 256 - 257 + 1) := rfl
    rw [e, ← List.append_assoc]
    exact this
  -- the rest of the run follows in slot 1
  have h3 := splitLoop_run b (0 :: junk) (run.take 255 ++ [0]) [c] 1 (11 * 256 - 257)
    (fun x hx => hpb x (List.mem_cons_of_mem _ hx))
    (by simp only [List.length_append, List.length_singleton, hla])
    (by simp only [List.length_singleton]; omega) (by omega)
  simp only [List.length_singleton] at h3
  have hrun : splitString (run ++ 0 :: junk) 32 255 (zeros (11 * 256)) =
      some (1, pack [run.take 255, c :: b] ++ zeros (11 * 256 - 256 * 2)) := by
    unfold splitString
    conv_lhs => rw [hsplit, hcb, List.append_assoc]
    rw [h1, List.cons_append, splitLoop, if_neg hc0, if_neg hc34, if_neg hc32]
    simp only [if_true]
    rw [h2]
    simp only [List.append_eq]
    rw [h3, splitLoop]
    simp only [if_true, pack, pad, ARGSIZE_MAX, hla, List.length_cons, List.append_nil,
      List.append_assoc, List.singleton_append, Option.some.injEq, Prod.mk.injEq, true_and,
      List.append_cancel_left_eq]
    have e1 : zeros (256 - 255) = [0] := rfl
    rw [e1, List.singleton_append, zeros_add]
    simp only [List.cons_append, List.cons.injEq, true_and, List.append_cancel_left_eq]
    congr 1
    omega
  have htok : ∀ t ∈ [run.take 255, c :: b], 0 ∉ t ∧ t.length ≤ 255 := by
    intro t ht
    simp only [List.mem_cons, List.mem_singleton, List.not_mem_nil, or_false] at ht
    rcases ht with rfl | rfl
    · exact ⟨fun h => (hpa 0 h).1 rfl, by omega⟩
    · exact ⟨fun h => (hpb 0 h).1 rfl, by simp only [List.length_cons]; omega⟩
  refine ⟨_, hrun, ?_, ?_, ?_, hla, hlb⟩
  · exact tokenAt_pack _ _ 0 htok (by simp)
  · rw [hcb]
    exact tokenAt_pack _ _ 1 htok (by simp)
  · intro r h2r hr
    have := tokenAt_pack [run.take 255, c :: b] (11 * 256 - 256 * 2) r htok
      (by simp only [List.length_cons, List.length_nil]; omega)
    rw [this]
    obtain ⟨r2, rfl⟩ : ∃ r2, r = r2 + 2 := ⟨r - 2, by omega⟩
    rfl

/-- C20, witness: a run of 300 characters `a` is stored as a token of 255 and a token of 45
characters. -/
theorem splitString_forced_split_witness :
    ∃ store, splitString (List.replicate 300 97 ++ 0 :: []) 32 (ARGSIZE_MAX - 1)
        (zeros (ARGNUM_MAX * ARGSIZE_MAX)) = some (1, store) ∧
      tokenAt store 0 = some ((List.replicate 300 97).take (ARGSIZE_MAX - 1)) ∧
      tokenAt store 1 = some ((List.replicate 300 97).drop (ARGSIZE_MAX - 1)) ∧
      (∀ r, 2 ≤ r → r < ARGNUM_MAX → tokenAt store r = some []) ∧
      ((List.replicate 300 97).take (ARGSIZE_MAX - 1)).length = ARGSIZE_MAX - 1 ∧
      ((List.replicate 300 97).drop (ARGSIZE_MAX - 1)).length =
        (List.replicate 300 97).length - (ARGSIZE_MAX - 1) :=
  splitString_forced_split (List.replicate 300 97) []
    (fun c hc => by rw [List.eq_of_mem_replicate hc]; decide)
    (by rw [List.length_replicate]; decide) (by rw [List.length_replicate]; decide)

end OShell

namespace OShell

/-! ## The argument list as the longest prefix of arguments -/

/-- The run `takeWhile p` of a token list: every token in front of its length satisfies `p`, and
the token at its length, when there is one, does not. -/
theorem takeWhile_getD (p : List Nat → Bool) (l : List (List Nat)) :
    (∀ r, r < (l.takeWhile p).length → p (l.getD r []) = true) ∧
      ((l.takeWhile p).length < l.length → p (l.getD (l.takeWhile p).length []) = false) := by
  induction l with
  | nil => exact ⟨fun r h => absurd h (by simp), fun h => absurd h (by simp)⟩
  | cons a l ih =>
    by_cases ha : p a = true
    · rw [List.takeWhile_cons_of_pos ha]
      constructor
      · intro r hr
        cases r with
        | zero => exact ha
        | succ r =>
          simp only [List.length_cons, Nat.add_lt_add_iff_right] at hr
          simpa using ih.1 r hr
      · intro h
        simp only [List.length_cons, Nat.add_lt_add_iff_right] at h
        simpa using ih.2 h
    · rw [List.takeWhile_cons_of_neg ha]
      constructor
      · intro r hr
        simp at hr
      · intro _
        simpa using ha

/-- The argument list on the lines on which the expander returns: let `expanded` be the line as
the expander leaves it in the input buffer, with balanced quotes and at most 10 tokens (the tokens of the reference split, empty ones counted).  Then
`parseInput` returns; the argument count is the length of the longest prefix of the token
sequence whose tokens are all non-empty and do not begin with `&`, that is the index of the
first token that is empty or begins with `&` (the empty slot behind the last token when there
is none); the argument buffers in front of that index hold the tokens of the prefix in order;
the buffers from that index on are left as they were, so the tokens from there on are dropped;
and the value returned is 0 when the token at that index begins with `&` and 1 otherwise. -/
theorem parseInput_longest_prefix (env : Env) (fuel : Nat)
    (block input out expanded : List Nat) (argNum : Nat) (args : List (List Nat))
    (hblock : block.length = ARGSIZE_MAX)
    (hexp : loadEnvironmentVars env fuel block input = some out)
    (hstr : cstr out = some expanded) (hbal : expanded.count 34 % 2 = 0)
    (hcount : (refSplit expanded).length ≤ 10)
    (hargs : args.length = ARGNUM_MAX) (hbuf : ∀ b ∈ args, b.length = ARGSIZE_MAX) :
    ∃ r, parseInput env fuel block input argNum args = some r ∧
      r.argNum = ((refSplit expanded).takeWhile isArgument).length ∧
      (refSplit expanded).take r.argNum = (refSplit expanded).takeWhile isArgument ∧
      (∀ i, i < r.argNum →
        (r.argumentStore.get? i).bind cstr = some ((refSplit expanded).getD i [])) ∧
      (∀ i, r.argNum ≤ i → r.argumentStore.get? i = args.get? i) ∧
      r.ret = (if ((refSplit expanded).getD r.argNum []).head? = some 38 then some 0
        else some 1) ∧
      (r.ret = some 0 ↔ ((refSplit expanded).getD r.argNum []).head? = some 38) := by
  simp only [ARGSIZE_MAX, ARGNUM_MAX] at hblock hargs hbuf
  have hle : ((refSplit expanded).takeWhile isArgument).length ≤ (refSplit expanded).length :=
    (List.takeWhile_prefix isArgument).length_le
  obtain ⟨hin, hat⟩ := takeWhile_getD isArgument (refSplit expanded)
  have hgood : ∀ r, r < ((refSplit expanded).takeWhile isArgument).length →
      (refSplit expanded).getD r [] ≠ [] ∧
        ((refSplit expanded).getD r []).head? ≠ some 38 := by
    intro r hr
    have := hin r hr
    simpa [isArgument] using this
  have hstop : (refSplit expanded).getD ((refSplit expanded).takeWhile isArgument).length [] = [] ∨
      ((refSplit expanded).getD ((refSplit expanded).takeWhile isArgument).length []).head? =
        some 38 := by
    rcases Nat.lt_or_ge ((refSplit expanded).takeWhile isArgument).length
      (refSplit expanded).length with h | h
    · have := hat h
      simp only [isArgument, Bool.and_eq_false_imp, bne_iff_ne, ne_eq, bne_eq_false_iff_eq] at this
      by_cases he : (refSplit expanded).getD
          ((refSplit expanded).takeWhile isArgument).length [] = []
      · exact Or.inl he
      · exact Or.inr (this he)
    · left
      rw [List.getD_eq_getElem?_getD, List.getElem?_eq_none h]
      rfl
  obtain ⟨args1, h1, _, h3, h4⟩ := parseInput_prefix env fuel block input out expanded argNum
    ((refSplit expanded).takeWhile isArgument).length args hblock hexp hstr hbal (by omega)
    (by omega) hgood hstop hargs hbuf
  refine ⟨_, h1, rfl, ?_, h3, h4, rfl, ?_⟩
  · exact (List.prefix_iff_eq_take.1 (List.takeWhile_prefix isArgument)).symm
  · show (if _ then some 0 else some 1) = some 0 ↔ _
    split <;> simp_all

/-- Instances of `parseInput_longest_prefix`: `ls  -l` (two spaces) has the tokens `ls`, the empty token and `-l`: the count
is 1, `-l` is dropped and the value returned is 1.  `ls &x y` has the tokens `ls`, `&x` and `y`:
the count is 1, `&x` and `y` are dropped and the value returned is 0. -/
theorem parseInput_longest_prefix_witness :
    (∃ r, parseInput sampleEnv 1 (zeros 256) (bufOf INPUT_MAX (str "ls  -l")) 0
        (List.replicate 11 (zeros 256)) = some r ∧
      r.argNum = 1 ∧ (r.argumentStore.get? 0).bind cstr = some (str "ls") ∧
      r.argumentStore.get? 1 = some (zeros 256) ∧ r.argumentStore.get? 2 = some (zeros 256) ∧
      r.ret = some 1) ∧
    (∃ r, parseInput sampleEnv 1 (zeros 256) (bufOf INPUT_MAX (str "ls &x y")) 0
        (List.replicate 11 (zeros 256)) = some r ∧
      r.argNum = 1 ∧ (r.argumentStore.get? 0).bind cstr = some (str "ls") ∧
      r.argumentStore.get? 1 = some (zeros 256) ∧ r.argumentStore.get? 2 = some (zeros 256) ∧
      r.ret = some 0) := by
  constructor
  · obtain ⟨r, h1, h2, _, h4, h5, h6, _⟩ := parseInput_longest_prefix sampleEnv 1 (zeros 256)
      (bufOf INPUT_MAX (str "ls  -l")) (bufOf INPUT_MAX (str "ls  -l")) (str "ls  -l") 0
      (List.replicate 11 (zeros 256)) (by decide!) (by decide!) (by decide!) (by decide)
      (by decide) (by decide!) (by decide!)
    have e : ((refSplit (str "ls  -l")).takeWhile isArgument).length = 1 := by decide
    rw [e] at h2
    rw [h2] at h4 h5 h6
    exact ⟨r, h1, h2, h4 0 (by decide), h5 1 (by decide), h5 2 (by decide), h6⟩
  · obtain ⟨r, h1, h2, _, h4, h5, h6, _⟩ := parseInput_longest_prefix sampleEnv 1 (zeros 256)
      (bufOf INPUT_MAX (str "ls &x y")) (bufOf INPUT_MAX (str "ls &x y")) (str "ls &x y") 0
      (List.replicate 11 (zeros 256)) (by decide!) (by decide!) (by decide!) (by decide)
      (by decide) (by decide!) (by decide!)
    have e : ((refSplit (str "ls &x y")).takeWhile isArgument).length = 1 := by decide
    rw [e] at h2
    rw [h2] at h4 h5 h6
    exact ⟨r, h1, h2, h4 0 (by decide), h5 1 (by decide), h5 2 (by decide), h6⟩

end OShell

namespace OShell

set_option maxRecDepth 100000 in
/-- C21 (code at the failing input): the line of 150 characters `a`, two spaces and 150
characters `b` has three tokens, the second one empty.  The copy of its 302 characters into the
block of `ARGSIZE_MAX` bytes that `loadEnvironmentVars` allocates writes past the block, so
`parseInput` has no defined result, whatever number of passes the expander is allowed; it does
not deliver the one-token prefix.  In a block of 400 bytes the expander returns the line
unchanged. -/
theorem parseInput_gap_line_overflows :
    gapLine.length = 302 ∧
    strcpy (zeros ARGSIZE_MAX) (bufOf INPUT_MAX gapLine) = none ∧
    (∀ fuel, parseInput sampleEnv fuel (zeros ARGSIZE_MAX) (bufOf INPUT_MAX gapLine) 0
        (List.replicate ARGNUM_MAX (zeros ARGSIZE_MAX)) = none) ∧
    loadEnvironmentVars sampleEnv 1 (zeros 400) (bufOf INPUT_MAX gapLine) =
      some (bufOf INPUT_MAX gapLine) := by
  have h1 : strcpy (zeros ARGSIZE_MAX) (bufOf INPUT_MAX gapLine) = none := by decide!
  refine ⟨by decide!, h1, ?_, by decide!⟩
  intro fuel
  unfold parseInput loadEnvironmentVars
  rw [h1]

end OShell

namespace OShell

/-! ## Lines without `$` that fit the block

On a line of fewer than `ARGSIZE_MAX` characters that holds no `$` the expander returns the
line as it is, for any content of the block, so the statements about `parseInput` and the loop
of `shell` hold for the line itself, with no assumption on the expander. -/

/-- The function `takeInput` on a line that `fgets` delivers with its newline and that fits the
buffer: the newline is replaced by a terminator. -/
theorem takeInput_line (line inputStore : List Nat) (h0 : 0 ∉ line)
    (hfit : line.length + 2 ≤ inputStore.length) :
    takeInput (some (line ++ [10])) inputStore =
      some (line ++ 0 :: 0 :: inputStore.drop (line.length + 2)) := by
  have hc : 0 ∉ line ++ [10] := by
    intro h
    rcases List.mem_append.1 h with h1 | h1
    · exact h0 h1
    · simp at h1
  unfold takeInput
  simp only [List.length_append, List.length_singleton]
  rw [if_pos (by omega)]
  dsimp only
  rw [strlen, cstr_append _ _ hc]
  simp only [Option.map_some', List.length_append, List.length_singleton]
  rw [List.append_assoc, List.singleton_append]
  exact writeAt_append line _ 10 0

/-- The background marker on a typed line without `$` of fewer than `ARGSIZE_MAX` characters
with balanced quotes: when its tokens are the `k ≤ 10` tokens `toks` (none empty, none starting
with `&`) followed by the token `&`, `parseInput` returns 0, sets the argument count to `k` and
stores the `k` tokens in order; when its tokens are `toks` alone it returns 1, with the same
count and arguments. -/
theorem parseInput_background_marker_plain (env : Env) (fuel : Nat)
    (block line junk : List Nat) (argNum : Nat) (args : List (List Nat))
    (toks : List (List Nat)) (hblock : block.length = ARGSIZE_MAX)
    (hline : ∀ c ∈ line, c ≠ 36 ∧ c ≠ 0) (hlen : line.length < ARGSIZE_MAX)
    (hbal : line.count 34 % 2 = 0)
    (hargs : args.length = ARGNUM_MAX) (hbuf : ∀ b ∈ args, b.length = ARGSIZE_MAX)
    (hk : toks.length ≤ 10) (hgood : ∀ t ∈ toks, t ≠ [] ∧ t.head? ≠ some 38) :
    (refSplit line = toks ++ [[38]] →
      ∃ r, parseInput env (fuel + 1) block (line ++ 0 :: junk) argNum args = some r ∧
        r.ret = some 0 ∧ r.argNum = toks.length ∧
        ∀ i, i < toks.length → (r.argumentStore.get? i).bind cstr = some (toks.getD i [])) ∧
    (refSplit line = toks →
      ∃ r, parseInput env (fuel + 1) block (line ++ 0 :: junk) argNum args = some r ∧
        r.ret = some 1 ∧ r.argNum = toks.length ∧
        ∀ i, i < toks.length → (r.argumentStore.get? i).bind cstr = some (toks.getD i [])) :=
  parseInput_background_marker env (fuel + 1) block (line ++ 0 :: junk) (line ++ 0 :: junk)
    line argNum args toks hblock
    (loadEnvironmentVars_plain env fuel block line junk hline (by rw [hblock]; exact hlen))
    (cstr_append line junk (fun h => (hline 0 h).2 rfl)) hbal hargs hbuf hk hgood

/-- The argument list on a typed line without `$` of fewer than `ARGSIZE_MAX` characters, with
balanced quotes and at most 10 tokens: `parseInput` returns, the argument count is the length of
the longest prefix of tokens that are not empty and do not begin with `&`, the argument buffers
in front of the count hold that prefix, the buffers from the count on are left as they were, and
the value returned is 0 when the token at the count begins with `&` and 1 otherwise. -/
theorem parseInput_longest_prefix_plain (env : Env) (fuel : Nat)
    (block line junk : List Nat) (argNum : Nat) (args : List (List Nat))
    (hblock : block.length = ARGSIZE_MAX)
    (hline : ∀ c ∈ line, c ≠ 36 ∧ c ≠ 0) (hlen : line.length < ARGSIZE_MAX)
    (hbal : line.count 34 % 2 = 0) (hcount : (refSplit line).length ≤ 10)
    (hargs : args.length = ARGNUM_MAX) (hbuf : ∀ b ∈ args, b.length = ARGSIZE_MAX) :
    ∃ r, parseInput env (fuel + 1) block (line ++ 0 :: junk) argNum args = some r ∧
      r.argNum = ((refSplit line).takeWhile isArgument).length ∧
      (refSplit line).take r.argNum = (refSplit line).takeWhile isArgument ∧
      (∀ i, i < r.argNum →
        (r.argumentStore.get? i).bind cstr = some ((refSplit line).getD i [])) ∧
      (∀ i, r.argNum ≤ i → r.argumentStore.get? i = args.get? i) ∧
      r.ret = (if ((refSplit line).getD r.argNum []).head? = some 38 then some 0
        else some 1) ∧
      (r.ret = some 0 ↔ ((refSplit line).getD r.argNum []).head? = some 38) :=
  parseInput_longest_prefix env (fuel + 1) block (line ++ 0 :: junk) (line ++ 0 :: junk)
    line argNum args hblock
    (loadEnvironmentVars_plain env fuel block line junk hline (by rw [hblock]; exact hlen))
    (cstr_append line junk (fun h => (hline 0 h).2 rfl)) hbal hcount hargs hbuf

/-- The loop of `shell` on a typed line without `$` of fewer than `ARGSIZE_MAX` characters, with
balanced quotes and at most 10 tokens, whose token 0 is `exit`: the pass returns with `running`
cleared, no call to `builtIn` or `executeCommand` is made, environment and working directory
are unchanged, and the loop ends after this pass whatever lines would follow. -/
theorem shell_exit_ends_loop_plain (chdir : List Nat → Bool) (fuel : Nat)
    (block line : List Nat) (st : Shell) (hblock : block.length = ARGSIZE_MAX)
    (hline : ∀ c ∈ line, c ≠ 36 ∧ c ≠ 0) (hlen : line.length < ARGSIZE_MAX)
    (hbal : line.count 34 % 2 = 0) (hcount : (refSplit line).length ≤ 10)
    (hexit : (refSplit line).head? = some [101, 120, 105, 116])
    (hinput : st.input.length = INPUT_MAX)
    (hnum : st.arguments.length = ARGNUM_MAX)
    (hsize : ∀ b ∈ st.arguments, b.length = ARGSIZE_MAX) :
    ∃ st1, shellIteration chdir (fuel + 1) (some (line ++ [10])) block st = some (st1, false) ∧
      st1.events = st.events ∧ st1.env = st.env ∧ st1.workDir = st.workDir ∧
      ∀ rest, shellLoop chdir (fuel + 1) ((some (line ++ [10]), block) :: rest) st =
        some (st1, false) := by
  simp only [ARGSIZE_MAX, INPUT_MAX] at hblock hlen hinput
  have h0 : 0 ∉ line := fun h => (hline 0 h).2 rfl
  have hin := takeInput_line line st.input h0 (by omega)
  have hexp := loadEnvironmentVars_plain st.env fuel block line
    (0 :: st.input.drop (line.length + 2)) hline (by omega)
  have htlen : ∀ t ∈ refSplit line, t.length ≤ 255 := by
    intro t ht
    rw [refSplit_eq_refAux] at ht
    have := length_refAux false line t ht
    omega
  have hsplit := splitString_store line (0 :: st.input.drop (line.length + 2)) h0 hbal
    (by omega) htlen
  have htok : tokenAt (pack (refSplit line) ++ zeros (11 * 256 - 256 * (refSplit line).length))
      0 = some [101, 120, 105, 116] := by
    rw [tokenAt_pack (refSplit line) _ 0 (fun t ht => ⟨fun h => h0 (by
      rw [refSplit_eq_refAux] at ht
      exact mem_refAux false line t ht 0 h), htlen t ht⟩) (by omega)]
    cases hr : refSplit line with
    | nil => rw [hr] at hexit; simp at hexit
    | cons t ts =>
      rw [hr] at hexit
      simp only [List.head?_cons, Option.some.injEq] at hexit
      rw [hexit]
      rfl
  obtain ⟨r, hr, _⟩ := parseInput_longest_prefix_plain st.env fuel block line
    (0 :: st.input.drop (line.length + 2)) st.argNum st.arguments hblock hline hlen hbal hcount
    hnum hsize
  have hloop : ∃ res, parseLoop (pack (refSplit line) ++
      zeros (11 * 256 - 256 * (refSplit line).length)) ARGNUM_MAX 0 st.argNum st.arguments =
      some res := by
    unfold parseInput at hr
    rw [hexp] at hr
    dsimp only at hr
    rw [show ARGSIZE_MAX - 1 = 255 from rfl, show ARGNUM_MAX * ARGSIZE_MAX = 11 * 256 from rfl,
      hsplit] at hr
    dsimp only at hr
    cases hp : parseLoop (pack (refSplit line) ++
        zeros (11 * 256 - 256 * (refSplit line).length)) ARGNUM_MAX 0 st.argNum st.arguments with
    | none => rw [hp] at hr; simp at hr
    | some res => exact ⟨res, rfl⟩
  obtain ⟨res, hres⟩ := hloop
  exact shell_exit_ends_loop chdir (fuel + 1) (some (line ++ [10])) block _ _ _ _ st res hin hexp
    hsplit htok hres hnum hsize

end OShell
